import Mathlib

/-!
Verification of the `easy_file` Durable Write & Typed Codec subsystem.

Shallow embedding of `src/easy_file/easy_file.py` (the `File` class built on
`pathlib.Path` + `msgspec`): the atomic write protocol
(`_atomic_write_bytes`, the `atomic_write` context manager), the JSON/YAML
load/dump operations, the error surface, and the async batch read.

Modelling conventions:
* File contents are Lean `String`s (standing for the UTF-8 byte sequences the
  Python code reads and writes; `read_bytes`/`write` move whole strings).
* A path is a pair (parent directory, file name), mirroring
  `self.parent` / `self.name` used by the write protocol.
* The filesystem is an association list from paths to entries; an entry is
  either readable content or a permission-denied marker.
* Python exceptions are an explicit error type; operations return `Except`.
* The msgspec JSON/YAML codecs called by `load_json` / `dump_json` /
  `load_yaml` / `dump_yaml` are an external C dependency whose source is not
  part of this repository; they are modelled from the spec (standard JSON
  grammar, block-style YAML with the scalar set of §6, the numeric semantics
  of §4.2) and from the output examples fixed in the source docstrings.
  Finite floating-point numbers are represented by their exact decimal value
  (significand × 10^exponent): the codec prints a finite double as a decimal
  that parses back to the same double, so the decimal token is a faithful
  proxy for the double and float identity is decimal identity.
-/

namespace EasyFile


/-! ## Paths, filesystem state, Python errors -/

/-- A filesystem path as used by the write protocol: `dir` is `self.parent`,
`name` is `self.name`. -/
structure PPath where
  dir : String
  name : String
deriving DecidableEq, Repr

/-- Rendering of a path as it appears in error messages (`f"{self}"`). -/
def PPath.render (p : PPath) : String := p.dir ++ "/" ++ p.name

/-- A directory entry: readable content, or an access-denied marker. -/
inductive Entry where
  | data (content : String)
  | denied
deriving DecidableEq, Repr

/-- Filesystem state: the set of existing directories and an association list
from paths to entries. -/
structure FS where
  dirs : List String
  files : List (PPath × Entry)
deriving DecidableEq, Repr

/-- Entry lookup in an association list of files. -/
def lookupE (p : PPath) : List (PPath × Entry) → Option Entry
  | [] => none
  | (a, e) :: t => if p = a then some e else lookupE p t

/-- Drop every binding of a path from an association list of files. -/
def eraseKey (p : PPath) : List (PPath × Entry) → List (PPath × Entry)
  | [] => []
  | (a, e) :: t => if a = p then eraseKey p t else (a, e) :: eraseKey p t

/-- Look up the entry at a path. -/
def FS.get (fs : FS) (p : PPath) : Option Entry :=
  lookupE p fs.files

/-- Create/overwrite the file at a path (`open(..., "wb")` / writes). -/
def FS.put (fs : FS) (p : PPath) (e : Entry) : FS :=
  { fs with files := (p, e) :: eraseKey p fs.files }

/-- Remove the file at a path (`os.remove` / `Path.unlink`). -/
def FS.del (fs : FS) (p : PPath) : FS :=
  { fs with files := eraseKey p fs.files }

/-- `self.parent.mkdir(parents=True, exist_ok=True)`. -/
def FS.mkdirP (fs : FS) (d : String) : FS :=
  { fs with dirs := d :: fs.dirs }

/-- Python exceptions surfaced by the modelled operations. -/
inductive PyErr where
  | fileNotFoundError (msg : String)
  | permissionError (msg : String)
  | jsonDecodeError (msg : String)
  | yamlDecodeError (msg : String)
  | typeError (msg : String)
  | valueError (msg : String)
  | osError (msg : String)
deriving DecidableEq, Repr

/-- `Path.read_bytes()`: missing file raises `FileNotFoundError`, access
denial raises `PermissionError`, otherwise the content is returned. -/
def readBytes (fs : FS) (p : PPath) : Except PyErr String :=
  match fs.get p with
  | none => .error (.fileNotFoundError ("No such file or directory: " ++ p.render))
  | some .denied => .error (.permissionError ("Permission denied: " ++ p.render))
  | some (.data c) => .ok c

/-! ## The atomic write protocol (`_atomic_write_bytes`, lines 198-235)

`_atomic_write_bytes` creates a `NamedTemporaryFile` with
`dir=self.parent`, `prefix=f".{self.name}."`, `delete=False`; writes the
data; `flush()`; `os.fsync`; closes; then `os.replace(tmp_path, self)`.
On any exception after the temp path is known it best-effort removes the
temp file and re-raises.

The unique suffix the OS appends to the prefix is a parameter `sfx`; a fault
is injected at one protocol step (or none).  `duringWrite k` models the
process failing after only the first `k` characters reached the temp file. -/

/-- The temporary path allocated by `tempfile.NamedTemporaryFile(dir=self.parent,
prefix=f".{self.name}.")` with OS-chosen unique suffix `sfx`. -/
def tmpPath (target : PPath) (sfx : String) : PPath :=
  ⟨target.dir, "." ++ target.name ++ "." ++ sfx⟩

/-- Fault-injection points of `_atomic_write_bytes`. -/
inductive Fault where
  | atMkdir
  | atCreate
  | duringWrite (k : Nat)
  | atFsync
  | atClose
  | atRename
deriving DecidableEq, Repr

/-- Observable protocol actions, for comparing the code against the spec's
`write(path, bytes, durable)` description (§4.1 / §6 durability flag). -/
inductive Action where
  | mkdir
  | createTemp
  | write
  | flush
  | fsync
  | close
  | rename
  | removeTemp
deriving DecidableEq, Repr

/-- Result of one protocol run: every intermediate filesystem state in order
(what a concurrent reader could observe), the final state, and the outcome. -/
structure RunResult where
  states : List FS
  final : FS
  outcome : Except PyErr Unit
deriving Repr

/-- The cleanup handler of lines 231-235: if the temp path was assigned and
still exists, remove it (errors suppressed), then re-raise `e`. -/
def cleanupRun (fs : FS) (tmp : PPath) (pre : List FS) (e : PyErr) : RunResult :=
  let fs' := fs.del tmp
  { states := pre ++ [fs, fs'], final := fs', outcome := .error e }

/-- One run of `_atomic_write_bytes(data)` on target `t` with temp suffix
`sfx` and an optional injected fault. -/
def awbRun (fs : FS) (t : PPath) (sfx : String) (data : String)
    (fault : Option Fault) : RunResult :=
  if fault = some .atMkdir then
    { states := [fs], final := fs, outcome := .error (.osError "mkdir failed") }
  else
    let fs1 := fs.mkdirP t.dir
    if fault = some .atCreate then
      -- tmp_path is still None: the except-branch skips the removal
      { states := [fs, fs1], final := fs1, outcome := .error (.osError "open failed") }
    else
      let tmp := tmpPath t sfx
      let fs2 := fs1.put tmp (.data "")
      match fault with
      | some (.duringWrite k) =>
          let fs3 := fs2.put tmp (.data (data.take k))
          cleanupRun fs3 tmp [fs, fs1, fs2] (.osError "write failed")
      | _ =>
        let fs3 := fs2.put tmp (.data data)
        if fault = some .atFsync then
          cleanupRun fs3 tmp [fs, fs1, fs2] (.osError "fsync failed")
        else if fault = some .atClose then
          cleanupRun fs3 tmp [fs, fs1, fs2] (.osError "close failed")
        else if fault = some .atRename then
          cleanupRun fs3 tmp [fs, fs1, fs2] (.osError "rename failed")
        else
          -- os.replace(tmp_path, self): one atomic transition
          let fs4 := (fs3.del tmp).put t (.data data)
          { states := [fs, fs1, fs2, fs3, fs4], final := fs4, outcome := .ok () }

/-- Action trace of a fault-free `_atomic_write_bytes` run, read off lines
211-230 of the source. -/
def awbActions : List Action :=
  [.mkdir, .createTemp, .write, .flush, .fsync, .close, .rename]

/-- Modelled from the spec: the action trace of §4.1's
`write(path, bytes, durable)` — mkdir, create temp, write, then if `durable`
force the contents to stable storage (buffered flush + synchronous fsync) and
close, else only close, then atomically rename. -/
def specWriteActions (durable : Bool) : List Action :=
  [.mkdir, .createTemp, .write]
    ++ (if durable then [.flush, .fsync, .close] else [.close])
    ++ [.rename]

/-! ## The `atomic_write` context manager (lines 327-386)

The caller's body writes a sequence of chunks to the yielded temp file, and
may raise after any number of chunks.  On body failure the file is closed and
unlinked; on success it is flushed, closed, and `tmp_path.replace(self)` runs.
The entry check (lines 353-354) rejects an explicit encoding in binary mode
before anything touches the filesystem. -/

/-- Fault-injection points of the `atomic_write` context manager. -/
inductive CtxFault where
  | atMkdir
  | atCreate
  | inBody (chunksDone : Nat)
  | atFlush
  | atClose
  | atRename
deriving DecidableEq, Repr

/-- One run of `with t.atomic_write(mode, encoding) as f: …` where the body
writes `chunks` in order; optional injected fault.  `inBody k` models the
body raising after writing the first `k` chunks. -/
def ctxRun (fs : FS) (t : PPath) (sfx : String) (mode : String)
    (encoding : Option String) (chunks : List String)
    (fault : Option CtxFault) : RunResult :=
  if encoding ≠ none ∧ 'b' ∈ mode.data then
    { states := [fs], final := fs,
      outcome := .error (.valueError "encoding argument not supported in binary mode") }
  else if fault = some .atMkdir then
    { states := [fs], final := fs, outcome := .error (.osError "mkdir failed") }
  else
    let fs1 := fs.mkdirP t.dir
    if fault = some .atCreate then
      -- tmp_path is still None: the except-branch skips the unlink
      { states := [fs, fs1], final := fs1, outcome := .error (.osError "open failed") }
    else
      let tmp := tmpPath t sfx
      let fs2 := fs1.put tmp (.data "")
      match fault with
      | some (.inBody k) =>
          let fs3 := fs2.put tmp (.data (String.join (chunks.take k)))
          cleanupRun fs3 tmp [fs, fs1, fs2] (.osError "body failed")
      | _ =>
        let fs3 := fs2.put tmp (.data (String.join chunks))
        if fault = some .atFlush then
          cleanupRun fs3 tmp [fs, fs1, fs2] (.osError "flush failed")
        else if fault = some .atClose then
          cleanupRun fs3 tmp [fs, fs1, fs2] (.osError "close failed")
        else if fault = some .atRename then
          cleanupRun fs3 tmp [fs, fs1, fs2] (.osError "rename failed")
        else
          let fs4 := (fs3.del tmp).put t (.data (String.join chunks))
          { states := [fs, fs1, fs2, fs3, fs4], final := fs4, outcome := .ok () }

/-- Action trace of a fault-free `atomic_write` run with a `n`-chunk body,
read off lines 359-381 of the source: no fsync ever happens there. -/
def ctxActions (n : Nat) : List Action :=
  [.mkdir, .createTemp] ++ List.replicate n .write ++ [.flush, .close, .rename]

/-! ## Structured values

`StructuredValue` (§3): a discriminated tree of null, booleans, integers,
floats, Unicode strings, sequences, and string-keyed mappings in insertion
order.  `float sig exp` is the exact decimal `sig × 10^exp` (see the header).
`unsupported tag` stands for any Python object outside the codec's domain
(an unrepresentable construct: the encoder rejects it). -/
inductive PyVal where
  | null
  | boolean (b : Bool)
  | int (n : Int)
  | float (sig : Int) (exp : Int)
  | str (s : String)
  | arr (xs : List PyVal)
  | obj (kvs : List (String × PyVal))
  | unsupported (tag : String)

mutual

/-- Is the value inside the codec's supported domain? -/
def PyVal.supported : PyVal → Bool
  | .arr xs => suppList xs
  | .obj kvs => suppFields kvs
  | .unsupported _ => false
  | _ => true

def suppList : List PyVal → Bool
  | [] => true
  | x :: t => x.supported && suppList t

def suppFields : List (String × PyVal) → Bool
  | [] => true
  | kv :: t => kv.2.supported && suppFields t

end

/-! ## Decimal digits -/

/-- The character of a decimal digit. -/
def digitChar (n : Nat) : Char := Char.ofNat (48 + n)

/-- Decimal digits of a natural number, most significant first (`fuel`-driven
so that the kernel can evaluate it; `fuel > n` suffices). -/
def natToDigitsAux : Nat → Nat → List Char
  | 0, _ => []
  | fuel + 1, n =>
    if n < 10 then [digitChar n]
    else natToDigitsAux fuel (n / 10) ++ [digitChar (n % 10)]

/-- Decimal digits of a natural number. -/
def natToDigits (n : Nat) : List Char := natToDigitsAux (n + 1) n

/-- Decimal rendering of an integer. -/
def intToDigits (m : Int) : List Char :=
  if m < 0 then '-' :: natToDigits m.natAbs else natToDigits m.toNat

/-- Numeric value of a digit character. -/
def digitVal (c : Char) : Nat := c.toNat - 48

/-- Consume a run of decimal digits, folding them into `acc`. -/
def parseNatAux (acc : Nat) : List Char → Nat × List Char
  | [] => (acc, [])
  | c :: cs => if c.isDigit then parseNatAux (acc * 10 + digitVal c) cs else (acc, c :: cs)

/-- Consume a run of decimal digits, also counting how many were read. -/
def parseFracAux (acc len : Nat) : List Char → Nat × Nat × List Char
  | [] => (acc, len, [])
  | c :: cs =>
    if c.isDigit then parseFracAux (acc * 10 + digitVal c) (len + 1) cs
    else (acc, len, c :: cs)

/-! ## JSON string escaping (msgspec escapes `"`, `\\` and control characters,
and leaves all other Unicode as raw UTF-8) -/

/-- Upper-case hexadecimal digit character. -/
def hexDigit (n : Nat) : Char := if n < 10 then digitChar n else Char.ofNat (55 + n)

/-- Escape one character of a JSON string. -/
def escChar (c : Char) : List Char :=
  if c = '"' then ['\\', '"']
  else if c = '\\' then ['\\', '\\']
  else if c = '\n' then ['\\', 'n']
  else if c = '\t' then ['\\', 't']
  else if c = '\r' then ['\\', 'r']
  else if c.toNat = 8 then ['\\', 'b']
  else if c.toNat = 12 then ['\\', 'f']
  else if c.toNat < 32 then
    ['\\', 'u', '0', '0', hexDigit (c.toNat / 16), hexDigit (c.toNat % 16)]
  else [c]

/-- Escape the characters of a JSON string body. -/
def escList : List Char → List Char
  | [] => []
  | c :: t => escChar c ++ escList t

/-- Numeric value of a hexadecimal digit character. -/
def hexVal (c : Char) : Nat :=
  if c.isDigit then c.toNat - 48
  else if 'a' ≤ c && c ≤ 'f' then c.toNat - 87
  else if 'A' ≤ c && c ≤ 'F' then c.toNat - 55
  else 0

/-- Is the character a hexadecimal digit? -/
def isHex (c : Char) : Bool :=
  c.isDigit || ('a' ≤ c && c ≤ 'f') || ('A' ≤ c && c ≤ 'F')

/-- Parse the body of a JSON string after the opening quote, up to and
including the closing quote; returns the unescaped characters and the rest. -/
def pStrBody (cs : List Char) : Option (List Char × List Char) :=
  match cs with
  | [] => none
  | c :: rest =>
    if c = '"' then some ([], rest)
    else if c = '\\' then
      match rest with
      | [] => none
      | e :: r1 =>
        if e = '"' ∨ e = '\\' ∨ e = '/' then
          (pStrBody r1).map (fun p => (e :: p.1, p.2))
        else if e = 'n' then (pStrBody r1).map (fun p => ('\n' :: p.1, p.2))
        else if e = 't' then (pStrBody r1).map (fun p => ('\t' :: p.1, p.2))
        else if e = 'r' then (pStrBody r1).map (fun p => ('\r' :: p.1, p.2))
        else if e = 'b' then (pStrBody r1).map (fun p => (Char.ofNat 8 :: p.1, p.2))
        else if e = 'f' then (pStrBody r1).map (fun p => (Char.ofNat 12 :: p.1, p.2))
        else if e = 'u' then
          match r1 with
          | h1 :: h2 :: h3 :: h4 :: r2 =>
            if isHex h1 && isHex h2 && isHex h3 && isHex h4 then
              (pStrBody r2).map (fun p =>
                (Char.ofNat (((hexVal h1 * 16 + hexVal h2) * 16 + hexVal h3) * 16 + hexVal h4)
                  :: p.1, p.2))
            else none
          | _ => none
        else none
    else (pStrBody rest).map (fun p => (c :: p.1, p.2))
termination_by structural cs

/-! ## JSON numbers -/

/-- Negate a parsed number (applied when the token began with a minus). -/
def negNum : PyVal → PyVal
  | .int n => .int (-n)
  | .float m e => .float (-m) e
  | v => v

/-- Parse a digit run as the exponent magnitude, then build the float
(`sgn` is the exponent's sign as an integer unit). -/
def pExpDigits (sig : Int) (fshift : Nat) (sgn : Int) (cs : List Char) :
    Option (PyVal × List Char) :=
  match cs with
  | [] => none
  | c :: t =>
    if c.isDigit then
      let p := parseNatAux 0 (c :: t)
      some (.float sig (sgn * (p.1 : Int) - fshift), p.2)
    else none

/-- Parse the exponent part after `e`/`E`: optional sign and digits; `sig` and
`fshift` come from the integer and fraction parts already read. -/
def pExp (sig : Int) (fshift : Nat) (cs : List Char) : Option (PyVal × List Char) :=
  match cs with
  | [] => none
  | c :: t =>
    if c = '+' then pExpDigits sig fshift 1 t
    else if c = '-' then pExpDigits sig fshift (-1) t
    else pExpDigits sig fshift 1 (c :: t)

/-- Continue a parsed fraction: exponent or done. -/
def pFracTail (sig : Int) (flen : Nat) (cs : List Char) : Option (PyVal × List Char) :=
  match cs with
  | [] => some (.float sig (-(flen : Int)), [])
  | c :: t =>
    if c = 'e' ∨ c = 'E' then pExp sig flen t
    else some (.float sig (-(flen : Int)), c :: t)

/-- Continue a number after its integer part: fraction, exponent, or done. -/
def pNumTail (ip : Nat) (cs : List Char) : Option (PyVal × List Char) :=
  match cs with
  | [] => some (.int (ip : Int), [])
  | c :: t =>
    if c = '.' then
      match t with
      | [] => none
      | d :: t2 =>
        if d.isDigit then
          let p := parseFracAux 0 0 (d :: t2)
          pFracTail ((ip : Int) * (10 : Int) ^ p.2.1 + (p.1 : Int)) p.2.1 p.2.2
        else none
    else if c = 'e' ∨ c = 'E' then pExp (ip : Int) 0 t
    else some (.int (ip : Int), c :: t)

/-- Parse an unsigned JSON number. -/
def pNumPos (cs : List Char) : Option (PyVal × List Char) :=
  match cs with
  | c :: _ =>
    if c.isDigit then
      let p := parseNatAux 0 cs
      pNumTail p.1 p.2
    else none
  | [] => none

/-- Parse a JSON number token (this model is lenient about leading zeros). -/
def pNum (cs : List Char) : Option (PyVal × List Char) :=
  match cs with
  | [] => none
  | c :: t =>
    if c = '-' then (pNumPos t).map (fun p => (negNum p.1, p.2))
    else pNumPos (c :: t)

/-! ## The JSON grammar machine

A single fuel-driven machine (structural in the fuel, so the kernel can run
it): mode `val` parses one value, `elems`/`elemsCont` the inside of an array,
`fields`/`fieldsCont` the inside of an object.  Whitespace is skipped at
token boundaries, per the standard JSON grammar. -/

/-- JSON insignificant whitespace. -/
def wsChar (c : Char) : Bool := c = ' ' || c = '\n' || c = '\t' || c = '\r'

/-- Drop leading whitespace. -/
def skipWs : List Char → List Char
  | [] => []
  | c :: t => if wsChar c then skipWs t else c :: t

/-- Parser modes. -/
inductive JMode where
  | val
  | elems
  | elemsCont
  | fields
  | fieldsCont

/-- Parser intermediate results. -/
inductive JOut where
  | val (v : PyVal)
  | elems (xs : List PyVal)
  | fields (kvs : List (String × PyVal))

/-- One step family of the JSON grammar machine. -/
def jstep : JMode → Nat → List Char → Except String (JOut × List Char)
  | _, 0, _ => .error "recursion limit exceeded"
  | .val, fuel + 1, cs =>
    match skipWs cs with
    | [] => .error "truncated JSON"
    | c :: r =>
      if c = 'n' then
        match r with
        | 'u' :: 'l' :: 'l' :: r2 => .ok (.val .null, r2)
        | _ => .error "JSON is malformed"
      else if c = 't' then
        match r with
        | 'r' :: 'u' :: 'e' :: r2 => .ok (.val (.boolean true), r2)
        | _ => .error "JSON is malformed"
      else if c = 'f' then
        match r with
        | 'a' :: 'l' :: 's' :: 'e' :: r2 => .ok (.val (.boolean false), r2)
        | _ => .error "JSON is malformed"
      else if c = '"' then
        match pStrBody r with
        | some p => .ok (.val (.str p.1.asString), p.2)
        | none => .error "malformed string"
      else if c = '[' then
        match jstep .elems fuel r with
        | .ok (.elems xs, r2) => .ok (.val (.arr xs), r2)
        | .ok _ => .error "JSON is malformed"
        | .error e => .error e
      else if c = '{' then
        match jstep .fields fuel r with
        | .ok (.fields kvs, r2) => .ok (.val (.obj kvs), r2)
        | .ok _ => .error "JSON is malformed"
        | .error e => .error e
      else if c = '-' || c.isDigit then
        match pNum (c :: r) with
        | some p => .ok (.val p.1, p.2)
        | none => .error "malformed number"
      else .error "JSON is malformed"
  | .elems, fuel + 1, cs =>
    match skipWs cs with
    | [] => .error "truncated JSON"
    | c :: r =>
      if c = ']' then .ok (.elems [], r)
      else
        match jstep .val fuel (c :: r) with
        | .ok (.val v, r1) =>
          match jstep .elemsCont fuel r1 with
          | .ok (.elems xs, r2) => .ok (.elems (v :: xs), r2)
          | .ok _ => .error "JSON is malformed"
          | .error e => .error e
        | .ok _ => .error "JSON is malformed"
        | .error e => .error e
  | .elemsCont, fuel + 1, cs =>
    match skipWs cs with
    | [] => .error "truncated JSON"
    | c :: r =>
      if c = ']' then .ok (.elems [], r)
      else if c = ',' then
        match jstep .val fuel r with
        | .ok (.val v, r1) =>
          match jstep .elemsCont fuel r1 with
          | .ok (.elems xs, r2) => .ok (.elems (v :: xs), r2)
          | .ok _ => .error "JSON is malformed"
          | .error e => .error e
        | .ok _ => .error "JSON is malformed"
        | .error e => .error e
      else .error "expected comma or bracket"
  | .fields, fuel + 1, cs =>
    match skipWs cs with
    | [] => .error "truncated JSON"
    | c :: r =>
      if c = '}' then .ok (.fields [], r)
      else if c = '"' then
        match pStrBody r with
        | some p =>
          match skipWs p.2 with
          | ':' :: r2 =>
            match jstep .val fuel r2 with
            | .ok (.val v, r3) =>
              match jstep .fieldsCont fuel r3 with
              | .ok (.fields kvs, r4) => .ok (.fields ((p.1.asString, v) :: kvs), r4)
              | .ok _ => .error "JSON is malformed"
              | .error e => .error e
            | .ok _ => .error "JSON is malformed"
            | .error e => .error e
          | _ => .error "expected colon"
        | none => .error "malformed string"
      else .error "expected key or brace"
  | .fieldsCont, fuel + 1, cs =>
    match skipWs cs with
    | [] => .error "truncated JSON"
    | c :: r =>
      if c = '}' then .ok (.fields [], r)
      else if c = ',' then
        match skipWs r with
        | '"' :: r1 =>
          match pStrBody r1 with
          | some p =>
            match skipWs p.2 with
            | ':' :: r2 =>
              match jstep .val fuel r2 with
              | .ok (.val v, r3) =>
                match jstep .fieldsCont fuel r3 with
                | .ok (.fields kvs, r4) => .ok (.fields ((p.1.asString, v) :: kvs), r4)
                | .ok _ => .error "JSON is malformed"
                | .error e => .error e
              | .ok _ => .error "JSON is malformed"
              | .error e => .error e
            | _ => .error "expected colon"
          | none => .error "malformed string"
        | _ => .error "expected key"
      else .error "expected comma or brace"

/-! ## The JSON encoder

`encG layout indentWidth v`: `layout = none` is msgspec's compact encoding
(`indent = 0`: no whitespace between tokens); `layout = some n` is the
`msgspec.json.format` pretty layout with `n` spaces per nesting level
(newline before every element, `": "` after keys, closing bracket on its own
line at the parent's indent). -/

/-- Per-level indent step of a layout. -/
def stepOf : Option Nat → Nat
  | none => 0
  | some n => n

/-- Line break plus `w` spaces of indent (empty in the compact layout). -/
def indC : Option Nat → Nat → List Char
  | none, _ => []
  | some _, w => '\n' :: List.replicate w ' '

/-- The space after a key's colon (absent in the compact layout). -/
def colonSp : Option Nat → List Char
  | none => []
  | some _ => [' ']

mutual

/-- Encode a value in the given layout at indent width `d`. -/
def encG (L : Option Nat) (d : Nat) : PyVal → List Char
  | .null => "null".data
  | .boolean b => if b then "true".data else "false".data
  | .int m => intToDigits m
  | .float m e => intToDigits m ++ 'e' :: intToDigits e
  | .str s => '"' :: (escList s.data ++ ['"'])
  | .arr [] => "[]".data
  | .arr (x :: t) =>
    '[' :: (indC L (d + stepOf L) ++ encG L (d + stepOf L) x
      ++ encItemsTail L (d + stepOf L) d t)
  | .obj [] => "{}".data
  | .obj (kv :: t) =>
    '{' :: (indC L (d + stepOf L) ++ encKV L (d + stepOf L) kv
      ++ encFieldsTail L (d + stepOf L) d t)
  | .unsupported _ => "null".data

/-- Encode the remaining array items and the closing bracket. -/
def encItemsTail (L : Option Nat) (d2 d1 : Nat) : List PyVal → List Char
  | [] => indC L d1 ++ [']']
  | y :: t2 => ',' :: (indC L d2 ++ encG L d2 y ++ encItemsTail L d2 d1 t2)

/-- Encode one key-value pair. -/
def encKV (L : Option Nat) (d : Nat) (kv : String × PyVal) : List Char :=
  '"' :: (escList kv.1.data ++ '"' :: ':' :: (colonSp L ++ encG L d kv.2))

/-- Encode the remaining object fields and the closing brace. -/
def encFieldsTail (L : Option Nat) (d2 d1 : Nat) : List (String × PyVal) → List Char
  | [] => indC L d1 ++ ['}']
  | kv :: t2 => ',' :: (indC L d2 ++ encKV L d2 kv ++ encFieldsTail L d2 d1 t2)

end

mutual

/-- Fuel needed by the grammar machine on an encoding of the value. -/
def phiV : PyVal → Nat
  | .arr [] => 1
  | .arr (x :: t) => 2 + phiV x + phiC t
  | .obj [] => 1
  | .obj (kv :: t) => 2 + phiV kv.2 + phiF t
  | _ => 1

def phiC : List PyVal → Nat
  | [] => 1
  | y :: t => 1 + phiV y + phiC t

def phiF : List (String × PyVal) → Nat
  | [] => 1
  | kv :: t => 1 + phiV kv.2 + phiF t

end

/-- Modelled from the spec: `msgspec.json.Encoder().encode` (the compact
layout of the standard JSON grammar, §6). -/
def jsonEncode (v : PyVal) : String := (encG none 0 v).asString

/-- Modelled from the spec: `msgspec.json` decode (standard JSON grammar,
§6) — parse one value, allow trailing whitespace only. -/
def jsonDecode (s : String) : Except String PyVal :=
  match jstep .val (3 * s.data.length + 1) s.data with
  | .ok (.val v, rest) => if skipWs rest = [] then .ok v else .error "trailing characters"
  | .ok _ => .error "JSON is malformed"
  | .error e => .error e

/-- A list position after a number token: its head cannot extend the token. -/
def numStop : List Char → Prop
  | [] => True
  | c :: _ => c.isDigit = false ∧ c ≠ '.' ∧ c ≠ 'e' ∧ c ≠ 'E'

/-- A character that can open a JSON value token. -/
def valStartChar (c : Char) : Bool :=
  c = 'n' || c = 't' || c = 'f' || c = '"' || c = '[' || c = '{' || c = '-' || c.isDigit

/-! ## The grammar machine inverts the encoder -/

/-- Round-trip property of one value: at any layout, indent, sufficient fuel,
whitespace prefix and non-number-extending continuation, the machine parses
the encoding back to the value. -/
def JRound (v : PyVal) : Prop :=
  ∀ L d fuel pre rest, (∀ c ∈ pre, wsChar c = true) → numStop rest → phiV v < fuel →
    jstep .val fuel (pre ++ (encG L d v ++ rest)) = .ok (.val v, rest)

/-! ## The YAML codec

Modelled from the spec (§6: UTF-8 text supporting mappings, sequences and
scalars string/int/float/bool/null, deterministic encode) and the
`dump_yaml` docstring example (`{"debug": True, "port": 8080}` encodes to
`debug: true\nport: 8080\n`): block-style mappings and sequences with
two-space nesting, plain scalars where safe and JSON-style double-quoted
scalars otherwise.  Plain scalar resolution covers the null/bool keywords and
numbers; every other plain scalar is a string. -/

/-- May a plain (unquoted) YAML scalar start with this character? -/
def plainStart (c : Char) : Bool := c.isAlpha || c = '_'

/-- May a plain YAML scalar contain this character? -/
def plainChar (c : Char) : Bool := c.isAlphanum || c = '_' || c = ' '

/-- Do the characters form a plain-safe scalar body? -/
def plainSafeL : List Char → Bool
  | [] => false
  | c :: t => plainStart c && (c :: t).all plainChar

/-- Is the string safe to emit as a plain YAML scalar? -/
def plainSafe (s : String) : Bool :=
  plainSafeL s.data && !(s == "null") && !(s == "true") && !(s == "false")

/-- YAML token of a string scalar: plain or double-quoted. -/
def strTok (s : String) : List Char :=
  if plainSafe s then s.data else '"' :: (escList s.data ++ ['"'])

/-- Is the value a nonempty container (rendered in block style)? -/
def isContNE : PyVal → Bool
  | .arr (_ :: _) => true
  | .obj (_ :: _) => true
  | _ => false

/-- YAML token of a scalar or empty-container value. -/
def scalarTok : PyVal → List Char
  | .null => "null".data
  | .boolean b => if b then "true".data else "false".data
  | .int m => intToDigits m
  | .float m e => intToDigits m ++ 'e' :: intToDigits e
  | .str s => strTok s
  | .arr _ => "[]".data
  | .obj _ => "{}".data
  | .unsupported _ => "null".data

/-- One output line: indent width and content. -/
abbrev YLine := Nat × List Char

mutual

/-- Emit one sequence item: nested block for a nonempty container, inline
scalar token otherwise. -/
def yItem (n : Nat) : PyVal → List YLine
  | .arr (y :: t) => (n, ['-']) :: (yItem (n + 2) y ++ ySeq (n + 2) t)
  | .obj (kv :: t) => (n, ['-']) :: (yEntry (n + 2) kv ++ yMap (n + 2) t)
  | v => [(n, '-' :: ' ' :: scalarTok v)]

/-- Emit the remaining sequence items. -/
def ySeq (n : Nat) : List PyVal → List YLine
  | [] => []
  | y :: t => yItem n y ++ ySeq n t

/-- Emit one mapping entry: nested block for a nonempty container value,
inline scalar token otherwise. -/
def yEntry (n : Nat) : String × PyVal → List YLine
  | (k, .arr (y :: t)) => (n, strTok k ++ [':']) :: (yItem (n + 2) y ++ ySeq (n + 2) t)
  | (k, .obj (kv :: t)) => (n, strTok k ++ [':']) :: (yEntry (n + 2) kv ++ yMap (n + 2) t)
  | (k, v) => [(n, strTok k ++ ':' :: ' ' :: scalarTok v)]

/-- Emit the remaining mapping entries. -/
def yMap (n : Nat) : List (String × PyVal) → List YLine
  | [] => []
  | kv :: t => yEntry n kv ++ yMap n t

end

/-- Emit a value as a block at indent `n`. -/
def yVal (n : Nat) : PyVal → List YLine
  | .arr (x :: t) => yItem n x ++ ySeq n t
  | .obj (kv :: t) => yEntry n kv ++ yMap n t
  | v => [(n, scalarTok v)]

/-- Render one line: indent spaces, content, newline. -/
def renderLine (l : YLine) : List Char := List.replicate l.1 ' ' ++ l.2 ++ ['\n']

/-- Render a line list. -/
def renderLines : List YLine → List Char
  | [] => []
  | l :: t => renderLine l ++ renderLines t

/-- Modelled from the spec: `msgspec.yaml.encode` (§6 block YAML, pinned by
the `dump_yaml` docstring example). -/
def yamlEncode (v : PyVal) : String := (renderLines (yVal 0 v)).asString

/-- Split a character stream at newlines (a trailing newline produces no
empty segment). -/
def splitAtNl (cs : List Char) : List (List Char) :=
  match cs with
  | [] => []
  | c :: t =>
    if c = '\n' then [] :: splitAtNl t
    else
      match splitAtNl t with
      | [] => [[c]]
      | l :: ls => (c :: l) :: ls
termination_by structural cs

/-- Count and strip the leading spaces of one raw line. -/
def countIndent : List Char → Nat × List Char
  | [] => (0, [])
  | c :: t =>
    if c = ' ' then
      let p := countIndent t
      (p.1 + 1, p.2)
    else (0, c :: t)

/-- Split a document into (indent, content) lines. -/
def toLines (cs : List Char) : List YLine := (splitAtNl cs).map countIndent

/-- Split a line at its first colon. -/
def splitColon : List Char → Option (List Char × List Char)
  | [] => none
  | c :: t =>
    if c = ':' then some ([], t)
    else (splitColon t).map (fun p => (c :: p.1, p.2))

/-- Parse a mapping key (plain or double-quoted) and return it with the
content after the colon. -/
def keySplit (c : List Char) : Option (String × List Char) :=
  match c with
  | [] => none
  | ch :: r =>
    if ch = '"' then
      match pStrBody r with
      | some p =>
        match p.2 with
        | ':' :: r2 => some (p.1.asString, r2)
        | _ => none
      | none => none
    else
      match splitColon (ch :: r) with
      | some p => if p.1 = [] then none else some (p.1.asString, p.2)
      | none => none

/-- Does the line content open a sequence item? -/
def isSeqLine : List Char → Bool
  | [] => false
  | [ch] => ch = '-'
  | ch :: ch2 :: _ => ch = '-' && ch2 = ' '

/-- Does the line content open a mapping entry? -/
def isMapLine (c : List Char) : Bool := (keySplit c).isSome

/-- Resolve one scalar token. -/
def scalarOf : List Char → Option PyVal
  | [] => none
  | c :: r =>
    if c :: r = "{}".data then some (.obj [])
    else if c :: r = "[]".data then some (.arr [])
    else if c = '"' then
      match pStrBody r with
      | some p => if p.2 = [] then some (.str p.1.asString) else none
      | none => none
    else if c :: r = "null".data then some .null
    else if c :: r = "true".data then some (.boolean true)
    else if c :: r = "false".data then some (.boolean false)
    else
      match pNum (c :: r) with
      | some p => if p.2 = [] then some p.1 else some (.str (c :: r).asString)
      | none => some (.str (c :: r).asString)

/-- YAML machine modes. -/
inductive YMode where
  | blk (n : Nat)
  | item (n : Nat)
  | entry (n : Nat)
  | seqCont (n : Nat)
  | mapCont (n : Nat)

/-- YAML machine intermediate results. -/
inductive YOut where
  | val (v : PyVal)
  | fld (kv : String × PyVal)
  | items (xs : List PyVal)
  | flds (kvs : List (String × PyVal))

/-- The fuel-driven block-YAML machine. -/
def ystep : YMode → Nat → List YLine → Except String (YOut × List YLine)
  | _, 0, _ => .error "recursion limit exceeded"
  | .blk n, fuel + 1, ls =>
    match ls with
    | [] => .error "empty block"
    | (i, c) :: ls2 =>
      if i = n then
        if isSeqLine c then
          match ystep (.item n) fuel ls with
          | .ok (.val v, ls3) =>
            match ystep (.seqCont n) fuel ls3 with
            | .ok (.items xs, ls4) => .ok (.val (.arr (v :: xs)), ls4)
            | .ok _ => .error "YAML is malformed"
            | .error e => .error e
          | .ok _ => .error "YAML is malformed"
          | .error e => .error e
        else if isMapLine c then
          match ystep (.entry n) fuel ls with
          | .ok (.fld kv, ls3) =>
            match ystep (.mapCont n) fuel ls3 with
            | .ok (.flds kvs, ls4) => .ok (.val (.obj (kv :: kvs)), ls4)
            | .ok _ => .error "YAML is malformed"
            | .error e => .error e
          | .ok _ => .error "YAML is malformed"
          | .error e => .error e
        else
          match scalarOf c with
          | some v => .ok (.val v, ls2)
          | none => .error "unresolvable scalar"
      else .error "bad indentation"
  | .item n, fuel + 1, ls =>
    match ls with
    | [] => .error "missing item"
    | (i, c) :: ls2 =>
      if i = n then
        if c = ['-'] then
          match ls2 with
          | [] => .error "missing nested block"
          | (j, _) :: _ =>
            if n < j then ystep (.blk j) fuel ls2
            else .error "bad nested indentation"
        else
          match c with
          | '-' :: ' ' :: tok =>
            match scalarOf tok with
            | some v => .ok (.val v, ls2)
            | none => .error "unresolvable scalar"
          | _ => .error "YAML is malformed"
      else .error "bad indentation"
  | .entry n, fuel + 1, ls =>
    match ls with
    | [] => .error "missing entry"
    | (i, c) :: ls2 =>
      if i = n then
        match keySplit c with
        | some kr =>
          match kr.2 with
          | [] =>
            match ls2 with
            | [] => .error "missing nested block"
            | (j, _) :: _ =>
              if n < j then
                match ystep (.blk j) fuel ls2 with
                | .ok (.val v, ls3) => .ok (.fld (kr.1, v), ls3)
                | .ok _ => .error "YAML is malformed"
                | .error e => .error e
              else .error "bad nested indentation"
          | ' ' :: tok =>
            match scalarOf tok with
            | some v => .ok (.fld (kr.1, v), ls2)
            | none => .error "unresolvable scalar"
          | _ => .error "YAML is malformed"
        | none => .error "YAML is malformed"
      else .error "bad indentation"
  | .seqCont n, fuel + 1, ls =>
    match ls with
    | [] => .ok (.items [], [])
    | (i, c) :: _ =>
      if i = n ∧ isSeqLine c = true then
        match ystep (.item n) fuel ls with
        | .ok (.val v, ls2) =>
          match ystep (.seqCont n) fuel ls2 with
          | .ok (.items xs, ls3) => .ok (.items (v :: xs), ls3)
          | .ok _ => .error "YAML is malformed"
          | .error e => .error e
        | .ok _ => .error "YAML is malformed"
        | .error e => .error e
      else .ok (.items [], ls)
  | .mapCont n, fuel + 1, ls =>
    match ls with
    | [] => .ok (.flds [], [])
    | (i, c) :: _ =>
      if i = n ∧ isMapLine c = true then
        match ystep (.entry n) fuel ls with
        | .ok (.fld kv, ls2) =>
          match ystep (.mapCont n) fuel ls2 with
          | .ok (.flds kvs, ls3) => .ok (.flds (kv :: kvs), ls3)
          | .ok _ => .error "YAML is malformed"
          | .error e => .error e
        | .ok _ => .error "YAML is malformed"
        | .error e => .error e
      else .ok (.flds [], ls)

/-- Modelled from the spec: `msgspec.yaml` decode (§6 block YAML) — an empty
document is `None`, otherwise one block at indent 0 consuming every line. -/
def yamlDecode (s : String) : Except String PyVal :=
  match toLines s.data with
  | [] => .ok .null
  | ls =>
    match ystep (.blk 0) (6 * ls.length + 1) ls with
    | .ok (.val v, []) => .ok v
    | .ok (.val _, _ :: _) => .error "trailing content"
    | .ok _ => .error "YAML is malformed"
    | .error e => .error e

mutual

/-- Fuel needed by `ystep .item` on an encoded item. -/
def yPhiI : PyVal → Nat
  | .arr (y :: t) => 2 + yPhiI y + yPhiC t
  | .obj (kv :: t) => 2 + yPhiE kv + yPhiF t
  | _ => 1

def yPhiC : List PyVal → Nat
  | [] => 1
  | y :: t => 1 + yPhiI y + yPhiC t

/-- Fuel needed by `ystep .entry` on an encoded entry. -/
def yPhiE : String × PyVal → Nat
  | (_, .arr (y :: t)) => 2 + yPhiI y + yPhiC t
  | (_, .obj (kv :: t)) => 2 + yPhiE kv + yPhiF t
  | _ => 1

def yPhiF : List (String × PyVal) → Nat
  | [] => 1
  | kv :: t => 1 + yPhiE kv + yPhiF t

end

/-- Fuel needed by `ystep .blk` on an encoded block. -/
def yPhiV : PyVal → Nat
  | .arr (x :: t) => 1 + yPhiI x + yPhiC t
  | .obj (kv :: t) => 1 + yPhiE kv + yPhiF t
  | _ => 1

/-! ## The modelled operations

`dump_json` (lines 237-261), `load_json` (lines 157-196), `dump_yaml`
(lines 310-325), `load_yaml` (lines 269-308), `read_many_async`
(lines 637-656), and the spec's §7 error taxonomy. -/

/-- `_json_encoder.encode` + `msgspec.json.format` of lines 253-259: compact
bytes, or `indent`-space pretty bytes when `indent > 0`; a value outside the
codec domain raises `TypeError` before any filesystem action. -/
def jsonBytesE (v : PyVal) (indent : Int) : Except PyErr String :=
  if PyVal.supported v then
    .ok (if 0 < indent then (encG (some indent.toNat) 0 v).asString
      else (encG none 0 v).asString)
  else .error (.typeError "Encoding objects of this type is unsupported")

/-- `msgspec.yaml.encode` of line 324: block YAML bytes, `TypeError` outside
the codec domain. -/
def yamlBytesE (v : PyVal) : Except PyErr String :=
  if PyVal.supported v then .ok (yamlEncode v)
  else .error (.typeError "Encoding objects of this type is unsupported")

/-- `dump_json(data, indent)`: encode first, then `_atomic_write_bytes`; an
encode failure surfaces with the filesystem untouched. -/
def dump_json (fs : FS) (t : PPath) (sfx : String) (v : PyVal) (indent : Int)
    (fault : Option Fault) : RunResult :=
  match jsonBytesE v indent with
  | .error e => { states := [fs], final := fs, outcome := .error e }
  | .ok b => awbRun fs t sfx b fault

/-- `dump_yaml(data)`: encode, then `_atomic_write_bytes`. -/
def dump_yaml (fs : FS) (t : PPath) (sfx : String) (v : PyVal)
    (fault : Option Fault) : RunResult :=
  match yamlBytesE v with
  | .error e => { states := [fs], final := fs, outcome := .error e }
  | .ok b => awbRun fs t sfx b fault

/-- `load_json()`: read the bytes and decode them; only `msgspec.DecodeError`
is caught and re-raised as `JSONDecodeError` with the path in the message
(line 196); `FileNotFoundError` / `PermissionError` from `read_bytes`
propagate unwrapped. -/
def load_json (fs : FS) (p : PPath) : Except PyErr PyVal :=
  match readBytes fs p with
  | .error e => .error e
  | .ok content =>
    match jsonDecode content with
    | .ok v => .ok v
    | .error e => .error (.jsonDecodeError
        ("Failed to decode JSON from " ++ p.render ++ ": " ++ e))

/-- `load_yaml()`: as `load_json`, wrapping decode failures as
`YAMLDecodeError` (line 308). -/
def load_yaml (fs : FS) (p : PPath) : Except PyErr PyVal :=
  match readBytes fs p with
  | .error e => .error e
  | .ok content =>
    match yamlDecode content with
    | .ok v => .ok v
    | .error e => .error (.yamlDecodeError
        ("Failed to decode YAML from " ++ p.render ++ ": " ++ e))

/-- The read tasks of `read_many_async` as they complete: `order` is the
completion order of the task indices; each task `i` reads the `i`-th path. -/
def completionResults (fs : FS) (paths : List PPath) (order : List Nat) :
    List (Nat × Except PyErr String) :=
  order.map (fun i => (i, readBytes fs (paths.getD i ⟨"", ""⟩)))

/-- `asyncio.gather` reassembles the results by task index, not by
completion order. -/
def gatherResults (n : Nat) (done : List (Nat × Except PyErr String)) :
    List (Except PyErr String) :=
  (List.range n).map (fun i =>
    match done.lookup i with
    | some r => r
    | none => .error (.osError "task lost"))

/-- `read_many_async(paths)` (lines 637-656): one task per path in input
order, gathered by index. -/
def read_many_async (fs : FS) (paths : List PPath) (order : List Nat) :
    List (Except PyErr String) :=
  gatherResults paths.length (completionResults fs paths order)

/-- Modelled from the spec: the §7 error-taxonomy kinds, plus `unclassified`
for an error outside the taxonomy. -/
inductive ErrKind where
  | notFound
  | permissionDenied
  | decodeError
  | encodeError
  | writeFailure
  | unclassified
deriving DecidableEq, Repr

/-- Modelled from the spec: which §7 taxonomy kind a surfaced exception
belongs to (`NotFound` ↔ `FileNotFoundError`, `PermissionDenied` ↔
`PermissionError`, `DecodeError` ↔ `JSONDecodeError`/`YAMLDecodeError`,
`EncodeError` ↔ `TypeError`, `WriteFailure` ↔ `OSError` during a write). -/
def classifyErr : PyErr → ErrKind
  | .fileNotFoundError _ => .notFound
  | .permissionError _ => .permissionDenied
  | .jsonDecodeError _ => .decodeError
  | .yamlDecodeError _ => .decodeError
  | .typeError _ => .encodeError
  | .valueError _ => .unclassified
  | .osError _ => .writeFailure

/-! ## The line renderer inverts the line splitter -/

/-- A line the splitter can recover: no embedded newline, and content not
beginning with a space. -/
def goodLine (l : YLine) : Prop := '\n' ∉ l.2 ∧ ∀ t, l.2 ≠ ' ' :: t

/-- Does the head line of the remaining input (if any) sit at indent
strictly below `n`? -/
def yHeadLt (n : Nat) : List YLine → Bool
  | [] => true
  | (i, _) :: _ => decide (i < n)

/-! ## Digit round-trip lemmas -/

theorem digitChar_isDigit : ∀ d, d < 10 → (digitChar d).isDigit = true := by decide

theorem digitVal_digitChar : ∀ d, d < 10 → digitVal (digitChar d) = d := by decide

/-- Every character produced by `natToDigitsAux` is a decimal digit. -/
theorem natToDigitsAux_digits :
    ∀ fuel n, n < fuel → ∀ c ∈ natToDigitsAux fuel n, c.isDigit = true := by
  intro fuel
  induction fuel with
  | zero => intro n h; omega
  | succ f ih =>
    intro n h c hc
    by_cases h10 : n < 10
    · simp [natToDigitsAux, h10] at hc
      subst hc
      exact digitChar_isDigit n h10
    · simp [natToDigitsAux, h10] at hc
      rcases hc with hc | hc
      · exact ih (n / 10) (by omega) c hc
      · subst hc
        exact digitChar_isDigit _ (Nat.mod_lt n (by omega))

theorem natToDigitsAux_ne_nil :
    ∀ fuel n, n < fuel → natToDigitsAux fuel n ≠ [] := by
  intro fuel
  induction fuel with
  | zero => intro n h; omega
  | succ f _ =>
    intro n _
    by_cases h10 : n < 10 <;> simp [natToDigitsAux, h10]

/-- Folding the digit characters accumulates the represented number. -/
theorem foldl_natToDigitsAux :
    ∀ fuel n, n < fuel → ∀ acc,
      List.foldl (fun a c => a * 10 + digitVal c) acc (natToDigitsAux fuel n)
        = acc * 10 ^ (natToDigitsAux fuel n).length + n := by
  intro fuel
  induction fuel with
  | zero => intro n h; omega
  | succ f ih =>
    intro n h acc
    by_cases h10 : n < 10
    · simp [natToDigitsAux, h10, digitVal_digitChar n h10]
    · have hlt : n / 10 < f := by omega
      simp only [natToDigitsAux, h10, if_false, List.foldl_append, List.length_append,
        List.foldl_cons, List.foldl_nil, List.length_cons, List.length_nil]
      rw [ih (n / 10) hlt acc, digitVal_digitChar _ (Nat.mod_lt n (by omega))]
      have hsplit : (acc * 10 ^ (natToDigitsAux f (n / 10)).length + n / 10) * 10 + n % 10
          = acc * (10 ^ (natToDigitsAux f (n / 10)).length * 10) + (n / 10 * 10 + n % 10) := by
        ring
      have hn : n / 10 * 10 + n % 10 = n := by omega
      rw [hsplit, hn, pow_succ]

/-- `parseNatAux` consumes exactly a digit run. -/
theorem parseNatAux_append :
    ∀ (l : List Char), (∀ c ∈ l, c.isDigit = true) →
      ∀ acc (rest : List Char), (rest = [] ∨ ∃ c t, rest = c :: t ∧ c.isDigit = false) →
        parseNatAux acc (l ++ rest)
          = (List.foldl (fun a c => a * 10 + digitVal c) acc l, rest) := by
  intro l
  induction l with
  | nil =>
    intro _ acc rest hrest
    rcases hrest with rfl | ⟨c, t, rfl, hc⟩
    · rfl
    · simp [parseNatAux, hc]
  | cons c t ih =>
    intro hl acc rest hrest
    have hc : c.isDigit = true := hl c (by simp)
    simp only [List.cons_append, parseNatAux, hc, if_true, List.foldl_cons]
    exact ih (fun x hx => hl x (by simp [hx])) _ rest hrest

/-- Parsing the decimal rendering of `n` recovers `n`. -/
theorem parseNatAux_natToDigits (n : Nat) (rest : List Char)
    (hrest : rest = [] ∨ ∃ c t, rest = c :: t ∧ c.isDigit = false) :
    parseNatAux 0 (natToDigits n ++ rest) = (n, rest) := by
  rw [parseNatAux_append (natToDigits n)
    (natToDigitsAux_digits (n + 1) n (by omega)) 0 rest hrest]
  rw [show natToDigits n = natToDigitsAux (n + 1) n from rfl,
    foldl_natToDigitsAux (n + 1) n (by omega) 0]
  simp

theorem natToDigits_head_digit (n : Nat) :
    ∃ c r, natToDigits n = c :: r ∧ c.isDigit = true := by
  rcases hl : natToDigits n with _ | ⟨c, r⟩
  · exact absurd hl (natToDigitsAux_ne_nil (n + 1) n (by omega))
  · refine ⟨c, r, rfl, ?_⟩
    have := natToDigitsAux_digits (n + 1) n (by omega) c
    rw [show natToDigitsAux (n + 1) n = natToDigits n from rfl, hl] at this
    exact this (by simp)

/-! ## Number token round-trip -/

theorem char_ne_of_digit {c : Char} (h : c.isDigit = true) :
    c ≠ '.' ∧ c ≠ 'e' ∧ c ≠ 'E' ∧ c ≠ 'n' ∧ c ≠ 't' ∧ c ≠ 'f' ∧ c ≠ '"' ∧
    c ≠ '[' ∧ c ≠ '{' ∧ c ≠ ']' ∧ c ≠ '}' ∧ c ≠ ',' ∧ c ≠ ':' ∧ c ≠ '-' := by
  refine ⟨?_, ?_, ?_, ?_, ?_, ?_, ?_, ?_, ?_, ?_, ?_, ?_, ?_, ?_⟩ <;>
    · intro heq; subst heq; revert h; decide

theorem wsChar_of_digit {c : Char} (h : c.isDigit = true) : wsChar c = false := by
  rcases Bool.eq_false_or_eq_true (wsChar c) with ht | hf
  · exfalso
    simp only [wsChar, Bool.or_eq_true, decide_eq_true_eq] at ht
    rcases ht with ((rfl | rfl) | rfl) | rfl <;> exact absurd h (by decide)
  · exact hf

/-- The numeric-stop property needed for the rest after a number token. -/
theorem numStop_elim {rest : List Char} (h : numStop rest) :
    rest = [] ∨ ∃ c t, rest = c :: t ∧ c.isDigit = false := by
  rcases rest with _ | ⟨c, t⟩
  · exact Or.inl rfl
  · exact Or.inr ⟨c, t, rfl, h.1⟩

theorem intToDigits_neg {e : Int} (he : e < 0) :
    intToDigits e = '-' :: natToDigits e.natAbs := by
  simp [intToDigits, he]

theorem intToDigits_nonneg {e : Int} (he : ¬ e < 0) :
    intToDigits e = natToDigits e.toNat := by
  simp [intToDigits, he]

/-- After a whole-number digit run, `pNumTail` yields the integer. -/
theorem pNumTail_int (ip : Nat) (rest : List Char) (h : numStop rest) :
    pNumTail ip rest = some (.int (ip : Int), rest) := by
  rcases rest with _ | ⟨c, t⟩
  · rfl
  · obtain ⟨h1, h2, h3, h4⟩ := h
    have : ¬ (c = 'e' ∨ c = 'E') := by
      rintro (rfl | rfl) <;> simp_all
    simp [pNumTail, h2, this]

theorem pNumPos_nat (n : Nat) (rest : List Char) (h : numStop rest) :
    pNumPos (natToDigits n ++ rest) = some (.int (n : Int), rest) := by
  obtain ⟨c, r, hcr, hc⟩ := natToDigits_head_digit n
  rw [hcr]
  have hres : parseNatAux 0 (c :: r ++ rest) = (n, rest) := by
    rw [← hcr]; exact parseNatAux_natToDigits n rest (numStop_elim h)
  simp only [pNumPos, List.cons_append, hc, if_true]
  rw [show ((c :: (r ++ rest)) : List Char) = c :: r ++ rest from rfl, hres]
  exact pNumTail_int n rest h

/-- Parsing the rendering of an integer recovers it. -/
theorem pNum_int (m : Int) (rest : List Char) (h : numStop rest) :
    pNum (intToDigits m ++ rest) = some (.int m, rest) := by
  by_cases hm : m < 0
  · rw [intToDigits_neg hm, List.cons_append]
    have hminus : ∀ t, pNum ('-' :: t) = (pNumPos t).map (fun p => (negNum p.1, p.2)) := by
      intro t; simp [pNum]
    rw [hminus, pNumPos_nat m.natAbs rest h]
    have habs : ((m.natAbs : Int)) = -m := by omega
    simp [negNum, habs]
  · obtain ⟨c, r, hcr, hc⟩ := natToDigits_head_digit m.toNat
    have hcm : c ≠ '-' := (char_ne_of_digit hc).2.2.2.2.2.2.2.2.2.2.2.2.2
    simp only [intToDigits, hm, if_false]
    rw [hcr, List.cons_append]
    simp only [pNum, hcm, if_false]
    rw [← List.cons_append, ← hcr, pNumPos_nat m.toNat rest h]
    have htn : ((m.toNat : Int)) = m := by omega
    rw [htn]

theorem pExpDigits_nat (sig : Int) (fshift : Nat) (sgn : Int) (n : Nat)
    (rest : List Char) (h : numStop rest) :
    pExpDigits sig fshift sgn (natToDigits n ++ rest)
      = some (.float sig (sgn * (n : Int) - fshift), rest) := by
  obtain ⟨c, r, hcr, hc⟩ := natToDigits_head_digit n
  rw [hcr, List.cons_append]
  simp only [pExpDigits, hc, if_true]
  rw [← List.cons_append, ← hcr, parseNatAux_natToDigits n rest (numStop_elim h)]

theorem pExp_minus (sig : Int) (fshift : Nat) (t : List Char) :
    pExp sig fshift ('-' :: t) = pExpDigits sig fshift (-1) t := by
  simp [pExp]

theorem pExp_int (sig e : Int) (rest : List Char) (h : numStop rest) :
    pExp sig 0 (intToDigits e ++ rest) = some (.float sig e, rest) := by
  by_cases he : e < 0
  · rw [intToDigits_neg he, List.cons_append, pExp_minus,
      pExpDigits_nat sig 0 (-1) e.natAbs rest h]
    have hval : (-1 : Int) * (e.natAbs : Int) - ((0 : Nat) : Int) = e := by omega
    rw [hval]
  · obtain ⟨c, r, hcr, hc⟩ := natToDigits_head_digit e.toNat
    have hcp : c ≠ '+' := by intro heq; subst heq; exact absurd hc (by decide)
    have hcm : c ≠ '-' := (char_ne_of_digit hc).2.2.2.2.2.2.2.2.2.2.2.2.2
    rw [intToDigits_nonneg he, hcr, List.cons_append]
    simp only [pExp]
    rw [if_neg hcp, if_neg hcm, ← List.cons_append, ← hcr,
      pExpDigits_nat sig 0 1 e.toNat rest h]
    have hval : (1 : Int) * (e.toNat : Int) - ((0 : Nat) : Int) = e := by omega
    rw [hval]

theorem pNumTail_e (ip : Nat) (cs : List Char) :
    pNumTail ip ('e' :: cs) = pExp (ip : Int) 0 cs := by
  simp [pNumTail]

/-- `pNumPos` on a digit run followed by a non-digit continues with
`pNumTail`. -/
theorem pNumPos_natTail (n : Nat) (tail : List Char)
    (hne : tail = [] ∨ ∃ c t, tail = c :: t ∧ c.isDigit = false) :
    pNumPos (natToDigits n ++ tail) = pNumTail n tail := by
  obtain ⟨c, r, hcr, hc⟩ := natToDigits_head_digit n
  rw [hcr, List.cons_append]
  simp only [pNumPos, hc, if_true]
  rw [← List.cons_append, ← hcr, parseNatAux_natToDigits n tail hne]

theorem pNum_natTail (n : Nat) (tail : List Char)
    (hne : tail = [] ∨ ∃ c t, tail = c :: t ∧ c.isDigit = false) :
    pNum (natToDigits n ++ tail) = pNumTail n tail := by
  obtain ⟨c, r, hcr, hc⟩ := natToDigits_head_digit n
  have hcm : c ≠ '-' := (char_ne_of_digit hc).2.2.2.2.2.2.2.2.2.2.2.2.2
  rw [hcr, List.cons_append]
  simp only [pNum]
  rw [if_neg hcm, ← List.cons_append, ← hcr, pNumPos_natTail n tail hne]

/-- Parsing the rendering of a decimal float recovers it. -/
theorem pNum_float (m e : Int) (rest : List Char) (h : numStop rest) :
    pNum (intToDigits m ++ 'e' :: intToDigits e ++ rest)
      = some (.float m e, rest) := by
  have hmidtail : ('e' :: (intToDigits e ++ rest)) = [] ∨
      ∃ c t, ('e' :: (intToDigits e ++ rest)) = c :: t ∧ c.isDigit = false :=
    Or.inr ⟨'e', _, rfl, by decide⟩
  have hassoc : intToDigits m ++ 'e' :: intToDigits e ++ rest
      = intToDigits m ++ ('e' :: (intToDigits e ++ rest)) := by
    simp
  rw [hassoc]
  by_cases hm : m < 0
  · rw [intToDigits_neg hm, List.cons_append]
    have hminus : ∀ t, pNum ('-' :: t) = (pNumPos t).map (fun p => (negNum p.1, p.2)) := by
      intro t; simp [pNum]
    rw [hminus, pNumPos_natTail m.natAbs ('e' :: (intToDigits e ++ rest)) hmidtail,
      pNumTail_e, pExp_int ((m.natAbs : Nat) : Int) e rest h]
    have habs : ((m.natAbs : Int)) = -m := by omega
    simp [negNum, habs]
  · rw [intToDigits_nonneg hm,
      pNum_natTail m.toNat ('e' :: (intToDigits e ++ rest)) hmidtail,
      pNumTail_e, pExp_int ((m.toNat : Nat) : Int) e rest h]
    have htn : ((m.toNat : Int)) = m := by omega
    rw [htn]

/-! ## String escape round-trip -/

theorem hexVal_hexDigit : ∀ k, k < 16 → hexVal (hexDigit k) = k := by decide

theorem isHex_hexDigit : ∀ k, k < 16 → isHex (hexDigit k) = true := by decide

/-- Recovering a string character from its escape. -/
theorem pStrBody_escChar (c : Char) (tail : List Char) :
    pStrBody (escChar c ++ tail)
      = (pStrBody tail).map (fun p => (c :: p.1, p.2)) := by
  by_cases h1 : c = '"'
  · subst h1
    show pStrBody ('\\' :: '"' :: tail) = _
    rw [pStrBody.eq_def]; simp
  by_cases h2 : c = '\\'
  · subst h2
    show pStrBody ('\\' :: '\\' :: tail) = _
    rw [pStrBody.eq_def]; simp
  by_cases h3 : c = '\n'
  · subst h3
    show pStrBody ('\\' :: 'n' :: tail) = _
    rw [pStrBody.eq_def]; simp
  by_cases h4 : c = '\t'
  · subst h4
    show pStrBody ('\\' :: 't' :: tail) = _
    rw [pStrBody.eq_def]; simp
  by_cases h5 : c = '\r'
  · subst h5
    show pStrBody ('\\' :: 'r' :: tail) = _
    rw [pStrBody.eq_def]; simp
  by_cases h6 : c.toNat = 8
  · have hc : c = Char.ofNat 8 := by rw [← h6, Char.ofNat_toNat]
    subst hc
    show pStrBody ('\\' :: 'b' :: tail) = _
    rw [pStrBody.eq_def]; simp
  by_cases h7 : c.toNat = 12
  · have hc : c = Char.ofNat 12 := by rw [← h7, Char.ofNat_toNat]
    subst hc
    show pStrBody ('\\' :: 'f' :: tail) = _
    rw [pStrBody.eq_def]; simp
  by_cases h8 : c.toNat < 32
  · have hdiv : c.toNat / 16 < 16 := by omega
    have hmod : c.toNat % 16 < 16 := by omega
    have hval : ((0 * 16 + 0) * 16 + c.toNat / 16) * 16 + c.toNat % 16 = c.toNat := by
      omega
    simp only [escChar, h1, h2, h3, h4, h5, h6, h7, h8, if_false, if_true,
      List.cons_append]
    rw [pStrBody.eq_def]
    simp [isHex_hexDigit _ hdiv, isHex_hexDigit _ hmod,
      show isHex '0' = true from rfl,
      hexVal_hexDigit _ hdiv, hexVal_hexDigit _ hmod,
      show hexVal '0' = 0 from rfl, hval, Char.ofNat_toNat]
    have hval2 : c.toNat / 16 * 16 + c.toNat % 16 = c.toNat := by omega
    rw [hval2, Char.ofNat_toNat]
  · simp only [escChar, h1, h2, h3, h4, h5, h6, h7, h8, if_false, List.cons_append,
      List.nil_append]
    rw [pStrBody.eq_def]
    simp [h1, h2]

/-- Recovering a whole string body from its escaped form. -/
theorem pStrBody_escList (l : List Char) (rest : List Char) :
    pStrBody (escList l ++ '"' :: rest) = some (l, rest) := by
  induction l with
  | nil =>
    rw [show escList [] ++ '"' :: rest = '"' :: rest from rfl, pStrBody.eq_def]
    simp
  | cons c t ih =>
    rw [show escList (c :: t) = escChar c ++ escList t from rfl, List.append_assoc,
      pStrBody_escChar, ih]
    rfl

theorem asString_data (s : String) : s.data.asString = s := by
  rcases s with ⟨l⟩
  rfl

/-! ## Whitespace and token-head lemmas -/

theorem skipWs_cons_not {c : Char} (t : List Char) (h : wsChar c = false) :
    skipWs (c :: t) = c :: t := by
  simp [skipWs, h]

theorem skipWs_append_ws {a : List Char} (h : ∀ c ∈ a, wsChar c = true) (b : List Char) :
    skipWs (a ++ b) = skipWs b := by
  induction a with
  | nil => rfl
  | cons c t ih =>
    have hc : wsChar c = true := h c (by simp)
    simp only [List.cons_append, skipWs, hc, if_true]
    exact ih (fun x hx => h x (by simp [hx]))

theorem allWs_indC (L : Option Nat) (w : Nat) : ∀ c ∈ indC L w, wsChar c = true := by
  rcases L with _ | n
  · intro c hc; simp [indC] at hc
  · intro c hc
    simp [indC] at hc
    rcases hc with rfl | ⟨_, rfl⟩ <;> rfl

theorem allWs_colonSp (L : Option Nat) : ∀ c ∈ colonSp L, wsChar c = true := by
  rcases L with _ | n
  · intro c hc; simp [colonSp] at hc
  · intro c hc
    simp [colonSp] at hc
    subst hc; rfl

theorem valStart_not_ws {c : Char} (h : valStartChar c = true) : wsChar c = false := by
  simp only [valStartChar, Bool.or_eq_true, decide_eq_true_eq] at h
  rcases h with ((((((h | h) | h) | h) | h) | h) | h) | h
  all_goals first
    | (subst h; rfl)
    | exact wsChar_of_digit h

theorem valStart_ne {c : Char} (h : valStartChar c = true) :
    c ≠ ']' ∧ c ≠ '}' ∧ c ≠ ',' ∧ c ≠ ':' := by
  simp only [valStartChar, Bool.or_eq_true, decide_eq_true_eq] at h
  rcases h with ((((((h | h) | h) | h) | h) | h) | h) | h
  all_goals first
    | (subst h; exact ⟨by decide, by decide, by decide, by decide⟩)
    | (obtain ⟨_, _, _, _, _, _, _, _, _, h10, h11, h12, h13, _⟩ := char_ne_of_digit h
       exact ⟨h10, h11, h12, h13⟩)

/-- Every encoding starts with a value-start character. -/
theorem encG_head (L : Option Nat) (d : Nat) (v : PyVal) :
    ∃ c r, encG L d v = c :: r ∧ valStartChar c = true := by
  cases v with
  | null => exact ⟨'n', ['u', 'l', 'l'], rfl, by decide⟩
  | boolean b =>
    cases b
    · exact ⟨'f', ['a', 'l', 's', 'e'], rfl, by decide⟩
    · exact ⟨'t', ['r', 'u', 'e'], rfl, by decide⟩
  | int n =>
    by_cases hn : n < 0
    · refine ⟨'-', natToDigits n.natAbs, ?_, by decide⟩
      rw [show encG L d (.int n) = intToDigits n from rfl, intToDigits_neg hn]
    · obtain ⟨c, r, hcr, hc⟩ := natToDigits_head_digit n.toNat
      refine ⟨c, r, ?_, by simp [valStartChar, hc]⟩
      rw [show encG L d (.int n) = intToDigits n from rfl, intToDigits_nonneg hn, hcr]
  | float m e =>
    by_cases hm : m < 0
    · refine ⟨'-', natToDigits m.natAbs ++ 'e' :: intToDigits e, ?_, by decide⟩
      rw [show encG L d (.float m e) = intToDigits m ++ 'e' :: intToDigits e from rfl,
        intToDigits_neg hm, List.cons_append]
    · obtain ⟨c, r, hcr, hc⟩ := natToDigits_head_digit m.toNat
      refine ⟨c, r ++ 'e' :: intToDigits e, ?_, by simp [valStartChar, hc]⟩
      rw [show encG L d (.float m e) = intToDigits m ++ 'e' :: intToDigits e from rfl,
        intToDigits_nonneg hm, hcr, List.cons_append]
  | str s => exact ⟨'"', escList s.data ++ ['"'], rfl, by decide⟩
  | arr xs =>
    cases xs with
    | nil => exact ⟨'[', [']'], rfl, by decide⟩
    | cons x t =>
      exact ⟨'[', indC L (d + stepOf L) ++ encG L (d + stepOf L) x
        ++ encItemsTail L (d + stepOf L) d t, rfl, by decide⟩
  | obj kvs =>
    cases kvs with
    | nil => exact ⟨'{', ['}'], rfl, by decide⟩
    | cons kv t =>
      exact ⟨'{', indC L (d + stepOf L) ++ encKV L (d + stepOf L) kv
        ++ encFieldsTail L (d + stepOf L) d t, rfl, by decide⟩
  | unsupported tag => exact ⟨'n', ['u', 'l', 'l'], rfl, by decide⟩

theorem numStop_of_head (c : Char) (t : List Char) (h1 : c.isDigit = false)
    (h2 : c ≠ '.') (h3 : c ≠ 'e') (h4 : c ≠ 'E') : numStop (c :: t) :=
  ⟨h1, h2, h3, h4⟩

/-- The list after an array element never extends a number token. -/
theorem numStop_itemsTail (L : Option Nat) (d2 d1 : Nat) (t : List PyVal)
    (rest : List Char) : numStop (encItemsTail L d2 d1 t ++ rest) := by
  cases t with
  | nil =>
    rcases L with _ | n
    · exact numStop_of_head ']' _ (by decide) (by decide) (by decide) (by decide)
    · exact numStop_of_head '\n' _ (by decide) (by decide) (by decide) (by decide)
  | cons y t2 =>
    exact numStop_of_head ',' _ (by decide) (by decide) (by decide) (by decide)

/-- The list after an object value never extends a number token. -/
theorem numStop_fieldsTail (L : Option Nat) (d2 d1 : Nat)
    (t : List (String × PyVal)) (rest : List Char) :
    numStop (encFieldsTail L d2 d1 t ++ rest) := by
  cases t with
  | nil =>
    rcases L with _ | n
    · exact numStop_of_head '}' _ (by decide) (by decide) (by decide) (by decide)
    · exact numStop_of_head '\n' _ (by decide) (by decide) (by decide) (by decide)
  | cons y t2 =>
    exact numStop_of_head ',' _ (by decide) (by decide) (by decide) (by decide)

/-! ## Induction principle over the nested value type -/

theorem phiV_pos : ∀ v, 1 ≤ phiV v := by
  intro v
  cases v with
  | arr xs =>
    cases xs with
    | nil => decide
    | cons z t =>
      have h : phiV (.arr (z :: t)) = 2 + phiV z + phiC t := rfl
      omega
  | obj kvs =>
    cases kvs with
    | nil => decide
    | cons z t =>
      have h : phiV (.obj (z :: t)) = 2 + phiV z.2 + phiF t := rfl
      omega
  | null => decide
  | boolean b => exact le_of_eq rfl
  | int n => exact le_of_eq rfl
  | float m e => exact le_of_eq rfl
  | str s => exact le_of_eq rfl
  | unsupported tag => exact le_of_eq rfl

theorem phiC_mem {t : List PyVal} {y : PyVal} (h : y ∈ t) : phiV y ≤ phiC t := by
  induction t with
  | nil => simp at h
  | cons z t2 ih =>
    rcases List.mem_cons.mp h with rfl | h2
    · simp [phiC]; omega
    · have := ih h2
      simp [phiC]; omega

theorem phiF_mem {t : List (String × PyVal)} {kv : String × PyVal} (h : kv ∈ t) :
    phiV kv.2 ≤ phiF t := by
  induction t with
  | nil => simp at h
  | cons z t2 ih =>
    rcases List.mem_cons.mp h with rfl | h2
    · simp [phiF]; omega
    · have := ih h2
      simp [phiF]; omega

/-- Structural induction over `PyVal` with member hypotheses for the nested
lists, obtained by strong induction on the fuel measure. -/
theorem pyval_ind (P : PyVal → Prop)
    (hn : P .null) (hb : ∀ b, P (.boolean b)) (hi : ∀ n, P (.int n))
    (hf : ∀ m e, P (.float m e)) (hs : ∀ s, P (.str s))
    (ha : ∀ xs, (∀ x ∈ xs, P x) → P (.arr xs))
    (ho : ∀ kvs, (∀ kv ∈ kvs, P kv.2) → P (.obj kvs))
    (hu : ∀ tag, P (.unsupported tag)) : ∀ v, P v := by
  have H : ∀ n v, phiV v ≤ n → P v := by
    intro n
    induction n with
    | zero => intro v hv; exact absurd (phiV_pos v) (by omega)
    | succ n ih =>
      intro v hv
      cases v with
      | null => exact hn
      | boolean b => exact hb b
      | int m => exact hi m
      | float m e => exact hf m e
      | str s => exact hs s
      | arr xs =>
        refine ha xs (fun x hx => ih x ?_)
        have h1 := phiC_mem hx
        cases xs with
        | nil => simp at hx
        | cons z t =>
          have : phiV (.arr (z :: t)) = 2 + phiV z + phiC t := rfl
          rcases List.mem_cons.mp hx with rfl | h2
          · rw [this] at hv; omega
          · have := phiC_mem h2
            have h3 : phiV (.arr (z :: t)) = 2 + phiV z + phiC t := rfl
            rw [h3] at hv; omega
      | obj kvs =>
        refine ho kvs (fun kv hkv => ih kv.2 ?_)
        cases kvs with
        | nil => simp at hkv
        | cons z t =>
          have h3 : phiV (.obj (z :: t)) = 2 + phiV z.2 + phiF t := rfl
          rcases List.mem_cons.mp hkv with rfl | h2
          · rw [h3] at hv; omega
          · have := phiF_mem h2
            rw [h3] at hv; omega
      | unsupported tag => exact hu tag
  intro v
  exact H (phiV v) v le_rfl

theorem suppList_mem {xs : List PyVal} (h : suppList xs = true) :
    ∀ x ∈ xs, PyVal.supported x = true := by
  induction xs with
  | nil => intro x hx; simp at hx
  | cons z t ih =>
    intro x hx
    rw [show suppList (z :: t) = (z.supported && suppList t) from rfl,
      Bool.and_eq_true] at h
    rcases List.mem_cons.mp hx with rfl | h2
    · exact h.1
    · exact ih h.2 x h2

theorem suppFields_mem {kvs : List (String × PyVal)} (h : suppFields kvs = true) :
    ∀ kv ∈ kvs, PyVal.supported kv.2 = true := by
  induction kvs with
  | nil => intro kv hkv; simp at hkv
  | cons z t ih =>
    intro kv hkv
    rw [show suppFields (z :: t) = (z.2.supported && suppFields t) from rfl,
      Bool.and_eq_true] at h
    rcases List.mem_cons.mp hkv with rfl | h2
    · exact h.1
    · exact ih h.2 kv h2

theorem elemsCont_round (L : Option Nat) (d2 d1 : Nat) :
    ∀ (t : List PyVal), (∀ y ∈ t, JRound y) →
      ∀ fuel rest, phiC t < fuel →
        jstep .elemsCont fuel (encItemsTail L d2 d1 t ++ rest) = .ok (.elems t, rest) := by
  intro t
  induction t with
  | nil =>
    intro _ fuel rest hfuel
    have hphi : phiC ([] : List PyVal) = 1 := rfl
    obtain ⟨f, rfl⟩ : ∃ f, fuel = f + 1 := ⟨fuel - 1, by omega⟩
    have hin : encItemsTail L d2 d1 ([] : List PyVal) ++ rest
        = indC L d1 ++ (']' :: rest) := by
      show (indC L d1 ++ [']']) ++ rest = _
      simp
    rw [hin, jstep.eq_def]
    simp [skipWs_append_ws (allWs_indC L d1),
      skipWs_cons_not _ (show wsChar ']' = false from rfl)]
  | cons y t2 ih =>
    intro ht fuel rest hfuel
    have hphi : phiC (y :: t2) = 1 + phiV y + phiC t2 := rfl
    obtain ⟨f, rfl⟩ : ∃ f, fuel = f + 1 := ⟨fuel - 1, by omega⟩
    have hy := ht y (List.mem_cons_self y t2)
    have hyeq := hy L d2 f (indC L d2) (encItemsTail L d2 d1 t2 ++ rest)
      (allWs_indC L d2) (numStop_itemsTail L d2 d1 t2 rest) (by omega)
    have iheq := ih (fun z hz => ht z (List.mem_cons_of_mem _ hz)) f rest (by omega)
    have hin : encItemsTail L d2 d1 (y :: t2) ++ rest
        = ',' :: (indC L d2 ++ (encG L d2 y ++ (encItemsTail L d2 d1 t2 ++ rest))) := by
      show (',' :: (indC L d2 ++ encG L d2 y ++ encItemsTail L d2 d1 t2)) ++ rest = _
      simp
    rw [hin, jstep.eq_def]
    simp [skipWs_cons_not _ (show wsChar ',' = false from rfl), hyeq, iheq]

theorem elems_round (L : Option Nat) (d2 d1 : Nat) (x : PyVal) (hx : JRound x)
    (t : List PyVal) (ht : ∀ y ∈ t, JRound y) :
    ∀ fuel rest, 1 + phiV x + phiC t < fuel →
      jstep .elems fuel (indC L d2 ++ (encG L d2 x ++ (encItemsTail L d2 d1 t ++ rest)))
        = .ok (.elems (x :: t), rest) := by
  intro fuel rest hfuel
  have hpx := phiV_pos x
  obtain ⟨f, rfl⟩ : ∃ f, fuel = f + 1 := ⟨fuel - 1, by omega⟩
  obtain ⟨c, rx, hcr, hc⟩ := encG_head L d2 x
  have hxeq := hx L d2 f [] (encItemsTail L d2 d1 t ++ rest) (by simp)
    (numStop_itemsTail L d2 d1 t rest) (by omega)
  simp only [List.nil_append] at hxeq
  rw [hcr, List.cons_append] at hxeq
  have hceq := elemsCont_round L d2 d1 t ht f rest (by omega)
  rw [jstep.eq_def]
  simp [skipWs_append_ws (allWs_indC L d2), hcr, List.cons_append,
    skipWs_cons_not _ (valStart_not_ws hc), (valStart_ne hc).1, hxeq, hceq]

theorem fieldsCont_round (L : Option Nat) (d2 d1 : Nat) :
    ∀ (t : List (String × PyVal)), (∀ kv ∈ t, JRound kv.2) →
      ∀ fuel rest, phiF t < fuel →
        jstep .fieldsCont fuel (encFieldsTail L d2 d1 t ++ rest) = .ok (.fields t, rest) := by
  intro t
  induction t with
  | nil =>
    intro _ fuel rest hfuel
    have hphi : phiF ([] : List (String × PyVal)) = 1 := rfl
    obtain ⟨f, rfl⟩ : ∃ f, fuel = f + 1 := ⟨fuel - 1, by omega⟩
    have hin : encFieldsTail L d2 d1 ([] : List (String × PyVal)) ++ rest
        = indC L d1 ++ ('}' :: rest) := by
      show (indC L d1 ++ ['}']) ++ rest = _
      simp
    rw [hin, jstep.eq_def]
    simp [skipWs_append_ws (allWs_indC L d1),
      skipWs_cons_not _ (show wsChar '}' = false from rfl)]
  | cons kv t2 ih =>
    intro ht fuel rest hfuel
    have hphi : phiF (kv :: t2) = 1 + phiV kv.2 + phiF t2 := rfl
    obtain ⟨f, rfl⟩ : ∃ f, fuel = f + 1 := ⟨fuel - 1, by omega⟩
    have hv := ht kv (List.mem_cons_self kv t2)
    have hyeq := hv L d2 f (colonSp L) (encFieldsTail L d2 d1 t2 ++ rest)
      (allWs_colonSp L) (numStop_fieldsTail L d2 d1 t2 rest) (by omega)
    have iheq := ih (fun z hz => ht z (List.mem_cons_of_mem _ hz)) f rest (by omega)
    have hstr := pStrBody_escList kv.1.data
      (':' :: (colonSp L ++ (encG L d2 kv.2 ++ (encFieldsTail L d2 d1 t2 ++ rest))))
    have hin : encFieldsTail L d2 d1 (kv :: t2) ++ rest
        = ',' :: (indC L d2 ++ ('"' :: (escList kv.1.data
            ++ ('"' :: ':' :: (colonSp L
              ++ (encG L d2 kv.2 ++ (encFieldsTail L d2 d1 t2 ++ rest))))))) := by
      show (',' :: (indC L d2 ++ encKV L d2 kv ++ encFieldsTail L d2 d1 t2)) ++ rest = _
      simp [encKV]
    rw [hin, jstep.eq_def]
    simp [skipWs_cons_not _ (show wsChar ',' = false from rfl),
      skipWs_append_ws (allWs_indC L d2),
      skipWs_cons_not _ (show wsChar '"' = false from rfl),
      skipWs_cons_not _ (show wsChar ':' = false from rfl),
      hstr, hyeq, iheq, asString_data]

theorem fields_round (L : Option Nat) (d2 d1 : Nat) (kv : String × PyVal)
    (hv : JRound kv.2) (t : List (String × PyVal)) (ht : ∀ z ∈ t, JRound z.2) :
    ∀ fuel rest, 1 + phiV kv.2 + phiF t < fuel →
      jstep .fields fuel (indC L d2 ++ (encKV L d2 kv ++ (encFieldsTail L d2 d1 t ++ rest)))
        = .ok (.fields (kv :: t), rest) := by
  intro fuel rest hfuel
  have hpx := phiV_pos kv.2
  obtain ⟨f, rfl⟩ : ∃ f, fuel = f + 1 := ⟨fuel - 1, by omega⟩
  have hyeq := hv L d2 f (colonSp L) (encFieldsTail L d2 d1 t ++ rest)
    (allWs_colonSp L) (numStop_fieldsTail L d2 d1 t rest) (by omega)
  have hceq := fieldsCont_round L d2 d1 t ht f rest (by omega)
  have hstr := pStrBody_escList kv.1.data
    (':' :: (colonSp L ++ (encG L d2 kv.2 ++ (encFieldsTail L d2 d1 t ++ rest))))
  have hin : indC L d2 ++ (encKV L d2 kv ++ (encFieldsTail L d2 d1 t ++ rest))
      = indC L d2 ++ ('"' :: (escList kv.1.data
          ++ ('"' :: ':' :: (colonSp L
            ++ (encG L d2 kv.2 ++ (encFieldsTail L d2 d1 t ++ rest)))))) := by
    simp [encKV]
  rw [hin, jstep.eq_def]
  simp [skipWs_append_ws (allWs_indC L d2),
    skipWs_cons_not _ (show wsChar '"' = false from rfl),
    skipWs_cons_not _ (show wsChar ':' = false from rfl),
    hstr, hyeq, hceq, asString_data]

/-- Dispatch of the value mode on a number head. -/
theorem jstep_val_num (f : Nat) (cs : List Char) (c : Char) (r : List Char)
    (hskip : skipWs cs = c :: r) (hc : c = '-' ∨ c.isDigit = true) :
    jstep .val (f + 1) cs
      = (match pNum (c :: r) with
         | some p => Except.ok (.val p.1, p.2)
         | none => Except.error "malformed number") := by
  have hds : c ≠ 'n' ∧ c ≠ 't' ∧ c ≠ 'f' ∧ c ≠ '"' ∧ c ≠ '[' ∧ c ≠ '{' := by
    rcases hc with rfl | hd
    · exact ⟨by decide, by decide, by decide, by decide, by decide, by decide⟩
    · obtain ⟨_, _, _, a4, a5, a6, a7, a8, a9, _, _, _, _, _⟩ := char_ne_of_digit hd
      exact ⟨a4, a5, a6, a7, a8, a9⟩
  obtain ⟨h1, h2, h3, h4, h5, h6⟩ := hds
  rw [jstep.eq_def]
  simp only [hskip]
  simp [h1, h2, h3, h4, h5, h6]
  rcases hc with rfl | hd
  · simp
  · simp [hd]

/-- Every supported value round-trips through the grammar machine, in every
layout. -/
theorem supported_JRound : ∀ v, PyVal.supported v = true → JRound v := by
  refine pyval_ind (fun v => PyVal.supported v = true → JRound v)
    ?_ ?_ ?_ ?_ ?_ ?_ ?_ ?_
  · -- null
    intro _ L d fuel pre rest hpre hrest hfuel
    have h1 : phiV PyVal.null = 1 := rfl
    obtain ⟨f, rfl⟩ : ∃ f, fuel = f + 1 := ⟨fuel - 1, by omega⟩
    rw [show encG L d PyVal.null = 'n' :: ['u', 'l', 'l'] from rfl, jstep.eq_def]
    simp [skipWs_append_ws hpre, skipWs_cons_not _ (show wsChar 'n' = false from rfl)]
  · -- boolean
    intro b _ L d fuel pre rest hpre hrest hfuel
    have h1 : phiV (.boolean b) = 1 := rfl
    obtain ⟨f, rfl⟩ : ∃ f, fuel = f + 1 := ⟨fuel - 1, by omega⟩
    cases b
    · rw [show encG L d (.boolean false) = 'f' :: ['a', 'l', 's', 'e'] from rfl,
        jstep.eq_def]
      simp [skipWs_append_ws hpre, skipWs_cons_not _ (show wsChar 'f' = false from rfl)]
    · rw [show encG L d (.boolean true) = 't' :: ['r', 'u', 'e'] from rfl, jstep.eq_def]
      simp [skipWs_append_ws hpre, skipWs_cons_not _ (show wsChar 't' = false from rfl)]
  · -- int
    intro n _ L d fuel pre rest hpre hrest hfuel
    have h1 : phiV (.int n) = 1 := rfl
    obtain ⟨f, rfl⟩ : ∃ f, fuel = f + 1 := ⟨fuel - 1, by omega⟩
    rw [show encG L d (.int n) = intToDigits n from rfl]
    have hhead : ∃ c r, intToDigits n = c :: r ∧ (c = '-' ∨ c.isDigit = true) := by
      by_cases hn : n < 0
      · exact ⟨'-', _, intToDigits_neg hn, Or.inl rfl⟩
      · obtain ⟨c, r, hcr, hcd⟩ := natToDigits_head_digit n.toNat
        exact ⟨c, r, by rw [intToDigits_nonneg hn, hcr], Or.inr hcd⟩
    obtain ⟨c, r, hcr, hc⟩ := hhead
    have hw : wsChar c = false := by
      rcases hc with rfl | hd
      · rfl
      · exact wsChar_of_digit hd
    have hskip : skipWs (pre ++ (intToDigits n ++ rest)) = c :: (r ++ rest) := by
      rw [skipWs_append_ws hpre, hcr, List.cons_append, skipWs_cons_not _ hw]
    rw [jstep_val_num f _ c (r ++ rest) hskip hc,
      show c :: (r ++ rest) = intToDigits n ++ rest from by rw [hcr, List.cons_append],
      pNum_int n rest hrest]
  · -- float
    intro m e _ L d fuel pre rest hpre hrest hfuel
    have h1 : phiV (.float m e) = 1 := rfl
    obtain ⟨f, rfl⟩ : ∃ f, fuel = f + 1 := ⟨fuel - 1, by omega⟩
    rw [show encG L d (.float m e) = intToDigits m ++ 'e' :: intToDigits e from rfl]
    have hhead : ∃ c r, intToDigits m = c :: r ∧ (c = '-' ∨ c.isDigit = true) := by
      by_cases hm : m < 0
      · exact ⟨'-', _, intToDigits_neg hm, Or.inl rfl⟩
      · obtain ⟨c, r, hcr, hcd⟩ := natToDigits_head_digit m.toNat
        exact ⟨c, r, by rw [intToDigits_nonneg hm, hcr], Or.inr hcd⟩
    obtain ⟨c, r, hcr, hc⟩ := hhead
    have hw : wsChar c = false := by
      rcases hc with rfl | hd
      · rfl
      · exact wsChar_of_digit hd
    have hskip : skipWs (pre ++ ((intToDigits m ++ 'e' :: intToDigits e) ++ rest))
        = c :: (r ++ ('e' :: intToDigits e ++ rest)) := by
      rw [skipWs_append_ws hpre, List.append_assoc, hcr, List.cons_append,
        skipWs_cons_not _ hw]
    rw [jstep_val_num f _ c (r ++ ('e' :: intToDigits e ++ rest)) hskip hc,
      show c :: (r ++ ('e' :: intToDigits e ++ rest))
          = intToDigits m ++ 'e' :: intToDigits e ++ rest from by
        rw [hcr]; simp,
      pNum_float m e rest hrest]
  · -- str
    intro s _ L d fuel pre rest hpre hrest hfuel
    have h1 : phiV (.str s) = 1 := rfl
    obtain ⟨f, rfl⟩ : ∃ f, fuel = f + 1 := ⟨fuel - 1, by omega⟩
    rw [show encG L d (.str s) = '"' :: (escList s.data ++ ['"']) from rfl, jstep.eq_def]
    have hstr := pStrBody_escList s.data rest
    simp [skipWs_append_ws hpre, skipWs_cons_not _ (show wsChar '"' = false from rfl),
      hstr, asString_data]
  · -- arr
    intro xs hmem hsupp
    cases xs with
    | nil =>
      intro L d fuel pre rest hpre hrest hfuel
      have h1 : phiV (.arr []) = 1 := rfl
      obtain ⟨f, rfl⟩ : ∃ f, fuel = f + 1 + 1 := ⟨fuel - 2, by omega⟩
      rw [show encG L d (.arr []) = '[' :: [']'] from rfl]
      have helems : jstep .elems (f + 1) (']' :: rest) = .ok (.elems [], rest) := by
        rw [jstep.eq_def]
        simp [skipWs_cons_not _ (show wsChar ']' = false from rfl)]
      rw [jstep.eq_def]
      simp [skipWs_append_ws hpre, skipWs_cons_not _ (show wsChar '[' = false from rfl),
        helems]
    | cons x t =>
      intro L d fuel pre rest hpre hrest hfuel
      have hsl : suppList (x :: t) = true := hsupp
      have hx : JRound x := hmem x (List.mem_cons_self x t)
        (suppList_mem hsl x (List.mem_cons_self x t))
      have htJ : ∀ y ∈ t, JRound y := fun y hy =>
        hmem y (List.mem_cons_of_mem _ hy)
          (suppList_mem hsl y (List.mem_cons_of_mem _ hy))
      have hphi : phiV (.arr (x :: t)) = 2 + phiV x + phiC t := rfl
      obtain ⟨f, rfl⟩ : ∃ f, fuel = f + 1 := ⟨fuel - 1, by omega⟩
      have helems := elems_round L (d + stepOf L) d x hx t htJ f rest (by omega)
      have hin : encG L d (.arr (x :: t))
          = '[' :: (indC L (d + stepOf L) ++ (encG L (d + stepOf L) x
            ++ encItemsTail L (d + stepOf L) d t)) := by
        rw [show encG L d (.arr (x :: t)) = '[' :: (indC L (d + stepOf L)
          ++ encG L (d + stepOf L) x ++ encItemsTail L (d + stepOf L) d t) from rfl]
        simp
      rw [hin, jstep.eq_def]
      simp [skipWs_append_ws hpre, skipWs_cons_not _ (show wsChar '[' = false from rfl),
        helems]
  · -- obj
    intro kvs hmem hsupp
    cases kvs with
    | nil =>
      intro L d fuel pre rest hpre hrest hfuel
      have h1 : phiV (.obj []) = 1 := rfl
      obtain ⟨f, rfl⟩ : ∃ f, fuel = f + 1 + 1 := ⟨fuel - 2, by omega⟩
      rw [show encG L d (.obj []) = '{' :: ['}'] from rfl]
      have hflds : jstep .fields (f + 1) ('}' :: rest) = .ok (.fields [], rest) := by
        rw [jstep.eq_def]
        simp [skipWs_cons_not _ (show wsChar '}' = false from rfl)]
      rw [jstep.eq_def]
      simp [skipWs_append_ws hpre, skipWs_cons_not _ (show wsChar '{' = false from rfl),
        hflds]
    | cons kv t =>
      intro L d fuel pre rest hpre hrest hfuel
      have hsl : suppFields (kv :: t) = true := hsupp
      have hv : JRound kv.2 := hmem kv (List.mem_cons_self kv t)
        (suppFields_mem hsl kv (List.mem_cons_self kv t))
      have htJ : ∀ z ∈ t, JRound z.2 := fun z hz =>
        hmem z (List.mem_cons_of_mem _ hz)
          (suppFields_mem hsl z (List.mem_cons_of_mem _ hz))
      have hphi : phiV (.obj (kv :: t)) = 2 + phiV kv.2 + phiF t := rfl
      obtain ⟨f, rfl⟩ : ∃ f, fuel = f + 1 := ⟨fuel - 1, by omega⟩
      have hflds := fields_round L (d + stepOf L) d kv hv t htJ f rest (by omega)
      have hin : encG L d (.obj (kv :: t))
          = '{' :: (indC L (d + stepOf L) ++ (encKV L (d + stepOf L) kv
            ++ encFieldsTail L (d + stepOf L) d t)) := by
        rw [show encG L d (.obj (kv :: t)) = '{' :: (indC L (d + stepOf L)
          ++ encKV L (d + stepOf L) kv ++ encFieldsTail L (d + stepOf L) d t) from rfl]
        simp
      rw [hin, jstep.eq_def]
      simp [skipWs_append_ws hpre, skipWs_cons_not _ (show wsChar '{' = false from rfl),
        hflds]
  · -- unsupported
    intro tag hsupp
    exact absurd (show (false : Bool) = true from hsupp) (by decide)

/-! ## Fuel bound and the top-level JSON round-trip -/

theorem encG_length_pos (L : Option Nat) (d : Nat) (v : PyVal) :
    1 ≤ (encG L d v).length := by
  obtain ⟨c, r, hcr, _⟩ := encG_head L d v
  rw [hcr]
  simp

theorem phiC_le_tail_length (L : Option Nat) (d2 d1 : Nat) :
    ∀ t : List PyVal, (∀ y ∈ t, ∀ Lb db, phiV y ≤ 3 * (encG Lb db y).length) →
      phiC t ≤ 3 * (encItemsTail L d2 d1 t).length := by
  intro t
  induction t with
  | nil =>
    intro _
    have h1 : phiC ([] : List PyVal) = 1 := rfl
    have h2 : encItemsTail L d2 d1 ([] : List PyVal) = indC L d1 ++ [']'] := rfl
    rw [h1, h2]
    simp only [List.length_append, List.length_cons, List.length_nil]
    omega
  | cons y t2 ih =>
    intro hmem
    have h1 : phiC (y :: t2) = 1 + phiV y + phiC t2 := rfl
    have h2 : encItemsTail L d2 d1 (y :: t2)
        = ',' :: (indC L d2 ++ encG L d2 y ++ encItemsTail L d2 d1 t2) := rfl
    have hy := hmem y (List.mem_cons_self y t2) L d2
    have ht2 := ih (fun z hz => hmem z (List.mem_cons_of_mem _ hz))
    rw [h1, h2]
    simp only [List.length_append, List.length_cons]
    omega

theorem phiF_le_tail_length (L : Option Nat) (d2 d1 : Nat) :
    ∀ t : List (String × PyVal),
      (∀ kv ∈ t, ∀ Lb db, phiV kv.2 ≤ 3 * (encG Lb db kv.2).length) →
      phiF t ≤ 3 * (encFieldsTail L d2 d1 t).length := by
  intro t
  induction t with
  | nil =>
    intro _
    have h1 : phiF ([] : List (String × PyVal)) = 1 := rfl
    have h2 : encFieldsTail L d2 d1 ([] : List (String × PyVal)) = indC L d1 ++ ['}'] := rfl
    rw [h1, h2]
    simp only [List.length_append, List.length_cons, List.length_nil]
    omega
  | cons kv t2 ih =>
    intro hmem
    have h1 : phiF (kv :: t2) = 1 + phiV kv.2 + phiF t2 := rfl
    have h2 : encFieldsTail L d2 d1 (kv :: t2)
        = ',' :: (indC L d2 ++ encKV L d2 kv ++ encFieldsTail L d2 d1 t2) := rfl
    have h3 : encKV L d2 kv
        = '"' :: (escList kv.1.data ++ '"' :: ':' :: (colonSp L ++ encG L d2 kv.2)) := by
      simp [encKV]
    have hy := hmem kv (List.mem_cons_self kv t2) L d2
    have ht2 := ih (fun z hz => hmem z (List.mem_cons_of_mem _ hz))
    rw [h1, h2, h3]
    simp only [List.length_append, List.length_cons]
    omega

theorem phi_le_encG_length : ∀ v (L : Option Nat) (d : Nat),
    phiV v ≤ 3 * (encG L d v).length := by
  intro v
  induction v using pyval_ind with
  | hn =>
    intro L d
    have h := encG_length_pos L d .null
    have h1 : phiV .null = 1 := rfl
    omega
  | hb b =>
    intro L d
    have h := encG_length_pos L d (.boolean b)
    have h1 : phiV (.boolean b) = 1 := rfl
    omega
  | hi n =>
    intro L d
    have h := encG_length_pos L d (.int n)
    have h1 : phiV (.int n) = 1 := rfl
    omega
  | hf m e =>
    intro L d
    have h := encG_length_pos L d (.float m e)
    have h1 : phiV (.float m e) = 1 := rfl
    omega
  | hs s =>
    intro L d
    have h := encG_length_pos L d (.str s)
    have h1 : phiV (.str s) = 1 := rfl
    omega
  | hu tag =>
    intro L d
    have h := encG_length_pos L d (.unsupported tag)
    have h1 : phiV (.unsupported tag) = 1 := rfl
    omega
  | ha xs ih =>
    intro L d
    cases xs with
    | nil =>
      have h1 : phiV (.arr []) = 1 := rfl
      have h2 : encG L d (.arr []) = '[' :: [']'] := rfl
      rw [h1, h2]
      simp
    | cons x t =>
      have h1 : phiV (.arr (x :: t)) = 2 + phiV x + phiC t := rfl
      have h2 : encG L d (.arr (x :: t)) = '[' :: (indC L (d + stepOf L)
          ++ encG L (d + stepOf L) x ++ encItemsTail L (d + stepOf L) d t) := rfl
      have hx := ih x (List.mem_cons_self x t) L (d + stepOf L)
      have ht := phiC_le_tail_length L (d + stepOf L) d t
        (fun z hz Lb db => ih z (List.mem_cons_of_mem _ hz) Lb db)
      rw [h1, h2]
      simp only [List.length_append, List.length_cons]
      omega
  | ho kvs ih =>
    intro L d
    cases kvs with
    | nil =>
      have h1 : phiV (.obj []) = 1 := rfl
      have h2 : encG L d (.obj []) = '{' :: ['}'] := rfl
      rw [h1, h2]
      simp
    | cons kv t =>
      have h1 : phiV (.obj (kv :: t)) = 2 + phiV kv.2 + phiF t := rfl
      have h2 : encG L d (.obj (kv :: t)) = '{' :: (indC L (d + stepOf L)
          ++ encKV L (d + stepOf L) kv ++ encFieldsTail L (d + stepOf L) d t) := rfl
      have h3 : encKV L (d + stepOf L) kv = '"' :: (escList kv.1.data
          ++ '"' :: ':' :: (colonSp L ++ encG L (d + stepOf L) kv.2)) := by
        simp [encKV]
      have hx := ih kv (List.mem_cons_self kv t) L (d + stepOf L)
      have ht := phiF_le_tail_length L (d + stepOf L) d t
        (fun z hz Lb db => ih z (List.mem_cons_of_mem _ hz) Lb db)
      rw [h1, h2, h3]
      simp only [List.length_append, List.length_cons]
      omega

theorem data_asString (l : List Char) : (l.asString).data = l := rfl

/-- Round trip through the compact encoder and the decoder. -/
theorem jsonDecode_encG (v : PyVal) (h : PyVal.supported v = true)
    (L : Option Nat) : jsonDecode ((encG L 0 v).asString) = .ok v := by
  have hr := supported_JRound v h L 0 (3 * (encG L 0 v).length + 1) [] []
    (by simp) (by trivial) (by have := phi_le_encG_length v L 0; omega)
  simp only [List.nil_append, List.append_nil] at hr
  rw [jsonDecode, data_asString, hr]
  rfl

/-! ## YAML scalar-token resolution -/

theorem plainStart_facts {c : Char} (h : plainStart c = true) :
    c ≠ '"' ∧ c ≠ '-' ∧ c ≠ '{' ∧ c ≠ '[' ∧ c ≠ ' ' ∧ c ≠ '\n' ∧ c ≠ ':' := by
  refine ⟨?_, ?_, ?_, ?_, ?_, ?_, ?_⟩ <;>
    · intro heq; subst heq; exact absurd h (by decide)

theorem plainStart_not_digit {c : Char} (h : plainStart c = true) :
    c.isDigit = false := by
  rcases Bool.eq_false_or_eq_true c.isDigit with ht | hf
  · exfalso
    simp only [plainStart, Bool.or_eq_true, decide_eq_true_eq] at h
    rcases h with ha | rfl
    · simp only [Char.isAlpha, Char.isUpper, Char.isLower, Bool.or_eq_true,
        Bool.and_eq_true, decide_eq_true_eq] at ha
      simp only [Char.isDigit, Bool.and_eq_true, decide_eq_true_eq] at ht
      obtain ⟨hd1, hd2⟩ := ht
      have hd1' : (48 : UInt32).toNat ≤ c.val.toNat := hd1
      have hd2' : c.val.toNat ≤ (57 : UInt32).toNat := hd2
      have e48 : (48 : UInt32).toNat = 48 := rfl
      have e57 : (57 : UInt32).toNat = 57 := rfl
      have e65 : (65 : UInt32).toNat = 65 := rfl
      have e97 : (97 : UInt32).toNat = 97 := rfl
      rw [e48] at hd1'
      rw [e57] at hd2'
      rcases ha with ⟨h1, h2⟩ | ⟨h1, h2⟩
      · have h1' : (65 : UInt32).toNat ≤ c.val.toNat := h1
        rw [e65] at h1'
        omega
      · have h1' : (97 : UInt32).toNat ≤ c.val.toNat := h1
        rw [e97] at h1'
        omega
    · exact absurd ht (by decide)
  · exact hf

theorem splitColon_no_colon :
    ∀ l : List Char, (∀ c ∈ l, c ≠ ':') → splitColon l = none := by
  intro l
  induction l with
  | nil => intro _; rfl
  | cons c t ih =>
    intro h
    have hc : c ≠ ':' := h c (by simp)
    simp [splitColon, hc, ih (fun x hx => h x (by simp [hx]))]

theorem splitColon_append :
    ∀ (l : List Char), (∀ c ∈ l, c ≠ ':') → ∀ r,
      splitColon (l ++ ':' :: r) = some (l, r) := by
  intro l
  induction l with
  | nil => intro _ r; simp [splitColon]
  | cons c t ih =>
    intro h r
    have hc : c ≠ ':' := h c (by simp)
    simp [splitColon, hc, ih (fun x hx => h x (by simp [hx])) r]

theorem plainSafe_no_colon {s : String} (h : plainSafe s = true) :
    ∀ c ∈ s.data, c ≠ ':' := by
  intro c hc heq
  simp only [plainSafe, Bool.and_eq_true] at h
  have hL := h.1.1.1
  rcases hd : s.data with _ | ⟨c0, t⟩
  · rw [hd] at hc; simp at hc
  · rw [hd] at hL hc
    simp only [plainSafeL, Bool.and_eq_true] at hL
    have := List.all_eq_true.mp hL.2 c hc
    subst heq
    exact absurd this (by decide)

theorem plainSafe_head {s : String} (h : plainSafe s = true) :
    ∃ c t, s.data = c :: t ∧ plainStart c = true ∧ (∀ x ∈ s.data, plainChar x = true) := by
  simp only [plainSafe, Bool.and_eq_true] at h
  have hL := h.1.1.1
  rcases hd : s.data with _ | ⟨c0, t⟩
  · rw [hd] at hL; exact absurd hL (by decide)
  · rw [hd] at hL
    simp only [plainSafeL, Bool.and_eq_true] at hL
    refine ⟨c0, t, rfl, hL.1, ?_⟩
    intro x hx
    exact List.all_eq_true.mp hL.2 x hx

theorem plainSafe_ne_kw {s : String} (h : plainSafe s = true) :
    s ≠ "null" ∧ s ≠ "true" ∧ s ≠ "false" := by
  simp only [plainSafe, Bool.and_eq_true, Bool.not_eq_true', beq_eq_false_iff_ne,
    ne_eq] at h
  exact ⟨h.1.1.2, h.1.2, h.2⟩

theorem string_data_injective {s u : String} (h : s.data = u.data) : s = u :=
  congrArg String.mk h

/-- Resolving the emitted token of a scalar (or empty container) recovers
the value. -/
theorem scalarOf_scalarTok (v : PyVal) (hne : isContNE v = false)
    (hs : PyVal.supported v = true) : scalarOf (scalarTok v) = some v := by
  cases v with
  | null => rfl
  | boolean b => cases b <;> rfl
  | int m =>
    obtain ⟨c, r, hcr, hc⟩ : ∃ c r, intToDigits m = c :: r ∧ (c = '-' ∨ c.isDigit = true) := by
      by_cases hm : m < 0
      · exact ⟨'-', _, intToDigits_neg hm, Or.inl rfl⟩
      · obtain ⟨c, r, hcr, hcd⟩ := natToDigits_head_digit m.toNat
        exact ⟨c, r, by rw [intToDigits_nonneg hm, hcr], Or.inr hcd⟩
    have htok : scalarTok (.int m) = intToDigits m := rfl
    have hb1 : c :: r ≠ "{}".data := by
      intro heq
      injection heq with h1 _
      rcases hc with rfl | hd
      · exact absurd h1 (by decide)
      · subst h1; exact absurd hd (by decide)
    have hb2 : c :: r ≠ "[]".data := by
      intro heq
      injection heq with h1 _
      rcases hc with rfl | hd
      · exact absurd h1 (by decide)
      · subst h1; exact absurd hd (by decide)
    have hq : c ≠ '"' := by
      rcases hc with rfl | hd
      · decide
      · exact (char_ne_of_digit hd).2.2.2.2.2.2.1
    have hkw : ∀ kw : List Char, kw.head? = some 'n' ∨ kw.head? = some 't'
        ∨ kw.head? = some 'f' → c :: r ≠ kw := by
      intro kw hkw heq
      rcases hc with rfl | hd
      · rcases hkw with hh | hh | hh <;>
          · rw [← heq] at hh; simp at hh
      · rcases hkw with hh | hh | hh <;>
          · rw [← heq] at hh
            simp at hh
            subst hh
            exact absurd hd (by decide)
    rw [htok, hcr, scalarOf, if_neg hb1, if_neg hb2]
    rw [if_neg hq,
      if_neg (show ¬ (c :: r = "null".data) from hkw _ (Or.inl rfl)),
      if_neg (show ¬ (c :: r = "true".data) from hkw _ (Or.inr (Or.inl rfl))),
      if_neg (show ¬ (c :: r = "false".data) from hkw _ (Or.inr (Or.inr rfl)))]
    rw [← hcr, show intToDigits m = intToDigits m ++ [] from by simp,
      pNum_int m [] (by trivial)]
    rfl
  | float m e =>
    obtain ⟨c, r, hcr, hc⟩ : ∃ c r, intToDigits m = c :: r ∧ (c = '-' ∨ c.isDigit = true) := by
      by_cases hm : m < 0
      · exact ⟨'-', _, intToDigits_neg hm, Or.inl rfl⟩
      · obtain ⟨c, r, hcr, hcd⟩ := natToDigits_head_digit m.toNat
        exact ⟨c, r, by rw [intToDigits_nonneg hm, hcr], Or.inr hcd⟩
    have htok : scalarTok (.float m e) = intToDigits m ++ 'e' :: intToDigits e := rfl
    have hcons : intToDigits m ++ 'e' :: intToDigits e = c :: (r ++ 'e' :: intToDigits e) := by
      rw [hcr, List.cons_append]
    have hq : c ≠ '"' := by
      rcases hc with rfl | hd
      · decide
      · exact (char_ne_of_digit hd).2.2.2.2.2.2.1
    have hb1 : c :: (r ++ 'e' :: intToDigits e) ≠ "{}".data := by
      intro heq
      injection heq with h1 _
      rcases hc with rfl | hd
      · exact absurd h1 (by decide)
      · subst h1; exact absurd hd (by decide)
    have hb2 : c :: (r ++ 'e' :: intToDigits e) ≠ "[]".data := by
      intro heq
      injection heq with h1 _
      rcases hc with rfl | hd
      · exact absurd h1 (by decide)
      · subst h1; exact absurd hd (by decide)
    have hkw : ∀ kw : List Char, kw.head? = some 'n' ∨ kw.head? = some 't'
        ∨ kw.head? = some 'f' → c :: (r ++ 'e' :: intToDigits e) ≠ kw := by
      intro kw hkw heq
      rcases hc with rfl | hd
      · rcases hkw with hh | hh | hh <;>
          · rw [← heq] at hh; simp at hh
      · rcases hkw with hh | hh | hh <;>
          · rw [← heq] at hh
            simp at hh
            subst hh
            exact absurd hd (by decide)
    rw [htok, hcons, scalarOf, if_neg hb1, if_neg hb2]
    rw [if_neg hq,
      if_neg (show ¬ (c :: (r ++ 'e' :: intToDigits e) = "null".data) from hkw _ (Or.inl rfl)),
      if_neg (show ¬ (c :: (r ++ 'e' :: intToDigits e) = "true".data) from
        hkw _ (Or.inr (Or.inl rfl))),
      if_neg (show ¬ (c :: (r ++ 'e' :: intToDigits e) = "false".data) from
        hkw _ (Or.inr (Or.inr rfl)))]
    rw [← hcons, show intToDigits m ++ 'e' :: intToDigits e
        = intToDigits m ++ 'e' :: intToDigits e ++ [] from by simp,
      pNum_float m e [] (by trivial)]
    simp
  | str s =>
    by_cases hp : plainSafe s = true
    · obtain ⟨c, t, hdat, hstart, hall⟩ := plainSafe_head hp
      obtain ⟨hq, hm, hb, hbr, _, _, _⟩ := plainStart_facts hstart
      have htok : scalarTok (.str s) = s.data := by
        simp [scalarTok, strTok, hp]
      have hb1 : c :: t ≠ "{}".data := by
        intro heq; injection heq with h1 _; exact hb h1
      have hb2 : c :: t ≠ "[]".data := by
        intro heq; injection heq with h1 _; exact hbr h1
      obtain ⟨hkw1, hkw2, hkw3⟩ := plainSafe_ne_kw hp
      have hnum : pNum s.data = none := by
        rw [hdat]
        simp only [pNum]
        rw [if_neg (by intro heq; exact hm heq)]
        simp only [pNumPos]
        rw [if_neg (by
          intro hd
          have := plainStart_not_digit hstart
          rw [hd] at this
          exact absurd this (by decide))]
      rw [htok, hdat, scalarOf, if_neg hb1, if_neg hb2]
      rw [if_neg (by intro heq; exact hq heq),
        if_neg (show ¬ (c :: t = "null".data) from by
          rw [← hdat]; intro heq; exact hkw1 (string_data_injective heq)),
        if_neg (show ¬ (c :: t = "true".data) from by
          rw [← hdat]; intro heq; exact hkw2 (string_data_injective heq)),
        if_neg (show ¬ (c :: t = "false".data) from by
          rw [← hdat]; intro heq; exact hkw3 (string_data_injective heq))]
      rw [← hdat, hnum]
      simp [asString_data]
    · have htok : scalarTok (.str s) = '"' :: (escList s.data ++ ['"']) := by
        simp [scalarTok, strTok, hp]
      have hb1 : '"' :: (escList s.data ++ ['"']) ≠ "{}".data := by
        intro heq; injection heq with h1 _; exact absurd h1 (by decide)
      have hb2 : '"' :: (escList s.data ++ ['"']) ≠ "[]".data := by
        intro heq; injection heq with h1 _; exact absurd h1 (by decide)
      have hstr : pStrBody (escList s.data ++ ['"'])
          = some (s.data, []) := by
        rw [show (['"'] : List Char) = '"' :: ([] : List Char) from rfl]
        exact pStrBody_escList s.data []
      rw [htok, scalarOf, if_neg hb1, if_neg hb2]
      rw [if_pos rfl, hstr]
      simp [asString_data]
  | arr xs =>
    cases xs with
    | nil => rfl
    | cons x t => exact absurd hne (by simp [isContNE])
  | obj kvs =>
    cases kvs with
    | nil => rfl
    | cons kv t => exact absurd hne (by simp [isContNE])
  | unsupported tag =>
    exact absurd (show (false : Bool) = true from hs) (by decide)

/-! ## Shapes of emitted YAML lines -/

theorem digit_ne_sp {c : Char} (h : c.isDigit = true) : c ≠ ' ' := by
  intro heq; subst heq; exact absurd h (by decide)

theorem natToDigits_digitAll (n : Nat) : ∀ c ∈ natToDigits n, c.isDigit = true :=
  natToDigitsAux_digits (n + 1) n (by omega)

theorem intToDigits_chars (m : Int) : ∀ x ∈ intToDigits m, x = '-' ∨ x.isDigit = true := by
  intro x hx
  unfold intToDigits at hx
  split_ifs at hx
  · rcases List.mem_cons.mp hx with rfl | h2
    · exact Or.inl rfl
    · exact Or.inr (natToDigits_digitAll _ x h2)
  · exact Or.inr (natToDigits_digitAll _ x hx)

theorem intToDigits_head (m : Int) :
    ∃ c r, intToDigits m = c :: r ∧ (c = '-' ∨ c.isDigit = true) := by
  by_cases hm : m < 0
  · exact ⟨'-', _, intToDigits_neg hm, Or.inl rfl⟩
  · obtain ⟨c, r, hcr, hcd⟩ := natToDigits_head_digit m.toNat
    exact ⟨c, r, by rw [intToDigits_nonneg hm, hcr], Or.inr hcd⟩

theorem intToDigits_no_nl (m : Int) : '\n' ∉ intToDigits m := by
  intro hm
  rcases intToDigits_chars m '\n' hm with h | h
  · exact absurd h (by decide)
  · exact absurd h (by decide)

theorem hexDigit_ne_nl {k : Nat} (h : k < 16) : hexDigit k ≠ '\n' := by
  interval_cases k <;> decide

theorem escChar_no_nl (c : Char) : '\n' ∉ escChar c := by
  unfold escChar
  split_ifs with h1 h2 h3 h4 h5 h6 h7 h8
  · decide
  · decide
  · decide
  · decide
  · decide
  · decide
  · decide
  · intro hm
    simp only [List.mem_cons, List.not_mem_nil, or_false] at hm
    rcases hm with h | h | h | h | h | h
    · exact absurd h (by decide)
    · exact absurd h (by decide)
    · exact absurd h (by decide)
    · exact absurd h (by decide)
    · exact absurd h.symm (hexDigit_ne_nl (by omega))
    · exact absurd h.symm (hexDigit_ne_nl (by omega))
  · intro hm
    simp only [List.mem_cons, List.not_mem_nil, or_false] at hm
    subst hm
    exact h8 (by decide)

theorem escList_no_nl (l : List Char) : '\n' ∉ escList l := by
  induction l with
  | nil => simp [escList]
  | cons c t ih =>
    simp only [escList, List.mem_append]
    intro hm
    rcases hm with hm | hm
    · exact escChar_no_nl c hm
    · exact ih hm

theorem strTok_no_nl (k : String) : '\n' ∉ strTok k := by
  unfold strTok
  split_ifs with hp
  · intro hm
    obtain ⟨c, t, hd, hst, hall⟩ := plainSafe_head hp
    exact absurd (hall '\n' hm) (by decide)
  · intro hm
    simp only [List.mem_cons, List.mem_append, List.mem_cons, List.not_mem_nil,
      or_false] at hm
    rcases hm with hm | hm | hm
    · exact absurd hm (by decide)
    · exact escList_no_nl _ hm
    · exact absurd hm (by decide)

theorem scalarTok_no_nl (v : PyVal) : '\n' ∉ scalarTok v := by
  cases v with
  | null => decide
  | boolean b => cases b <;> decide
  | int m => exact intToDigits_no_nl m
  | float m e =>
    intro hm
    simp only [scalarTok, List.mem_append, List.mem_cons] at hm
    rcases hm with hm | hm | hm
    · exact intToDigits_no_nl m hm
    · exact absurd hm (by decide)
    · exact intToDigits_no_nl e hm
  | str s => exact strTok_no_nl s
  | arr xs => exact (show '\n' ∉ "[]".data by decide)
  | obj kvs => exact (show '\n' ∉ "{}".data by decide)
  | unsupported tag => exact (show '\n' ∉ "null".data by decide)

theorem strTok_head (k : String) :
    ∃ c r, strTok k = c :: r ∧ c ≠ '-' ∧ c ≠ ' ' ∧ c ≠ ':' := by
  unfold strTok
  split_ifs with hp
  · obtain ⟨c, t, hd, hst, _⟩ := plainSafe_head hp
    refine ⟨c, t, hd, ?_, ?_, ?_⟩
    · intro h; subst h; exact absurd hst (by decide)
    · intro h; subst h; exact absurd hst (by decide)
    · intro h; subst h; exact absurd hst (by decide)
  · exact ⟨'"', _, rfl, by decide, by decide, by decide⟩

theorem scalarTok_head (v : PyVal) :
    ∃ c r, scalarTok v = c :: r ∧ c ≠ ' '
      ∧ (c = '-' → ∃ d r2, r = d :: r2 ∧ d.isDigit = true) := by
  cases v with
  | null => exact ⟨'n', _, rfl, by decide, by intro h; exact absurd h (by decide)⟩
  | boolean b =>
    cases b
    · exact ⟨'f', _, rfl, by decide, by intro h; exact absurd h (by decide)⟩
    · exact ⟨'t', _, rfl, by decide, by intro h; exact absurd h (by decide)⟩
  | int m =>
    by_cases hm : m < 0
    · obtain ⟨d, r2, hdr, hdd⟩ := natToDigits_head_digit m.natAbs
      exact ⟨'-', natToDigits m.natAbs,
        by rw [show scalarTok (.int m) = intToDigits m from rfl, intToDigits_neg hm],
        by decide, fun _ => ⟨d, r2, hdr, hdd⟩⟩
    · obtain ⟨c, r, hcr, hcd⟩ := natToDigits_head_digit m.toNat
      refine ⟨c, r,
        by rw [show scalarTok (.int m) = intToDigits m from rfl, intToDigits_nonneg hm, hcr],
        digit_ne_sp hcd, ?_⟩
      intro h
      obtain ⟨_, _, _, _, _, _, _, _, _, _, _, _, _, hne⟩ := char_ne_of_digit hcd
      exact absurd h hne
  | float m e =>
    have htok : scalarTok (.float m e) = intToDigits m ++ 'e' :: intToDigits e := rfl
    by_cases hm : m < 0
    · obtain ⟨d, r2, hdr, hdd⟩ := natToDigits_head_digit m.natAbs
      refine ⟨'-', natToDigits m.natAbs ++ 'e' :: intToDigits e, ?_, by decide, ?_⟩
      · rw [htok, intToDigits_neg hm, List.cons_append]
      · intro _
        exact ⟨d, r2 ++ 'e' :: intToDigits e, by rw [hdr, List.cons_append], hdd⟩
    · obtain ⟨c, r, hcr, hcd⟩ := natToDigits_head_digit m.toNat
      refine ⟨c, r ++ 'e' :: intToDigits e,
        by rw [htok, intToDigits_nonneg hm, hcr, List.cons_append],
        digit_ne_sp hcd, ?_⟩
      intro h
      obtain ⟨_, _, _, _, _, _, _, _, _, _, _, _, _, hne⟩ := char_ne_of_digit hcd
      exact absurd h hne
  | str s =>
    obtain ⟨c, r, hcr, hd, hsp, _⟩ := strTok_head s
    exact ⟨c, r, hcr, hsp, fun h => absurd h hd⟩
  | arr xs => exact ⟨'[', _, rfl, by decide, by intro h; exact absurd h (by decide)⟩
  | obj kvs => exact ⟨'{', _, rfl, by decide, by intro h; exact absurd h (by decide)⟩
  | unsupported tag =>
    exact ⟨'n', _, rfl, by decide, by intro h; exact absurd h (by decide)⟩

theorem isSeqLine_ne_dash {c : Char} (hc : c ≠ '-') (r : List Char) :
    isSeqLine (c :: r) = false := by
  cases r with
  | nil => simp [isSeqLine, hc]
  | cons d t => simp [isSeqLine, hc]

theorem isSeqLine_scalarTok (v : PyVal) : isSeqLine (scalarTok v) = false := by
  obtain ⟨c, r, hcr, hsp, hdash⟩ := scalarTok_head v
  rw [hcr]
  by_cases hc : c = '-'
  · subst hc
    obtain ⟨d, r2, hr, hd⟩ := hdash rfl
    subst hr
    simp [isSeqLine, digit_ne_sp hd]
  · exact isSeqLine_ne_dash hc r

theorem keySplit_strTok (k : String) (tail : List Char) :
    keySplit (strTok k ++ ':' :: tail) = some (k, tail) := by
  unfold strTok
  split_ifs with hp
  · obtain ⟨c, t, hd, hst, hall⟩ := plainSafe_head hp
    have hnc := plainSafe_no_colon hp
    have hq : c ≠ '"' := by intro h; subst h; exact absurd hst (by decide)
    have hk : (c :: t).asString = k := by rw [← hd, asString_data]
    have hsc : splitColon (c :: (t ++ ':' :: tail)) = some (c :: t, tail) := by
      have := splitColon_append (c :: t)
        (by intro x hx; exact hnc x (by rw [hd]; exact hx)) tail
      rw [List.cons_append] at this
      exact this
    rw [hd, List.cons_append]
    simp [keySplit, hq, hsc, hk]
  · have hassoc : ('"' :: (escList k.data ++ ['"'])) ++ ':' :: tail
      = '"' :: (escList k.data ++ '"' :: ':' :: tail) := by simp
    rw [hassoc]
    simp [keySplit, pStrBody_escList k.data (':' :: tail), asString_data]

theorem isMapLine_strTok (k : String) (tail : List Char) :
    isMapLine (strTok k ++ ':' :: tail) = true := by
  simp [isMapLine, keySplit_strTok]

theorem isSeqLine_strTok (k : String) (tail : List Char) :
    isSeqLine (strTok k ++ ':' :: tail) = false := by
  obtain ⟨c, r, hcr, hd, _, _⟩ := strTok_head k
  rw [hcr, List.cons_append]
  exact isSeqLine_ne_dash hd _

theorem keySplit_none (c : Char) (r : List Char) (hq : c ≠ '"')
    (h : ∀ x ∈ c :: r, x ≠ ':') : keySplit (c :: r) = none := by
  simp [keySplit, hq, splitColon_no_colon _ h]

theorem isMapLine_scalarTok (v : PyVal) : isMapLine (scalarTok v) = false := by
  cases v with
  | null => exact (show isMapLine "null".data = false by decide)
  | boolean b =>
    cases b
    · exact (show isMapLine "false".data = false by decide)
    · exact (show isMapLine "true".data = false by decide)
  | int m =>
    obtain ⟨c, r, hcr, hc⟩ := intToDigits_head m
    have htok : scalarTok (.int m) = intToDigits m := rfl
    rw [htok, hcr]
    simp only [isMapLine]
    rw [keySplit_none c r ?_ ?_]
    · rfl
    · rcases hc with rfl | hd
      · decide
      · exact (char_ne_of_digit hd).2.2.2.2.2.2.1
    · intro x hx
      rcases intToDigits_chars m x (by rw [hcr]; exact hx) with rfl | hd
      · decide
      · exact (char_ne_of_digit hd).2.2.2.2.2.2.2.2.2.2.2.2.1
  | float m e =>
    obtain ⟨c, r, hcr, hc⟩ := intToDigits_head m
    have htok : scalarTok (.float m e)
        = c :: (r ++ 'e' :: intToDigits e) := by
      rw [show scalarTok (.float m e) = intToDigits m ++ 'e' :: intToDigits e from rfl,
        hcr, List.cons_append]
    rw [htok]
    simp only [isMapLine]
    rw [keySplit_none c _ ?_ ?_]
    · rfl
    · rcases hc with rfl | hd
      · decide
      · exact (char_ne_of_digit hd).2.2.2.2.2.2.1
    · intro x hx
      rw [← List.cons_append, ← hcr] at hx
      rcases List.mem_append.mp hx with hx2 | hx2
      · rcases intToDigits_chars m x hx2 with rfl | hd
        · decide
        · exact (char_ne_of_digit hd).2.2.2.2.2.2.2.2.2.2.2.2.1
      · rcases List.mem_cons.mp hx2 with rfl | hx3
        · decide
        · rcases intToDigits_chars e x hx3 with rfl | hd
          · decide
          · exact (char_ne_of_digit hd).2.2.2.2.2.2.2.2.2.2.2.2.1
  | str s =>
    by_cases hp : plainSafe s = true
    · obtain ⟨c, t, hd, hst, _⟩ := plainSafe_head hp
      have htok : scalarTok (.str s) = c :: t := by
        rw [show scalarTok (.str s) = strTok s from rfl]
        unfold strTok
        rw [if_pos hp, hd]
      rw [htok]
      simp only [isMapLine]
      rw [keySplit_none c t ?_ ?_]
      · rfl
      · intro h; subst h; exact absurd hst (by decide)
      · intro x hx
        exact plainSafe_no_colon hp x (by rw [hd]; exact hx)
    · have htok : scalarTok (.str s) = '"' :: (escList s.data ++ ['"']) := by
        rw [show scalarTok (.str s) = strTok s from rfl]
        unfold strTok
        rw [if_neg hp]
      rw [htok]
      simp [isMapLine, keySplit, pStrBody_escList s.data []]
  | arr xs => exact (show isMapLine "[]".data = false by decide)
  | obj kvs => exact (show isMapLine "{}".data = false by decide)
  | unsupported tag => exact (show isMapLine "null".data = false by decide)

theorem splitAtNl_append_nl (seg : List Char) (h : '\n' ∉ seg) (rest : List Char) :
    splitAtNl (seg ++ '\n' :: rest) = seg :: splitAtNl rest := by
  induction seg with
  | nil => simp [splitAtNl]
  | cons c t ih =>
    have hc : c ≠ '\n' := by intro e; exact h (by simp [e])
    have ht : '\n' ∉ t := fun m => h (by simp [m])
    rw [List.cons_append]
    rw [splitAtNl.eq_def]
    simp only [hc, if_false]
    rw [ih ht]

theorem countIndent_replicate (n : Nat) (c : List Char) (hc : ∀ t, c ≠ ' ' :: t) :
    countIndent (List.replicate n ' ' ++ c) = (n, c) := by
  induction n with
  | zero =>
    simp only [List.replicate, List.nil_append]
    cases c with
    | nil => rfl
    | cons d t =>
      have hd : d ≠ ' ' := by intro e; exact hc t (by rw [e])
      simp [countIndent, hd]
  | succ k ih =>
    simp only [List.replicate, List.cons_append]
    simp [countIndent, ih]

theorem toLines_renderLines (ls : List YLine) (h : ∀ l ∈ ls, goodLine l) :
    toLines (renderLines ls) = ls := by
  induction ls with
  | nil => rfl
  | cons l t ih =>
    obtain ⟨h1, h2⟩ := h l (by simp)
    have hnl : '\n' ∉ List.replicate l.1 ' ' ++ l.2 := by
      intro hm
      rcases List.mem_append.mp hm with hm | hm
      · exact absurd (List.eq_of_mem_replicate hm) (by decide)
      · exact h1 hm
    have hassoc : renderLines (l :: t)
        = (List.replicate l.1 ' ' ++ l.2) ++ '\n' :: renderLines t := by
      show renderLine l ++ renderLines t = _
      simp [renderLine]
    rw [hassoc]
    unfold toLines
    rw [splitAtNl_append_nl _ hnl]
    simp only [List.map_cons]
    rw [countIndent_replicate l.1 l.2 h2]
    have ht := ih (fun x hx => h x (by simp [hx]))
    unfold toLines at ht
    rw [ht]

theorem goodLine_dash (n : Nat) : goodLine (n, ['-']) := by
  constructor
  · exact (show '\n' ∉ ['-'] by decide)
  · intro t h
    exact absurd (List.head_eq_of_cons_eq h) (by decide)

theorem goodLine_dash_scalar (n : Nat) (v : PyVal) :
    goodLine (n, '-' :: ' ' :: scalarTok v) := by
  constructor
  · intro hm
    rcases List.mem_cons.mp hm with h | hm2
    · exact absurd h (by decide)
    · rcases List.mem_cons.mp hm2 with h | hm3
      · exact absurd h (by decide)
      · exact scalarTok_no_nl v hm3
  · intro t h
    exact absurd (List.head_eq_of_cons_eq h).symm (by decide)

theorem goodLine_scalar (n : Nat) (v : PyVal) : goodLine (n, scalarTok v) := by
  obtain ⟨c, r, hcr, hsp, _⟩ := scalarTok_head v
  constructor
  · exact fun hm => scalarTok_no_nl v hm
  · intro t h
    rw [hcr] at h
    exact hsp (List.head_eq_of_cons_eq h)

theorem goodLine_key (n : Nat) (k : String) (tail : List Char)
    (htail : '\n' ∉ tail) : goodLine (n, strTok k ++ tail) := by
  obtain ⟨c, r, hcr, _, hsp, _⟩ := strTok_head k
  constructor
  · intro hm
    rcases List.mem_append.mp hm with hm | hm
    · exact strTok_no_nl k hm
    · exact htail hm
  · intro t h
    rw [hcr, List.cons_append] at h
    exact hsp (List.head_eq_of_cons_eq h)

theorem yHeadLt_mono {m n : Nat} (h : m ≤ n) :
    ∀ {ls : List YLine}, yHeadLt m ls = true → yHeadLt n ls = true := by
  intro ls hls
  cases ls with
  | nil => rfl
  | cons l t =>
    rcases l with ⟨i, c⟩
    simp only [yHeadLt, decide_eq_true_eq] at hls ⊢
    omega

theorem yItem_shape (n : Nat) (v : PyVal) :
    ∃ c t, yItem n v = (n, c) :: t ∧ isSeqLine c = true := by
  cases v with
  | null => exact ⟨_, _, rfl, rfl⟩
  | boolean b => exact ⟨_, _, rfl, rfl⟩
  | int m => exact ⟨_, _, rfl, rfl⟩
  | float m e => exact ⟨_, _, rfl, rfl⟩
  | str s => exact ⟨_, _, rfl, rfl⟩
  | arr xs =>
    cases xs with
    | nil => exact ⟨_, _, rfl, rfl⟩
    | cons y t => exact ⟨['-'], _, rfl, rfl⟩
  | obj kvs =>
    cases kvs with
    | nil => exact ⟨_, _, rfl, rfl⟩
    | cons kv t => exact ⟨['-'], _, rfl, rfl⟩
  | unsupported tag => exact ⟨_, _, rfl, rfl⟩

theorem yEntry_shape (n : Nat) (k : String) (v : PyVal) :
    ∃ c t, yEntry n (k, v) = (n, c) :: t ∧ isMapLine c = true ∧ isSeqLine c = false := by
  cases v with
  | null =>
    exact ⟨_, _, rfl, isMapLine_strTok k _, isSeqLine_strTok k _⟩
  | boolean b =>
    exact ⟨_, _, rfl, isMapLine_strTok k _, isSeqLine_strTok k _⟩
  | int m =>
    exact ⟨_, _, rfl, isMapLine_strTok k _, isSeqLine_strTok k _⟩
  | float m e =>
    exact ⟨_, _, rfl, isMapLine_strTok k _, isSeqLine_strTok k _⟩
  | str s =>
    exact ⟨_, _, rfl, isMapLine_strTok k _, isSeqLine_strTok k _⟩
  | arr xs =>
    cases xs with
    | nil => exact ⟨_, _, rfl, isMapLine_strTok k _, isSeqLine_strTok k _⟩
    | cons y t =>
      exact ⟨strTok k ++ [':'], _, rfl, isMapLine_strTok k [], isSeqLine_strTok k []⟩
  | obj kvs =>
    cases kvs with
    | nil => exact ⟨_, _, rfl, isMapLine_strTok k _, isSeqLine_strTok k _⟩
    | cons kv t =>
      exact ⟨strTok k ++ [':'], _, rfl, isMapLine_strTok k [], isSeqLine_strTok k []⟩
  | unsupported tag =>
    exact ⟨_, _, rfl, isMapLine_strTok k _, isSeqLine_strTok k _⟩

theorem ySeq_wf_of {t : List PyVal}
    (h : ∀ x ∈ t, ∀ n l, l ∈ yItem n x → goodLine l) :
    ∀ n l, l ∈ ySeq n t → goodLine l := by
  induction t with
  | nil => intro n l hl; simp [ySeq] at hl
  | cons y t2 ih =>
    intro n l hl
    rw [show ySeq n (y :: t2) = yItem n y ++ ySeq n t2 from rfl] at hl
    rcases List.mem_append.mp hl with hl | hl
    · exact h y (by simp) n l hl
    · exact ih (fun x hx => h x (by simp [hx])) n l hl

theorem yMap_wf_of {t : List (String × PyVal)}
    (h : ∀ kv ∈ t, ∀ n l, l ∈ yEntry n kv → goodLine l) :
    ∀ n l, l ∈ yMap n t → goodLine l := by
  induction t with
  | nil => intro n l hl; simp [yMap] at hl
  | cons kv t2 ih =>
    intro n l hl
    rw [show yMap n (kv :: t2) = yEntry n kv ++ yMap n t2 from rfl] at hl
    rcases List.mem_append.mp hl with hl | hl
    · exact h kv (by simp) n l hl
    · exact ih (fun x hx => h x (by simp [hx])) n l hl

theorem goodLine_entry_scalar (n : Nat) (k : String) (v : PyVal) :
    goodLine (n, strTok k ++ ':' :: ' ' :: scalarTok v) := by
  refine goodLine_key n k _ ?_
  intro hm
  rcases List.mem_cons.mp hm with h | hm2
  · exact absurd h (by decide)
  · rcases List.mem_cons.mp hm2 with h | hm3
    · exact absurd h (by decide)
    · exact scalarTok_no_nl v hm3

theorem goodLine_entry_open (n : Nat) (k : String) :
    goodLine (n, strTok k ++ [':']) := by
  refine goodLine_key n k _ ?_
  intro hm
  rcases List.mem_cons.mp hm with h | hm2
  · exact absurd h (by decide)
  · simp at hm2

theorem yItemEntry_wf : ∀ v : PyVal, ∀ n : Nat,
    (∀ l ∈ yItem n v, goodLine l) ∧ (∀ k, ∀ l ∈ yEntry n (k, v), goodLine l) := by
  refine pyval_ind
    (fun v => ∀ n, (∀ l ∈ yItem n v, goodLine l) ∧ (∀ k, ∀ l ∈ yEntry n (k, v), goodLine l))
    ?_ ?_ ?_ ?_ ?_ ?_ ?_ ?_
  case refine_1 =>
    intro n
    constructor
    · intro l hl
      rcases List.mem_singleton.mp hl with rfl
      exact goodLine_dash_scalar n .null
    · intro k l hl
      rcases List.mem_singleton.mp hl with rfl
      exact goodLine_entry_scalar n k .null
  case refine_2 =>
    intro b n
    constructor
    · intro l hl
      rcases List.mem_singleton.mp hl with rfl
      exact goodLine_dash_scalar n (.boolean b)
    · intro k l hl
      rcases List.mem_singleton.mp hl with rfl
      exact goodLine_entry_scalar n k (.boolean b)
  case refine_3 =>
    intro m n
    constructor
    · intro l hl
      rcases List.mem_singleton.mp hl with rfl
      exact goodLine_dash_scalar n (.int m)
    · intro k l hl
      rcases List.mem_singleton.mp hl with rfl
      exact goodLine_entry_scalar n k (.int m)
  case refine_4 =>
    intro m e n
    constructor
    · intro l hl
      rcases List.mem_singleton.mp hl with rfl
      exact goodLine_dash_scalar n (.float m e)
    · intro k l hl
      rcases List.mem_singleton.mp hl with rfl
      exact goodLine_entry_scalar n k (.float m e)
  case refine_5 =>
    intro s n
    constructor
    · intro l hl
      rcases List.mem_singleton.mp hl with rfl
      exact goodLine_dash_scalar n (.str s)
    · intro k l hl
      rcases List.mem_singleton.mp hl with rfl
      exact goodLine_entry_scalar n k (.str s)
  case refine_6 =>
    intro xs hxs n
    cases xs with
    | nil =>
      constructor
      · intro l hl
        rcases List.mem_singleton.mp hl with rfl
        exact goodLine_dash_scalar n (.arr [])
      · intro k l hl
        rcases List.mem_singleton.mp hl with rfl
        exact goodLine_entry_scalar n k (.arr [])
    | cons y t =>
      have hy := hxs y (by simp)
      have hseq := ySeq_wf_of (t := t)
        (fun x hx n2 l hl => (hxs x (by simp [hx]) n2).1 l hl)
      constructor
      · intro l hl
        rw [show yItem n (.arr (y :: t))
            = (n, ['-']) :: (yItem (n + 2) y ++ ySeq (n + 2) t) from rfl] at hl
        rcases List.mem_cons.mp hl with rfl | hl2
        · exact goodLine_dash n
        · rcases List.mem_append.mp hl2 with hl3 | hl3
          · exact (hy (n + 2)).1 l hl3
          · exact hseq (n + 2) l hl3
      · intro k l hl
        rw [show yEntry n (k, .arr (y :: t))
            = (n, strTok k ++ [':']) :: (yItem (n + 2) y ++ ySeq (n + 2) t) from rfl] at hl
        rcases List.mem_cons.mp hl with rfl | hl2
        · exact goodLine_entry_open n k
        · rcases List.mem_append.mp hl2 with hl3 | hl3
          · exact (hy (n + 2)).1 l hl3
          · exact hseq (n + 2) l hl3
  case refine_7 =>
    intro kvs hkvs n
    cases kvs with
    | nil =>
      constructor
      · intro l hl
        rcases List.mem_singleton.mp hl with rfl
        exact goodLine_dash_scalar n (.obj [])
      · intro k l hl
        rcases List.mem_singleton.mp hl with rfl
        exact goodLine_entry_scalar n k (.obj [])
    | cons kv t =>
      have hkv : ∀ n2, ∀ l ∈ yEntry n2 kv, goodLine l := by
        intro n2 l hl
        have := (hkvs kv (by simp) n2).2 kv.1 l
        rw [show (kv.1, kv.2) = kv from rfl] at this
        exact this hl
      have hmap := yMap_wf_of (t := t)
        (fun x hx n2 l hl => by
          have := (hkvs x (by simp [hx]) n2).2 x.1 l
          rw [show (x.1, x.2) = x from rfl] at this
          exact this hl)
      constructor
      · intro l hl
        rw [show yItem n (.obj (kv :: t))
            = (n, ['-']) :: (yEntry (n + 2) kv ++ yMap (n + 2) t) from rfl] at hl
        rcases List.mem_cons.mp hl with rfl | hl2
        · exact goodLine_dash n
        · rcases List.mem_append.mp hl2 with hl3 | hl3
          · exact hkv (n + 2) l hl3
          · exact hmap (n + 2) l hl3
      · intro k l hl
        rw [show yEntry n (k, .obj (kv :: t))
            = (n, strTok k ++ [':']) :: (yEntry (n + 2) kv ++ yMap (n + 2) t) from rfl] at hl
        rcases List.mem_cons.mp hl with rfl | hl2
        · exact goodLine_entry_open n k
        · rcases List.mem_append.mp hl2 with hl3 | hl3
          · exact hkv (n + 2) l hl3
          · exact hmap (n + 2) l hl3
  case refine_8 =>
    intro tag n
    constructor
    · intro l hl
      rcases List.mem_singleton.mp hl with rfl
      exact goodLine_dash_scalar n (.unsupported tag)
    · intro k l hl
      rcases List.mem_singleton.mp hl with rfl
      exact goodLine_entry_scalar n k (.unsupported tag)

theorem yVal_wf (v : PyVal) (n : Nat) : ∀ l ∈ yVal n v, goodLine l := by
  cases v with
  | arr xs =>
    cases xs with
    | nil =>
      intro l hl
      rcases List.mem_singleton.mp hl with rfl
      exact goodLine_scalar n (.arr [])
    | cons y t =>
      intro l hl
      rw [show yVal n (.arr (y :: t)) = yItem n y ++ ySeq n t from rfl] at hl
      rcases List.mem_append.mp hl with hl | hl
      · exact (yItemEntry_wf y n).1 l hl
      · exact ySeq_wf_of (fun x _ n2 l2 hl2 => (yItemEntry_wf x n2).1 l2 hl2) n l hl
  | obj kvs =>
    cases kvs with
    | nil =>
      intro l hl
      rcases List.mem_singleton.mp hl with rfl
      exact goodLine_scalar n (.obj [])
    | cons kv t =>
      intro l hl
      rw [show yVal n (.obj (kv :: t)) = yEntry n kv ++ yMap n t from rfl] at hl
      rcases List.mem_append.mp hl with hl | hl
      · have := (yItemEntry_wf kv.2 n).2 kv.1 l
        rw [show (kv.1, kv.2) = kv from rfl] at this
        exact this hl
      · refine yMap_wf_of (fun x _ n2 l2 hl2 => ?_) n l hl
        have := (yItemEntry_wf x.2 n2).2 x.1 l2
        rw [show (x.1, x.2) = x from rfl] at this
        exact this hl2
  | null =>
    intro l hl
    rcases List.mem_singleton.mp hl with rfl
    exact goodLine_scalar n .null
  | boolean b =>
    intro l hl
    rcases List.mem_singleton.mp hl with rfl
    exact goodLine_scalar n (.boolean b)
  | int m =>
    intro l hl
    rcases List.mem_singleton.mp hl with rfl
    exact goodLine_scalar n (.int m)
  | float m e =>
    intro l hl
    rcases List.mem_singleton.mp hl with rfl
    exact goodLine_scalar n (.float m e)
  | str s =>
    intro l hl
    rcases List.mem_singleton.mp hl with rfl
    exact goodLine_scalar n (.str s)
  | unsupported tag =>
    intro l hl
    rcases List.mem_singleton.mp hl with rfl
    exact goodLine_scalar n (.unsupported tag)

/-! ## The YAML machine inverts the emitter -/

theorem yHeadLt_ySeq (n : Nat) (t : List PyVal) (rest : List YLine)
    (h : yHeadLt n rest = true) : yHeadLt (n + 1) (ySeq n t ++ rest) = true := by
  cases t with
  | nil => exact yHeadLt_mono (by omega) h
  | cons y t2 =>
    obtain ⟨cy, ty, hsh, _⟩ := yItem_shape n y
    rw [show ySeq n (y :: t2) = yItem n y ++ ySeq n t2 from rfl, hsh]
    simp [yHeadLt]

theorem yHeadLt_yMap (n : Nat) (t : List (String × PyVal)) (rest : List YLine)
    (h : yHeadLt n rest = true) : yHeadLt (n + 1) (yMap n t ++ rest) = true := by
  cases t with
  | nil => exact yHeadLt_mono (by omega) h
  | cons kv t2 =>
    obtain ⟨ce, te, hsh, _, _⟩ := yEntry_shape n kv.1 kv.2
    rw [show (kv.1, kv.2) = kv from rfl] at hsh
    rw [show yMap n (kv :: t2) = yEntry n kv ++ yMap n t2 from rfl, hsh]
    simp [yHeadLt]

theorem ystep_item_scalar (n f : Nat) (v : PyVal) (rest : List YLine)
    (hne : isContNE v = false) (hs : PyVal.supported v = true) :
    ystep (.item n) (f + 1) ((n, '-' :: ' ' :: scalarTok v) :: rest)
      = .ok (.val v, rest) := by
  have hsc := scalarOf_scalarTok v hne hs
  rw [ystep.eq_def]
  simp [hsc]

theorem ystep_entry_scalar (n f : Nat) (k : String) (v : PyVal) (rest : List YLine)
    (hne : isContNE v = false) (hs : PyVal.supported v = true) :
    ystep (.entry n) (f + 1) ((n, strTok k ++ ':' :: ' ' :: scalarTok v) :: rest)
      = .ok (.fld (k, v), rest) := by
  have hks := keySplit_strTok k (' ' :: scalarTok v)
  have hsc := scalarOf_scalarTok v hne hs
  rw [ystep.eq_def]
  simp [hks, hsc]

theorem ystep_blk_scalar (n f : Nat) (v : PyVal) (rest : List YLine)
    (hne : isContNE v = false) (hs : PyVal.supported v = true) :
    ystep (.blk n) (f + 1) ((n, scalarTok v) :: rest) = .ok (.val v, rest) := by
  have hsc := scalarOf_scalarTok v hne hs
  rw [ystep.eq_def]
  simp [isSeqLine_scalarTok, isMapLine_scalarTok, hsc]

theorem ystep_round : ∀ fuel : Nat,
    (∀ n v rest, PyVal.supported v = true → yHeadLt (n + 1) rest = true →
      yPhiI v < fuel → ystep (.item n) fuel (yItem n v ++ rest) = .ok (.val v, rest))
    ∧ (∀ n (k : String) v rest, PyVal.supported v = true → yHeadLt (n + 1) rest = true →
      yPhiE (k, v) < fuel →
      ystep (.entry n) fuel (yEntry n (k, v) ++ rest) = .ok (.fld (k, v), rest))
    ∧ (∀ n t rest, suppList t = true → yHeadLt n rest = true →
      yPhiC t < fuel → ystep (.seqCont n) fuel (ySeq n t ++ rest) = .ok (.items t, rest))
    ∧ (∀ n t rest, suppFields t = true → yHeadLt n rest = true →
      yPhiF t < fuel → ystep (.mapCont n) fuel (yMap n t ++ rest) = .ok (.flds t, rest))
    ∧ (∀ n v rest, PyVal.supported v = true → yHeadLt n rest = true →
      yPhiV v < fuel → ystep (.blk n) fuel (yVal n v ++ rest) = .ok (.val v, rest)) := by
  intro fuel
  induction fuel with
  | zero => refine ⟨?_, ?_, ?_, ?_, ?_⟩ <;> intros <;> exfalso <;> omega
  | succ f ih =>
    obtain ⟨ihI, ihE, ihC, ihM, ihB⟩ := ih
    refine ⟨?_, ?_, ?_, ?_, ?_⟩
    · intro n v rest hs hlt hfuel
      cases v with
      | null => exact ystep_item_scalar n f .null rest rfl hs
      | boolean b => exact ystep_item_scalar n f (.boolean b) rest rfl hs
      | int m => exact ystep_item_scalar n f (.int m) rest rfl hs
      | float m e => exact ystep_item_scalar n f (.float m e) rest rfl hs
      | str s => exact ystep_item_scalar n f (.str s) rest rfl hs
      | unsupported tag => exact absurd (show (false : Bool) = true from hs) (by decide)
      | arr xs =>
        cases xs with
        | nil => exact ystep_item_scalar n f (.arr []) rest rfl hs
        | cons y t =>
          obtain ⟨cy, ty, hsh, _⟩ := yItem_shape (n + 2) y
          have hblk := ihB (n + 2) (.arr (y :: t)) rest hs
            (yHeadLt_mono (by omega) hlt)
            (by
              have e1 : yPhiI (.arr (y :: t)) = 2 + yPhiI y + yPhiC t := rfl
              have e2 : yPhiV (.arr (y :: t)) = 1 + yPhiI y + yPhiC t := rfl
              omega)
          have hcons : yVal (n + 2) (.arr (y :: t)) ++ rest
              = (n + 2, cy) :: (ty ++ (ySeq (n + 2) t ++ rest)) := by
            rw [show yVal (n + 2) (.arr (y :: t))
                = yItem (n + 2) y ++ ySeq (n + 2) t from rfl, hsh]
            simp
          rw [hcons] at hblk
          have hgoal : yItem n (.arr (y :: t)) ++ rest
              = (n, ['-']) :: ((n + 2, cy) :: (ty ++ (ySeq (n + 2) t ++ rest))) := by
            rw [show yItem n (.arr (y :: t))
                = (n, ['-']) :: (yItem (n + 2) y ++ ySeq (n + 2) t) from rfl, hsh]
            simp
          rw [hgoal, ystep.eq_def]
          have hj : n < n + 2 := by omega
          simp [hj, hblk]
      | obj kvs =>
        cases kvs with
        | nil => exact ystep_item_scalar n f (.obj []) rest rfl hs
        | cons kv t =>
          obtain ⟨ce, te, hsh, _, _⟩ := yEntry_shape (n + 2) kv.1 kv.2
          rw [show (kv.1, kv.2) = kv from rfl] at hsh
          have hblk := ihB (n + 2) (.obj (kv :: t)) rest hs
            (yHeadLt_mono (by omega) hlt)
            (by
              have e1 : yPhiI (.obj (kv :: t)) = 2 + yPhiE kv + yPhiF t := rfl
              have e2 : yPhiV (.obj (kv :: t)) = 1 + yPhiE kv + yPhiF t := rfl
              omega)
          have hcons : yVal (n + 2) (.obj (kv :: t)) ++ rest
              = (n + 2, ce) :: (te ++ (yMap (n + 2) t ++ rest)) := by
            rw [show yVal (n + 2) (.obj (kv :: t))
                = yEntry (n + 2) kv ++ yMap (n + 2) t from rfl, hsh]
            simp
          rw [hcons] at hblk
          have hgoal : yItem n (.obj (kv :: t)) ++ rest
              = (n, ['-']) :: ((n + 2, ce) :: (te ++ (yMap (n + 2) t ++ rest))) := by
            rw [show yItem n (.obj (kv :: t))
                = (n, ['-']) :: (yEntry (n + 2) kv ++ yMap (n + 2) t) from rfl, hsh]
            simp
          rw [hgoal, ystep.eq_def]
          have hj : n < n + 2 := by omega
          simp [hj, hblk]
    · intro n k v rest hs hlt hfuel
      cases v with
      | null => exact ystep_entry_scalar n f k .null rest rfl hs
      | boolean b => exact ystep_entry_scalar n f k (.boolean b) rest rfl hs
      | int m => exact ystep_entry_scalar n f k (.int m) rest rfl hs
      | float m e => exact ystep_entry_scalar n f k (.float m e) rest rfl hs
      | str s => exact ystep_entry_scalar n f k (.str s) rest rfl hs
      | unsupported tag => exact absurd (show (false : Bool) = true from hs) (by decide)
      | arr xs =>
        cases xs with
        | nil => exact ystep_entry_scalar n f k (.arr []) rest rfl hs
        | cons y t =>
          obtain ⟨cy, ty, hsh, _⟩ := yItem_shape (n + 2) y
          have hblk := ihB (n + 2) (.arr (y :: t)) rest hs
            (yHeadLt_mono (by omega) hlt)
            (by
              have e1 : yPhiE (k, PyVal.arr (y :: t)) = 2 + yPhiI y + yPhiC t := rfl
              have e2 : yPhiV (.arr (y :: t)) = 1 + yPhiI y + yPhiC t := rfl
              omega)
          have hcons : yVal (n + 2) (.arr (y :: t)) ++ rest
              = (n + 2, cy) :: (ty ++ (ySeq (n + 2) t ++ rest)) := by
            rw [show yVal (n + 2) (.arr (y :: t))
                = yItem (n + 2) y ++ ySeq (n + 2) t from rfl, hsh]
            simp
          rw [hcons] at hblk
          have hgoal : yEntry n (k, .arr (y :: t)) ++ rest
              = (n, strTok k ++ [':'])
                :: ((n + 2, cy) :: (ty ++ (ySeq (n + 2) t ++ rest))) := by
            rw [show yEntry n (k, .arr (y :: t))
                = (n, strTok k ++ [':'])
                  :: (yItem (n + 2) y ++ ySeq (n + 2) t) from rfl, hsh]
            simp
          rw [hgoal, ystep.eq_def]
          have hks := keySplit_strTok k []
          have hj : n < n + 2 := by omega
          simp [hks, hj, hblk]
      | obj kvs =>
        cases kvs with
        | nil => exact ystep_entry_scalar n f k (.obj []) rest rfl hs
        | cons kv t =>
          obtain ⟨ce, te, hsh, _, _⟩ := yEntry_shape (n + 2) kv.1 kv.2
          rw [show (kv.1, kv.2) = kv from rfl] at hsh
          have hblk := ihB (n + 2) (.obj (kv :: t)) rest hs
            (yHeadLt_mono (by omega) hlt)
            (by
              have e1 : yPhiE (k, PyVal.obj (kv :: t)) = 2 + yPhiE kv + yPhiF t := rfl
              have e2 : yPhiV (.obj (kv :: t)) = 1 + yPhiE kv + yPhiF t := rfl
              omega)
          have hcons : yVal (n + 2) (.obj (kv :: t)) ++ rest
              = (n + 2, ce) :: (te ++ (yMap (n + 2) t ++ rest)) := by
            rw [show yVal (n + 2) (.obj (kv :: t))
                = yEntry (n + 2) kv ++ yMap (n + 2) t from rfl, hsh]
            simp
          rw [hcons] at hblk
          have hgoal : yEntry n (k, .obj (kv :: t)) ++ rest
              = (n, strTok k ++ [':'])
                :: ((n + 2, ce) :: (te ++ (yMap (n + 2) t ++ rest))) := by
            rw [show yEntry n (k, .obj (kv :: t))
                = (n, strTok k ++ [':'])
                  :: (yEntry (n + 2) kv ++ yMap (n + 2) t) from rfl, hsh]
            simp
          rw [hgoal, ystep.eq_def]
          have hks := keySplit_strTok k []
          have hj : n < n + 2 := by omega
          simp [hks, hj, hblk]
    · intro n t rest hst hlt hfuel
      cases t with
      | nil =>
        cases rest with
        | nil => rfl
        | cons l t2 =>
          rcases l with ⟨i, c⟩
          have hil : i < n := by
            simp only [yHeadLt, decide_eq_true_eq] at hlt
            exact hlt
          have hne : ¬(i = n ∧ isSeqLine c = true) := by
            rintro ⟨rfl, _⟩
            omega
          rw [show ySeq n [] ++ ((i, c) :: t2) = (i, c) :: t2 from rfl, ystep.eq_def]
          simp [hne]
      | cons y t2 =>
        rw [show suppList (y :: t2) = (y.supported && suppList t2) from rfl,
          Bool.and_eq_true] at hst
        obtain ⟨hy, ht2⟩ := hst
        obtain ⟨cy, ty, hsh, hseq⟩ := yItem_shape n y
        have hitem := ihI n y (ySeq n t2 ++ rest) hy (yHeadLt_ySeq n t2 rest hlt)
          (by
            have e1 : yPhiC (y :: t2) = 1 + yPhiI y + yPhiC t2 := rfl
            omega)
        have hcont := ihC n t2 rest ht2 hlt
          (by
            have e1 : yPhiC (y :: t2) = 1 + yPhiI y + yPhiC t2 := rfl
            omega)
        have hconsI : yItem n y ++ (ySeq n t2 ++ rest)
            = (n, cy) :: (ty ++ (ySeq n t2 ++ rest)) := by
          rw [hsh]; simp
        rw [hconsI] at hitem
        have hgoal : ySeq n (y :: t2) ++ rest = (n, cy) :: (ty ++ (ySeq n t2 ++ rest)) := by
          rw [show ySeq n (y :: t2) = yItem n y ++ ySeq n t2 from rfl,
            List.append_assoc, hconsI]
        rw [hgoal, ystep.eq_def]
        simp [hseq, hitem, hcont]
    · intro n t rest hst hlt hfuel
      cases t with
      | nil =>
        cases rest with
        | nil => rfl
        | cons l t2 =>
          rcases l with ⟨i, c⟩
          have hil : i < n := by
            simp only [yHeadLt, decide_eq_true_eq] at hlt
            exact hlt
          have hne : ¬(i = n ∧ isMapLine c = true) := by
            rintro ⟨rfl, _⟩
            omega
          rw [show yMap n [] ++ ((i, c) :: t2) = (i, c) :: t2 from rfl, ystep.eq_def]
          simp [hne]
      | cons kv t2 =>
        rw [show suppFields (kv :: t2) = (kv.2.supported && suppFields t2) from rfl,
          Bool.and_eq_true] at hst
        obtain ⟨hkv, ht2⟩ := hst
        obtain ⟨ce, te, hsh, hmapT, _⟩ := yEntry_shape n kv.1 kv.2
        rw [show (kv.1, kv.2) = kv from rfl] at hsh
        have hentry := ihE n kv.1 kv.2 (yMap n t2 ++ rest) hkv
          (yHeadLt_yMap n t2 rest hlt)
          (by
            have e1 : yPhiF (kv :: t2) = 1 + yPhiE kv + yPhiF t2 := rfl
            have e2 : yPhiE (kv.1, kv.2) = yPhiE kv := rfl
            omega)
        rw [show (kv.1, kv.2) = kv from rfl] at hentry
        have hcont := ihM n t2 rest ht2 hlt
          (by
            have e1 : yPhiF (kv :: t2) = 1 + yPhiE kv + yPhiF t2 := rfl
            omega)
        have hconsE : yEntry n kv ++ (yMap n t2 ++ rest)
            = (n, ce) :: (te ++ (yMap n t2 ++ rest)) := by
          rw [hsh]; simp
        rw [hconsE] at hentry
        have hgoal : yMap n (kv :: t2) ++ rest = (n, ce) :: (te ++ (yMap n t2 ++ rest)) := by
          rw [show yMap n (kv :: t2) = yEntry n kv ++ yMap n t2 from rfl,
            List.append_assoc, hconsE]
        rw [hgoal, ystep.eq_def]
        simp [hmapT, hentry, hcont]
    · intro n v rest hs hlt hfuel
      cases v with
      | null => exact ystep_blk_scalar n f .null rest rfl hs
      | boolean b => exact ystep_blk_scalar n f (.boolean b) rest rfl hs
      | int m => exact ystep_blk_scalar n f (.int m) rest rfl hs
      | float m e => exact ystep_blk_scalar n f (.float m e) rest rfl hs
      | str s => exact ystep_blk_scalar n f (.str s) rest rfl hs
      | unsupported tag => exact absurd (show (false : Bool) = true from hs) (by decide)
      | arr xs =>
        cases xs with
        | nil => exact ystep_blk_scalar n f (.arr []) rest rfl hs
        | cons y t =>
          rw [show PyVal.supported (.arr (y :: t)) = suppList (y :: t) from rfl,
            show suppList (y :: t) = (y.supported && suppList t) from rfl,
            Bool.and_eq_true] at hs
          obtain ⟨hy, ht⟩ := hs
          obtain ⟨cy, ty, hsh, hseq⟩ := yItem_shape n y
          have hitem := ihI n y (ySeq n t ++ rest) hy (yHeadLt_ySeq n t rest hlt)
            (by
              have e1 : yPhiV (.arr (y :: t)) = 1 + yPhiI y + yPhiC t := rfl
              omega)
          have hcont := ihC n t rest ht hlt
            (by
              have e1 : yPhiV (.arr (y :: t)) = 1 + yPhiI y + yPhiC t := rfl
              omega)
          have hconsI : yItem n y ++ (ySeq n t ++ rest)
              = (n, cy) :: (ty ++ (ySeq n t ++ rest)) := by
            rw [hsh]; simp
          rw [hconsI] at hitem
          have hgoal : yVal n (.arr (y :: t)) ++ rest
              = (n, cy) :: (ty ++ (ySeq n t ++ rest)) := by
            rw [show yVal n (.arr (y :: t)) = yItem n y ++ ySeq n t from rfl,
              List.append_assoc, hconsI]
          rw [hgoal, ystep.eq_def]
          simp [hseq, hitem, hcont]
      | obj kvs =>
        cases kvs with
        | nil => exact ystep_blk_scalar n f (.obj []) rest rfl hs
        | cons kv t =>
          rw [show PyVal.supported (.obj (kv :: t)) = suppFields (kv :: t) from rfl,
            show suppFields (kv :: t) = (kv.2.supported && suppFields t) from rfl,
            Bool.and_eq_true] at hs
          obtain ⟨hkv, ht⟩ := hs
          obtain ⟨ce, te, hsh, hmapT, hseqF⟩ := yEntry_shape n kv.1 kv.2
          rw [show (kv.1, kv.2) = kv from rfl] at hsh
          have hentry := ihE n kv.1 kv.2 (yMap n t ++ rest) hkv
            (yHeadLt_yMap n t rest hlt)
            (by
              have e1 : yPhiV (.obj (kv :: t)) = 1 + yPhiE kv + yPhiF t := rfl
              have e2 : yPhiE (kv.1, kv.2) = yPhiE kv := rfl
              omega)
          rw [show (kv.1, kv.2) = kv from rfl] at hentry
          have hcont := ihM n t rest ht hlt
            (by
              have e1 : yPhiV (.obj (kv :: t)) = 1 + yPhiE kv + yPhiF t := rfl
              omega)
          have hconsE : yEntry n kv ++ (yMap n t ++ rest)
              = (n, ce) :: (te ++ (yMap n t ++ rest)) := by
            rw [hsh]; simp
          rw [hconsE] at hentry
          have hgoal : yVal n (.obj (kv :: t)) ++ rest
              = (n, ce) :: (te ++ (yMap n t ++ rest)) := by
            rw [show yVal n (.obj (kv :: t)) = yEntry n kv ++ yMap n t from rfl,
              List.append_assoc, hconsE]
          rw [hgoal, ystep.eq_def]
          simp [hseqF, hmapT, hentry, hcont]

theorem ySeq_len_bound {t : List PyVal}
    (h : ∀ x ∈ t, ∀ n, yPhiI x + 1 ≤ 3 * (yItem n x).length) :
    ∀ n, yPhiC t ≤ 3 * (ySeq n t).length + 1 := by
  induction t with
  | nil =>
    intro n
    have e : yPhiC ([] : List PyVal) = 1 := rfl
    have l : (ySeq n ([] : List PyVal)).length = 0 := rfl
    omega
  | cons y t2 ih =>
    intro n
    have e : yPhiC (y :: t2) = 1 + yPhiI y + yPhiC t2 := rfl
    have l : (ySeq n (y :: t2)).length = (yItem n y).length + (ySeq n t2).length := by
      rw [show ySeq n (y :: t2) = yItem n y ++ ySeq n t2 from rfl, List.length_append]
    have h1 := h y (by simp) n
    have h2 := ih (fun x hx => h x (by simp [hx])) n
    omega

theorem yMap_len_bound {t : List (String × PyVal)}
    (h : ∀ kv ∈ t, ∀ n, yPhiE kv + 1 ≤ 3 * (yEntry n kv).length) :
    ∀ n, yPhiF t ≤ 3 * (yMap n t).length + 1 := by
  induction t with
  | nil =>
    intro n
    have e : yPhiF ([] : List (String × PyVal)) = 1 := rfl
    have l : (yMap n ([] : List (String × PyVal))).length = 0 := rfl
    omega
  | cons kv t2 ih =>
    intro n
    have e : yPhiF (kv :: t2) = 1 + yPhiE kv + yPhiF t2 := rfl
    have l : (yMap n (kv :: t2)).length = (yEntry n kv).length + (yMap n t2).length := by
      rw [show yMap n (kv :: t2) = yEntry n kv ++ yMap n t2 from rfl, List.length_append]
    have h1 := h kv (by simp) n
    have h2 := ih (fun x hx => h x (by simp [hx])) n
    omega

theorem yILen_bound : ∀ v : PyVal, ∀ n : Nat,
    (yPhiI v + 1 ≤ 3 * (yItem n v).length)
    ∧ ∀ k, yPhiE (k, v) + 1 ≤ 3 * (yEntry n (k, v)).length := by
  refine pyval_ind
    (fun v => ∀ n, (yPhiI v + 1 ≤ 3 * (yItem n v).length)
      ∧ ∀ k, yPhiE (k, v) + 1 ≤ 3 * (yEntry n (k, v)).length)
    ?_ ?_ ?_ ?_ ?_ ?_ ?_ ?_
  · intro n
    refine ⟨?_, fun k => ?_⟩
    · have e : yPhiI .null = 1 := rfl
      have l : (yItem n .null).length = 1 := rfl
      omega
    · have e : yPhiE (k, PyVal.null) = 1 := rfl
      have l : (yEntry n (k, PyVal.null)).length = 1 := rfl
      omega
  · intro b n
    refine ⟨?_, fun k => ?_⟩
    · have e : yPhiI (.boolean b) = 1 := rfl
      have l : (yItem n (.boolean b)).length = 1 := rfl
      omega
    · have e : yPhiE (k, PyVal.boolean b) = 1 := rfl
      have l : (yEntry n (k, PyVal.boolean b)).length = 1 := rfl
      omega
  · intro m n
    refine ⟨?_, fun k => ?_⟩
    · have e : yPhiI (.int m) = 1 := rfl
      have l : (yItem n (.int m)).length = 1 := rfl
      omega
    · have e : yPhiE (k, PyVal.int m) = 1 := rfl
      have l : (yEntry n (k, PyVal.int m)).length = 1 := rfl
      omega
  · intro m e2 n
    refine ⟨?_, fun k => ?_⟩
    · have e : yPhiI (.float m e2) = 1 := rfl
      have l : (yItem n (.float m e2)).length = 1 := rfl
      omega
    · have e : yPhiE (k, PyVal.float m e2) = 1 := rfl
      have l : (yEntry n (k, PyVal.float m e2)).length = 1 := rfl
      omega
  · intro s n
    refine ⟨?_, fun k => ?_⟩
    · have e : yPhiI (.str s) = 1 := rfl
      have l : (yItem n (.str s)).length = 1 := rfl
      omega
    · have e : yPhiE (k, PyVal.str s) = 1 := rfl
      have l : (yEntry n (k, PyVal.str s)).length = 1 := rfl
      omega
  · intro xs hxs n
    cases xs with
    | nil =>
      refine ⟨?_, fun k => ?_⟩
      · have e : yPhiI (.arr []) = 1 := rfl
        have l : (yItem n (.arr [])).length = 1 := rfl
        omega
      · have e : yPhiE (k, PyVal.arr []) = 1 := rfl
        have l : (yEntry n (k, PyVal.arr [])).length = 1 := rfl
        omega
    | cons y t =>
      have h1 := (hxs y (by simp) (n + 2)).1
      have h2 := ySeq_len_bound
        (fun x hx n2 => (hxs x (List.mem_cons_of_mem y hx) n2).1) (n + 2)
      have la : (yItem n (.arr (y :: t))).length
          = 1 + ((yItem (n + 2) y).length + (ySeq (n + 2) t).length) := by
        rw [show yItem n (.arr (y :: t))
            = (n, ['-']) :: (yItem (n + 2) y ++ ySeq (n + 2) t) from rfl]
        simp [List.length_append]
        omega
      have ea : yPhiI (.arr (y :: t)) = 2 + yPhiI y + yPhiC t := rfl
      constructor
      · omega
      · intro k
        have le : (yEntry n (k, .arr (y :: t))).length
            = 1 + ((yItem (n + 2) y).length + (ySeq (n + 2) t).length) := by
          rw [show yEntry n (k, .arr (y :: t))
              = (n, strTok k ++ [':']) :: (yItem (n + 2) y ++ ySeq (n + 2) t) from rfl]
          simp [List.length_append]
          omega
        have ee : yPhiE (k, PyVal.arr (y :: t)) = 2 + yPhiI y + yPhiC t := rfl
        omega
  · intro kvs hkvs n
    cases kvs with
    | nil =>
      refine ⟨?_, fun k => ?_⟩
      · have e : yPhiI (.obj []) = 1 := rfl
        have l : (yItem n (.obj [])).length = 1 := rfl
        omega
      · have e : yPhiE (k, PyVal.obj []) = 1 := rfl
        have l : (yEntry n (k, PyVal.obj [])).length = 1 := rfl
        omega
    | cons kv t =>
      have h1 : yPhiE kv + 1 ≤ 3 * (yEntry (n + 2) kv).length := by
        have := ((hkvs kv (by simp)) (n + 2)).2 kv.1
        rw [show (kv.1, kv.2) = kv from rfl] at this
        exact this
      have h2 := yMap_len_bound (fun x hx n2 => by
        have := ((hkvs x (List.mem_cons_of_mem kv hx)) n2).2 x.1
        rw [show (x.1, x.2) = x from rfl] at this
        exact this) (n + 2)
      have la : (yItem n (.obj (kv :: t))).length
          = 1 + ((yEntry (n + 2) kv).length + (yMap (n + 2) t).length) := by
        rw [show yItem n (.obj (kv :: t))
            = (n, ['-']) :: (yEntry (n + 2) kv ++ yMap (n + 2) t) from rfl]
        simp [List.length_append]
        omega
      have ea : yPhiI (.obj (kv :: t)) = 2 + yPhiE kv + yPhiF t := rfl
      constructor
      · omega
      · intro k
        have le : (yEntry n (k, .obj (kv :: t))).length
            = 1 + ((yEntry (n + 2) kv).length + (yMap (n + 2) t).length) := by
          rw [show yEntry n (k, .obj (kv :: t))
              = (n, strTok k ++ [':']) :: (yEntry (n + 2) kv ++ yMap (n + 2) t) from rfl]
          simp [List.length_append]
          omega
        have ee : yPhiE (k, PyVal.obj (kv :: t)) = 2 + yPhiE kv + yPhiF t := rfl
        omega
  · intro tag n
    refine ⟨?_, fun k => ?_⟩
    · have e : yPhiI (.unsupported tag) = 1 := rfl
      have l : (yItem n (.unsupported tag)).length = 1 := rfl
      omega
    · have e : yPhiE (k, PyVal.unsupported tag) = 1 := rfl
      have l : (yEntry n (k, PyVal.unsupported tag)).length = 1 := rfl
      omega

theorem yVal_len_bound (v : PyVal) (n : Nat) :
    yPhiV v ≤ 3 * (yVal n v).length + 1 := by
  cases v with
  | null =>
    have e : yPhiV .null = 1 := rfl
    have l : (yVal n .null).length = 1 := rfl
    omega
  | boolean b =>
    have e : yPhiV (.boolean b) = 1 := rfl
    have l : (yVal n (.boolean b)).length = 1 := rfl
    omega
  | int m =>
    have e : yPhiV (.int m) = 1 := rfl
    have l : (yVal n (.int m)).length = 1 := rfl
    omega
  | float m e =>
    have he : yPhiV (.float m e) = 1 := rfl
    have l : (yVal n (.float m e)).length = 1 := rfl
    omega
  | str s =>
    have e : yPhiV (.str s) = 1 := rfl
    have l : (yVal n (.str s)).length = 1 := rfl
    omega
  | unsupported tag =>
    have e : yPhiV (.unsupported tag) = 1 := rfl
    have l : (yVal n (.unsupported tag)).length = 1 := rfl
    omega
  | arr xs =>
    cases xs with
    | nil =>
      have e : yPhiV (.arr []) = 1 := rfl
      have l : (yVal n (.arr [])).length = 1 := rfl
      omega
    | cons y t =>
      have h1 := (yILen_bound y n).1
      have h2 := ySeq_len_bound (t := t) (fun x _ n2 => (yILen_bound x n2).1) n
      have l : (yVal n (.arr (y :: t))).length
          = (yItem n y).length + (ySeq n t).length := by
        rw [show yVal n (.arr (y :: t)) = yItem n y ++ ySeq n t from rfl,
          List.length_append]
      have e : yPhiV (.arr (y :: t)) = 1 + yPhiI y + yPhiC t := rfl
      omega
  | obj kvs =>
    cases kvs with
    | nil =>
      have e : yPhiV (.obj []) = 1 := rfl
      have l : (yVal n (.obj [])).length = 1 := rfl
      omega
    | cons kv t =>
      have h1 : yPhiE kv + 1 ≤ 3 * (yEntry n kv).length := by
        have := (yILen_bound kv.2 n).2 kv.1
        rw [show (kv.1, kv.2) = kv from rfl] at this
        exact this
      have h2 := yMap_len_bound (t := t) (fun x _ n2 => by
        have := (yILen_bound x.2 n2).2 x.1
        rw [show (x.1, x.2) = x from rfl] at this
        exact this) n
      have l : (yVal n (.obj (kv :: t))).length
          = (yEntry n kv).length + (yMap n t).length := by
        rw [show yVal n (.obj (kv :: t)) = yEntry n kv ++ yMap n t from rfl,
          List.length_append]
      have e : yPhiV (.obj (kv :: t)) = 1 + yPhiE kv + yPhiF t := rfl
      omega

theorem yVal_ne_nil (v : PyVal) (n : Nat) : yVal n v ≠ [] := by
  cases v with
  | null => simp [yVal]
  | boolean b => simp [yVal]
  | int m => simp [yVal]
  | float m e => simp [yVal]
  | str s => simp [yVal]
  | unsupported tag => simp [yVal]
  | arr xs =>
    cases xs with
    | nil => simp [yVal]
    | cons y t =>
      obtain ⟨cy, ty, hsh, _⟩ := yItem_shape n y
      rw [show yVal n (.arr (y :: t)) = yItem n y ++ ySeq n t from rfl, hsh]
      simp
  | obj kvs =>
    cases kvs with
    | nil => simp [yVal]
    | cons kv t =>
      obtain ⟨ce, te, hsh, _, _⟩ := yEntry_shape n kv.1 kv.2
      rw [show (kv.1, kv.2) = kv from rfl] at hsh
      rw [show yVal n (.obj (kv :: t)) = yEntry n kv ++ yMap n t from rfl, hsh]
      simp

/-- Round trip through the block YAML emitter and the decoder. -/
theorem yamlDecode_yamlEncode (v : PyVal) (h : PyVal.supported v = true) :
    yamlDecode (yamlEncode v) = .ok v := by
  unfold yamlDecode yamlEncode
  rw [data_asString]
  have htl : toLines (renderLines (yVal 0 v)) = yVal 0 v :=
    toLines_renderLines _ (yVal_wf v 0)
  rw [htl]
  obtain ⟨l0, ls0, hv0⟩ : ∃ l0 ls0, yVal 0 v = l0 :: ls0 := by
    rcases hyv : yVal 0 v with _ | ⟨l0, ls0⟩
    · exact absurd hyv (yVal_ne_nil v 0)
    · exact ⟨l0, ls0, rfl⟩
  have hlen : 1 ≤ (yVal 0 v).length := by rw [hv0]; simp
  have hblk := (ystep_round (6 * (yVal 0 v).length + 1)).2.2.2.2 0 v [] h rfl
    (by have := yVal_len_bound v 0; omega)
  rw [List.append_nil] at hblk
  rw [hv0] at hblk ⊢
  simp only [List.length_cons] at hblk
  simp [hblk]

/-! ## Basic filesystem lemmas -/

theorem lookupE_eraseKey_ne {l : List (PPath × Entry)} {p q : PPath} (h : q ≠ p) :
    lookupE q (eraseKey p l) = lookupE q l := by
  induction l with
  | nil => rfl
  | cons kv t ih =>
    obtain ⟨a, e⟩ := kv
    by_cases hap : a = p
    · subst hap
      simp [eraseKey, lookupE, h, ih]
    · by_cases hqa : q = a
      · subst hqa
        simp [eraseKey, lookupE, hap]
      · simp [eraseKey, lookupE, hap, hqa, ih]

theorem lookupE_eraseKey_self {l : List (PPath × Entry)} {p : PPath} :
    lookupE p (eraseKey p l) = none := by
  induction l with
  | nil => rfl
  | cons kv t ih =>
    obtain ⟨a, e⟩ := kv
    by_cases hap : a = p
    · simp [eraseKey, hap, ih]
    · have hpa : p ≠ a := fun hh => hap hh.symm
      simp [eraseKey, lookupE, hap, hpa, ih]

theorem FS.get_put_self (fs : FS) (p : PPath) (e : Entry) :
    (fs.put p e).get p = some e := by
  simp [FS.get, FS.put, lookupE]

theorem FS.get_put_ne (fs : FS) (p q : PPath) (e : Entry) (h : q ≠ p) :
    (fs.put p e).get q = fs.get q := by
  simp [FS.get, FS.put, lookupE, h, lookupE_eraseKey_ne h]

theorem FS.get_del_self (fs : FS) (p : PPath) :
    (fs.del p).get p = none := by
  simp [FS.get, FS.del, lookupE_eraseKey_self]

theorem FS.get_del_ne (fs : FS) (p q : PPath) (h : q ≠ p) :
    (fs.del p).get q = fs.get q := by
  simp [FS.get, FS.del, lookupE_eraseKey_ne h]

theorem FS.get_mkdirP (fs : FS) (d : String) (q : PPath) :
    (fs.mkdirP d).get q = fs.get q := rfl

/-- The temporary path never collides with the target: its file name is two
characters plus the suffix longer. -/
theorem tmpPath_ne (t : PPath) (sfx : String) : tmpPath t sfx ≠ t := by
  intro h
  have hl : (tmpPath t sfx).name.length = t.name.length :=
    congrArg (fun p => p.name.length) h
  have hdot : (".").length = 1 := rfl
  simp [tmpPath, String.length_append, hdot] at hl
  omega

/-! ## Protocol lemmas for atomicity (C1), cleanup and naming (C7) -/

/-- Under any injected fault, `_atomic_write_bytes` leaves the target
unchanged and surfaces an error. -/
theorem awbRun_fault_rollback (fs : FS) (t : PPath) (sfx data : String)
    (f : Fault) :
    ((awbRun fs t sfx data (some f)).final.get t = fs.get t) ∧
    (∃ e, (awbRun fs t sfx data (some f)).outcome = .error e) := by
  have hne : t ≠ tmpPath t sfx := (tmpPath_ne t sfx).symm
  cases f <;>
    simp [awbRun, cleanupRun, FS.get_del_ne _ _ _ hne,
      FS.get_put_ne _ _ _ _ hne, FS.get_mkdirP]

/-- In every run of `_atomic_write_bytes` (faulted or not), every observable
intermediate state shows the target either with its prior content/absence or
with the complete new data — never a partial write. -/
theorem awbRun_no_partial (fs : FS) (t : PPath) (sfx data : String)
    (fault : Option Fault) :
    ∀ s ∈ (awbRun fs t sfx data fault).states,
      s.get t = fs.get t ∨ s.get t = some (.data data) := by
  have hne : t ≠ tmpPath t sfx := (tmpPath_ne t sfx).symm
  intro s hs
  rcases fault with _ | f
  · simp [awbRun] at hs
    rcases hs with rfl | rfl | rfl | rfl | rfl <;>
      simp [FS.get_del_ne _ _ _ hne, FS.get_put_ne _ _ _ _ hne,
        FS.get_put_self, FS.get_mkdirP]
  · cases f <;>
      · simp [awbRun, cleanupRun] at hs
        rcases hs with rfl | rfl | rfl | rfl | rfl <;>
          simp [FS.get_del_ne _ _ _ hne, FS.get_put_ne _ _ _ _ hne,
            FS.get_mkdirP]

/-- On success, `_atomic_write_bytes` installs exactly the data at the target. -/
theorem awbRun_ok (fs : FS) (t : PPath) (sfx data : String) :
    (awbRun fs t sfx data none).final.get t = some (.data data) ∧
    (awbRun fs t sfx data none).outcome = .ok () := by
  simp [awbRun, FS.get_put_self]

/-- In every run of `_atomic_write_bytes`, starting from a state where the
temporary path is absent, the temporary file is gone again at the end:
removed by the cleanup handler on failure, renamed away on success. -/
theorem awbRun_tmp_gone (fs : FS) (t : PPath) (sfx data : String)
    (fault : Option Fault) (hfresh : fs.get (tmpPath t sfx) = none) :
    (awbRun fs t sfx data fault).final.get (tmpPath t sfx) = none := by
  rcases fault with _ | f
  · simp [awbRun, FS.get_del_self, FS.get_put_ne _ _ _ _ (tmpPath_ne t sfx)]
  · cases f <;>
      simp [awbRun, cleanupRun, FS.get_del_self, FS.get_mkdirP, hfresh]

/-- Under any injected fault (including a failing caller body), the
`atomic_write` context manager leaves the target unchanged and surfaces an
error. -/
theorem ctxRun_fault_rollback (fs : FS) (t : PPath) (sfx mode : String)
    (encoding : Option String) (chunks : List String) (f : CtxFault) :
    ((ctxRun fs t sfx mode encoding chunks (some f)).final.get t = fs.get t) ∧
    (∃ e, (ctxRun fs t sfx mode encoding chunks (some f)).outcome = .error e) := by
  have hne : t ≠ tmpPath t sfx := (tmpPath_ne t sfx).symm
  by_cases hbin : encoding ≠ none ∧ 'b' ∈ mode.data
  · simp [ctxRun, hbin]
  · cases f <;>
      simp [ctxRun, hbin, cleanupRun, FS.get_del_ne _ _ _ hne,
        FS.get_put_ne _ _ _ _ hne, FS.get_mkdirP]

/-- In every run of the `atomic_write` context manager, every observable
intermediate state shows the target either unchanged or holding the complete
concatenation of the body's writes. -/
theorem ctxRun_no_partial (fs : FS) (t : PPath) (sfx mode : String)
    (encoding : Option String) (chunks : List String) (fault : Option CtxFault) :
    ∀ s ∈ (ctxRun fs t sfx mode encoding chunks fault).states,
      s.get t = fs.get t ∨ s.get t = some (.data (String.join chunks)) := by
  have hne : t ≠ tmpPath t sfx := (tmpPath_ne t sfx).symm
  intro s hs
  by_cases hbin : encoding ≠ none ∧ 'b' ∈ mode.data
  · simp [ctxRun, hbin] at hs
    subst hs; left; rfl
  · rcases fault with _ | f
    · simp [ctxRun, hbin] at hs
      rcases hs with rfl | rfl | rfl | rfl | rfl <;>
        simp [FS.get_del_ne _ _ _ hne, FS.get_put_ne _ _ _ _ hne,
          FS.get_put_self, FS.get_mkdirP]
    · cases f <;>
        · simp [ctxRun, hbin, cleanupRun] at hs
          rcases hs with rfl | rfl | rfl | rfl | rfl <;>
            simp [FS.get_del_ne _ _ _ hne, FS.get_put_ne _ _ _ _ hne,
              FS.get_mkdirP]

/-- On success, the context manager installs the body's full output. -/
theorem ctxRun_ok (fs : FS) (t : PPath) (sfx mode : String)
    (encoding : Option String) (chunks : List String)
    (hbin : ¬ (encoding ≠ none ∧ 'b' ∈ mode.data)) :
    (ctxRun fs t sfx mode encoding chunks none).final.get t
      = some (.data (String.join chunks)) ∧
    (ctxRun fs t sfx mode encoding chunks none).outcome = .ok () := by
  simp [ctxRun, hbin, FS.get_put_self]

/-- In every run of the context manager from a temp-free state, no temporary
file remains at the end. -/
theorem ctxRun_tmp_gone (fs : FS) (t : PPath) (sfx mode : String)
    (encoding : Option String) (chunks : List String) (fault : Option CtxFault)
    (hfresh : fs.get (tmpPath t sfx) = none) :
    (ctxRun fs t sfx mode encoding chunks fault).final.get (tmpPath t sfx) = none := by
  by_cases hbin : encoding ≠ none ∧ 'b' ∈ mode.data
  · simpa [ctxRun, hbin] using hfresh
  · rcases fault with _ | f
    · simp [ctxRun, hbin, FS.get_del_self, FS.get_put_ne _ _ _ _ (tmpPath_ne t sfx)]
    · cases f <;>
        simp [ctxRun, hbin, cleanupRun, FS.get_del_self, FS.get_mkdirP, hfresh]

/-! ## Supporting lemmas for the operation layer -/

/-- Every error surfaced by `_atomic_write_bytes` itself is an `OSError`. -/
theorem awbRun_err_osError (fs : FS) (t : PPath) (sfx data : String)
    (fault : Option Fault) (e : PyErr)
    (h : (awbRun fs t sfx data fault).outcome = .error e) : ∃ m, e = .osError m := by
  rcases fault with _ | f
  · simp [awbRun] at h
  · cases f <;> simp [awbRun, cleanupRun] at h <;> exact ⟨_, h.symm⟩

/-- `read_bytes` fails only with `FileNotFoundError` or `PermissionError`. -/
theorem readBytes_err_shape (fs : FS) (p : PPath) (e : PyErr)
    (h : readBytes fs p = .error e) :
    (∃ m, e = .fileNotFoundError m) ∨ ∃ m, e = .permissionError m := by
  unfold readBytes at h
  rcases hg : fs.get p with _ | ent
  · rw [hg] at h
    simp at h
    exact Or.inl ⟨_, h.symm⟩
  · rw [hg] at h
    cases ent with
    | data c => simp at h
    | denied =>
      simp at h
      exact Or.inr ⟨_, h.symm⟩

/-- Looking up an index in the graph of a function over a completion order
finds the function value, wherever the index completed. -/
theorem lookup_map_graph {α : Type} (f : Nat → α) :
    ∀ (order : List Nat) (i : Nat), i ∈ order →
      (order.map (fun j => (j, f j))).lookup i = some (f i) := by
  intro order
  induction order with
  | nil => intro i h; simp at h
  | cons a t ih =>
    intro i h
    by_cases hia : i = a
    · subst hia
      simp [List.lookup]
    · rcases List.mem_cons.mp h with rfl | h2
      · exact absurd rfl hia
      · have hba : (i == a) = false := by simpa using hia
        simp only [List.map_cons, List.lookup, hba]
        exact ih i h2

theorem map_range_getD (f : PPath → Except PyErr String) :
    ∀ paths : List PPath,
      (List.range paths.length).map (fun i => f (paths.getD i ⟨"", ""⟩))
        = paths.map f := by
  intro paths
  induction paths with
  | nil => rfl
  | cons p t ih =>
    rw [show (p :: t).length = t.length + 1 from rfl, List.range_succ_eq_map]
    simp only [List.map_cons, List.map_map]
    rw [show ((fun i => f ((p :: t).getD i ⟨"", ""⟩)) ∘ fun i => i + 1)
        = (fun i => f (t.getD i ⟨"", ""⟩)) from rfl]
    rw [ih]
    rfl

theorem read_many_async_ordered (fs : FS) (paths : List PPath) (order : List Nat)
    (h : order.Perm (List.range paths.length)) :
    read_many_async fs paths order = paths.map (fun p => readBytes fs p) := by
  unfold read_many_async gatherResults completionResults
  have hmem : ∀ i ∈ List.range paths.length,
      ((order.map (fun j => (j, readBytes fs (paths.getD j ⟨"", ""⟩)))).lookup i)
        = some (readBytes fs (paths.getD i ⟨"", ""⟩)) := by
    intro i hi
    exact lookup_map_graph _ order i (h.mem_iff.mpr hi)
  rw [List.map_congr_left (fun i hi => by rw [hmem i hi])]
  exact map_range_getD (fun p => readBytes fs p) paths

/-! ## The claims -/

/-- C1: for every write through `dump_json`, `dump_yaml`, or the
`atomic_write` context manager, an injected fault at any protocol step leaves
the target's content (or absence) exactly as before the call and surfaces an
error, and every observable intermediate state shows the target with either
its prior content or the complete new content — never a partial write. -/
theorem claim_atomic_no_partial_rollback :
    (∀ fs t sfx (v : PyVal) (ind : Int) (f : Fault),
      (dump_json fs t sfx v ind (some f)).final.get t = fs.get t
      ∧ ∃ e, (dump_json fs t sfx v ind (some f)).outcome = .error e)
    ∧ (∀ fs t sfx (v : PyVal) (f : Fault),
      (dump_yaml fs t sfx v (some f)).final.get t = fs.get t
      ∧ ∃ e, (dump_yaml fs t sfx v (some f)).outcome = .error e)
    ∧ (∀ fs t sfx mode enc chunks (f : CtxFault),
      (ctxRun fs t sfx mode enc chunks (some f)).final.get t = fs.get t
      ∧ ∃ e, (ctxRun fs t sfx mode enc chunks (some f)).outcome = .error e)
    ∧ (∀ fs t sfx data fault, ∀ s ∈ (awbRun fs t sfx data fault).states,
      s.get t = fs.get t ∨ s.get t = some (.data data))
    ∧ (∀ fs t sfx mode enc chunks fault,
      ∀ s ∈ (ctxRun fs t sfx mode enc chunks fault).states,
      s.get t = fs.get t ∨ s.get t = some (.data (String.join chunks))) := by
  refine ⟨?_, ?_, ?_, awbRun_no_partial, ctxRun_no_partial⟩
  · intro fs t sfx v ind f
    unfold dump_json
    cases hjb : jsonBytesE v ind with
    | error e => exact ⟨rfl, e, rfl⟩
    | ok b => exact awbRun_fault_rollback fs t sfx b f
  · intro fs t sfx v f
    unfold dump_yaml
    cases hjb : yamlBytesE v with
    | error e => exact ⟨rfl, e, rfl⟩
    | ok b => exact awbRun_fault_rollback fs t sfx b f
  · intro fs t sfx mode enc chunks f
    exact ctxRun_fault_rollback fs t sfx mode enc chunks f

theorem claim_atomic_no_partial_rollback_witness :
    (FS.mk [] []) ∈ (awbRun (FS.mk [] []) ⟨"d", "f"⟩ "s1" "x" (some .atFsync)).states
    ∧ ((FS.mk [] []).get ⟨"d", "f"⟩ = (FS.mk [] []).get ⟨"d", "f"⟩
      ∨ (FS.mk [] []).get ⟨"d", "f"⟩ = some (.data "x")) :=
  ⟨by decide,
    claim_atomic_no_partial_rollback.2.2.2.1 (FS.mk [] []) ⟨"d", "f"⟩ "s1" "x"
      (some .atFsync) (FS.mk [] []) (by decide)⟩

/-- C2 counterexample: the spec's `durable = false` mode (close without any
flush-to-storage before the rename) matches no behaviour of
`_atomic_write_bytes`, whose fault-free action trace always contains the
`os.fsync` call — the code exposes no durability flag. -/
theorem claim_durability_flag_counterexample :
    specWriteActions false ≠ awbActions ∧ Action.fsync ∈ awbActions := by
  constructor
  · decide
  · decide

/-- C2 amended: `_atomic_write_bytes` unconditionally flushes, fsyncs and
closes the temporary file before the rename (exactly the spec's
`durable = true` trace), and the `atomic_write` context manager never fsyncs
yet still renames. -/
theorem claim_durability_always_fsync_amended :
    awbActions = specWriteActions true
    ∧ ∀ n, Action.fsync ∉ ctxActions n ∧ Action.rename ∈ ctxActions n := by
  refine ⟨by decide, fun n => ⟨?_, ?_⟩⟩
  · intro hm
    simp [ctxActions, List.mem_append, List.mem_replicate] at hm
  · simp [ctxActions]

/-- C3: on every supported value (null, booleans, integers, exact-decimal
floats, Unicode strings, nested sequences/mappings), loading after dumping
returns the value, in both the JSON format (any indent) and the YAML
format. -/
theorem claim_roundtrip_json_yaml :
    ∀ fs t sfx (v : PyVal), PyVal.supported v = true → ∀ ind : Int,
      load_json (dump_json fs t sfx v ind none).final t = .ok v
      ∧ load_yaml (dump_yaml fs t sfx v none).final t = .ok v := by
  intro fs t sfx v hs ind
  constructor
  · unfold dump_json jsonBytesE
    rw [if_pos hs]
    by_cases hind : (0 : Int) < ind
    · rw [if_pos hind]
      have hok := awbRun_ok fs t sfx ((encG (some ind.toNat) 0 v).asString)
      have hread : readBytes
          (awbRun fs t sfx ((encG (some ind.toNat) 0 v).asString) none).final t
          = .ok ((encG (some ind.toNat) 0 v).asString) := by
        unfold readBytes
        rw [hok.1]
      unfold load_json
      rw [hread]
      simp [jsonDecode_encG v hs]
    · rw [if_neg hind]
      have hok := awbRun_ok fs t sfx ((encG none 0 v).asString)
      have hread : readBytes
          (awbRun fs t sfx ((encG none 0 v).asString) none).final t
          = .ok ((encG none 0 v).asString) := by
        unfold readBytes
        rw [hok.1]
      unfold load_json
      rw [hread]
      simp [jsonDecode_encG v hs]
  · unfold dump_yaml yamlBytesE
    rw [if_pos hs]
    have hok := awbRun_ok fs t sfx (yamlEncode v)
    have hread : readBytes (awbRun fs t sfx (yamlEncode v) none).final t
        = .ok (yamlEncode v) := by
      unfold readBytes
      rw [hok.1]
    unfold load_yaml
    rw [hread]
    simp [yamlDecode_yamlEncode v hs]

theorem claim_roundtrip_json_yaml_witness :
    PyVal.supported (.obj [("k", .str "π🚀"), ("n", .int (-3))]) = true
    ∧ load_json (dump_json ⟨[], []⟩ ⟨"d", "c.json"⟩ "t1"
        (.obj [("k", .str "π🚀"), ("n", .int (-3))]) 2 none).final ⟨"d", "c.json"⟩
      = .ok (.obj [("k", .str "π🚀"), ("n", .int (-3))]) :=
  ⟨rfl, (claim_roundtrip_json_yaml ⟨[], []⟩ ⟨"d", "c.json"⟩ "t1"
    (.obj [("k", .str "π🚀"), ("n", .int (-3))]) rfl 2).1⟩

/-- C4: encoding `{"name": "Easy File", "version": "0.4.0"}` as JSON with
indent 2 produces exactly the docstring bytes, and with indent 0 exactly the
compact bytes with no whitespace between tokens. -/
theorem claim_json_example_bytes :
    jsonBytesE (.obj [("name", .str "Easy File"), ("version", .str "0.4.0")]) 2
      = .ok "\x7b\n  \"name\": \"Easy File\",\n  \"version\": \"0.4.0\"\n\x7d"
    ∧ jsonBytesE (.obj [("name", .str "Easy File"), ("version", .str "0.4.0")]) 0
      = .ok "\x7b\"name\":\"Easy File\",\"version\":\"0.4.0\"\x7d" :=
  ⟨rfl, rfl⟩

/-- C5: `read_many_async` returns one result per input path, the `i`-th
being the read of the `i`-th path, for every completion order of the
underlying tasks. -/
theorem claim_read_many_order :
    ∀ fs (paths : List PPath) (order : List Nat),
      order.Perm (List.range paths.length) →
      read_many_async fs paths order = paths.map (fun p => readBytes fs p)
      ∧ (read_many_async fs paths order).length = paths.length := by
  intro fs paths order h
  have he := read_many_async_ordered fs paths order h
  exact ⟨he, by rw [he]; simp⟩

theorem claim_read_many_order_witness :
    ([2, 0, 1] : List Nat).Perm
      (List.range ([⟨"d", "a"⟩, ⟨"d", "b"⟩, ⟨"d", "c"⟩] : List PPath).length)
    ∧ read_many_async ⟨["d"], [(⟨"d", "a"⟩, .data "A")]⟩
        [⟨"d", "a"⟩, ⟨"d", "b"⟩, ⟨"d", "c"⟩] [2, 0, 1]
      = ([⟨"d", "a"⟩, ⟨"d", "b"⟩, ⟨"d", "c"⟩] : List PPath).map
          (fun p => readBytes ⟨["d"], [(⟨"d", "a"⟩, .data "A")]⟩ p) :=
  ⟨by decide,
    (claim_read_many_order ⟨["d"], [(⟨"d", "a"⟩, .data "A")]⟩
      [⟨"d", "a"⟩, ⟨"d", "b"⟩, ⟨"d", "c"⟩] [2, 0, 1] (by decide)).1⟩

/-- C6: every failure surfaced by the load and dump operations is one of the
taxonomy kinds (never unclassified); in particular reading a missing path
fails with the kind NotFound. -/
theorem claim_error_taxonomy :
    (∀ fs p e, load_json fs p = .error e → classifyErr e ≠ .unclassified)
    ∧ (∀ fs p e, load_yaml fs p = .error e → classifyErr e ≠ .unclassified)
    ∧ (∀ fs t sfx v ind fault e,
        (dump_json fs t sfx v ind fault).outcome = .error e →
        classifyErr e ≠ .unclassified)
    ∧ (∀ fs t sfx v fault e,
        (dump_yaml fs t sfx v fault).outcome = .error e →
        classifyErr e ≠ .unclassified)
    ∧ (∀ fs p, fs.get p = none →
        ∃ m, load_json fs p = .error (.fileNotFoundError m)
          ∧ classifyErr (.fileNotFoundError m) = .notFound) := by
  refine ⟨?_, ?_, ?_, ?_, ?_⟩
  · intro fs p e h
    unfold load_json at h
    cases hrb : readBytes fs p with
    | error e0 =>
      rw [hrb] at h
      simp at h
      subst h
      rcases readBytes_err_shape fs p e0 hrb with ⟨m, rfl⟩ | ⟨m, rfl⟩ <;>
        simp [classifyErr]
    | ok c =>
      rw [hrb] at h
      have h2 : (match jsonDecode c with
          | .ok v => (.ok v : Except PyErr PyVal)
          | .error e2 => .error (.jsonDecodeError
              ("Failed to decode JSON from " ++ p.render ++ ": " ++ e2))) = .error e := h
      cases hjd : jsonDecode c with
      | ok v => rw [hjd] at h2; simp at h2
      | error e2 =>
        rw [hjd] at h2
        simp at h2
        subst h2
        simp [classifyErr]
  · intro fs p e h
    unfold load_yaml at h
    cases hrb : readBytes fs p with
    | error e0 =>
      rw [hrb] at h
      simp at h
      subst h
      rcases readBytes_err_shape fs p e0 hrb with ⟨m, rfl⟩ | ⟨m, rfl⟩ <;>
        simp [classifyErr]
    | ok c =>
      rw [hrb] at h
      have h2 : (match yamlDecode c with
          | .ok v => (.ok v : Except PyErr PyVal)
          | .error e2 => .error (.yamlDecodeError
              ("Failed to decode YAML from " ++ p.render ++ ": " ++ e2))) = .error e := h
      cases hjd : yamlDecode c with
      | ok v => rw [hjd] at h2; simp at h2
      | error e2 =>
        rw [hjd] at h2
        simp at h2
        subst h2
        simp [classifyErr]
  · intro fs t sfx v ind fault e h
    unfold dump_json at h
    cases hjb : jsonBytesE v ind with
    | error e0 =>
      rw [hjb] at h
      simp at h
      subst h
      unfold jsonBytesE at hjb
      by_cases hsup : PyVal.supported v = true
      · rw [if_pos hsup] at hjb
        simp at hjb
      · rw [if_neg hsup] at hjb
        simp at hjb
        rw [← hjb]
        simp [classifyErr]
    | ok b =>
      rw [hjb] at h
      obtain ⟨m, rfl⟩ := awbRun_err_osError fs t sfx b fault e h
      simp [classifyErr]
  · intro fs t sfx v fault e h
    unfold dump_yaml at h
    cases hjb : yamlBytesE v with
    | error e0 =>
      rw [hjb] at h
      simp at h
      subst h
      unfold yamlBytesE at hjb
      by_cases hsup : PyVal.supported v = true
      · rw [if_pos hsup] at hjb
        simp at hjb
      · rw [if_neg hsup] at hjb
        simp at hjb
        rw [← hjb]
        simp [classifyErr]
    | ok b =>
      rw [hjb] at h
      obtain ⟨m, rfl⟩ := awbRun_err_osError fs t sfx b fault e h
      simp [classifyErr]
  · intro fs p hnone
    refine ⟨"No such file or directory: " ++ p.render, ?_, rfl⟩
    unfold load_json readBytes
    rw [hnone]

theorem claim_error_taxonomy_witness :
    load_json ⟨[], []⟩ ⟨"d", "x.json"⟩
      = .error (.fileNotFoundError "No such file or directory: d/x.json")
    ∧ classifyErr (.fileNotFoundError "No such file or directory: d/x.json")
      ≠ .unclassified :=
  ⟨rfl, claim_error_taxonomy.1 ⟨[], []⟩ ⟨"d", "x.json"⟩ _ rfl⟩

/-- C7: the temporary staging file of every atomic write is named
`.<target-file-name>.<unique-suffix>`, lives in the target's parent
directory, and — starting from a state where it does not exist — is gone
again at the end of every run, faulted or not, of both atomic write paths. -/
theorem claim_tmp_naming_cleanup :
    (∀ t sfx, (tmpPath t sfx).name = "." ++ t.name ++ "." ++ sfx
      ∧ (tmpPath t sfx).dir = t.dir)
    ∧ (∀ fs t sfx data fault, fs.get (tmpPath t sfx) = none →
        (awbRun fs t sfx data fault).final.get (tmpPath t sfx) = none)
    ∧ (∀ fs t sfx mode enc chunks fault, fs.get (tmpPath t sfx) = none →
        (ctxRun fs t sfx mode enc chunks fault).final.get (tmpPath t sfx) = none) :=
  ⟨fun t sfx => ⟨rfl, rfl⟩, awbRun_tmp_gone, ctxRun_tmp_gone⟩

theorem claim_tmp_naming_cleanup_witness :
    (FS.mk [] []).get (tmpPath ⟨"d", "f"⟩ "s7") = none
    ∧ (awbRun ⟨[], []⟩ ⟨"d", "f"⟩ "s7" "data" (some .atRename)).final.get
        (tmpPath ⟨"d", "f"⟩ "s7") = none :=
  ⟨rfl, claim_tmp_naming_cleanup.2.1 ⟨[], []⟩ ⟨"d", "f"⟩ "s7" "data"
    (some .atRename) rfl⟩

/-- C8: loading the malformed bytes `{bad json` as JSON fails with a
`JSONDecodeError` whose message contains the target path and opens with the
JSON decode-failure indication. -/
theorem claim_malformed_json_decode_error :
    ∃ msg a b,
      load_json ⟨["/app"], [(⟨"/app", "cfg.json"⟩, .data "\x7bbad json")]⟩
          ⟨"/app", "cfg.json"⟩
        = .error (.jsonDecodeError msg)
      ∧ msg = a ++ PPath.render ⟨"/app", "cfg.json"⟩ ++ b
      ∧ a = "Failed to decode JSON from " :=
  ⟨"Failed to decode JSON from /app/cfg.json: expected key or brace",
    "Failed to decode JSON from ", ": expected key or brace", rfl, rfl, rfl⟩

/-- C9: dumping a value outside the codec domain fails with `TypeError`
(the taxonomy's EncodeError) before any filesystem action: no state change is
ever observable and the filesystem is returned unchanged, for both formats
and under every injected write fault. -/
theorem claim_encode_error_no_write :
    ∀ fs t sfx (v : PyVal), PyVal.supported v = false → ∀ (ind : Int) fault,
      ((dump_json fs t sfx v ind fault).final = fs
        ∧ (dump_json fs t sfx v ind fault).states = [fs]
        ∧ ∃ m, (dump_json fs t sfx v ind fault).outcome = .error (.typeError m))
      ∧ ((dump_yaml fs t sfx v fault).final = fs
        ∧ (dump_yaml fs t sfx v fault).states = [fs]
        ∧ ∃ m, (dump_yaml fs t sfx v fault).outcome = .error (.typeError m)) := by
  intro fs t sfx v hs ind fault
  have hsup : ¬ PyVal.supported v = true := by rw [hs]; simp
  have hjb : jsonBytesE v ind
      = .error (.typeError "Encoding objects of this type is unsupported") := by
    unfold jsonBytesE
    rw [if_neg hsup]
  have hyb : yamlBytesE v
      = .error (.typeError "Encoding objects of this type is unsupported") := by
    unfold yamlBytesE
    rw [if_neg hsup]
  constructor
  · unfold dump_json
    rw [hjb]
    exact ⟨rfl, rfl, _, rfl⟩
  · unfold dump_yaml
    rw [hyb]
    exact ⟨rfl, rfl, _, rfl⟩

theorem claim_encode_error_no_write_witness :
    PyVal.supported (.unsupported "set object") = false
    ∧ (dump_json ⟨[], []⟩ ⟨"d", "f.json"⟩ "s1" (.unsupported "set object") 2
        none).final = ⟨[], []⟩ :=
  ⟨rfl, ((claim_encode_error_no_write ⟨[], []⟩ ⟨"d", "f.json"⟩ "s1"
    (.unsupported "set object") rfl 2 none).1).1⟩

/-- C10: calling `atomic_write` with a binary mode and an explicit encoding
raises `ValueError` before any directory or temporary file is created: the
run records no state change at all. -/
theorem claim_binary_encoding_valueerror :
    ∀ fs t sfx (mode : String) (enc : String) chunks fault,
      'b' ∈ mode.data →
      ctxRun fs t sfx mode (some enc) chunks fault
        = { states := [fs], final := fs,
            outcome := .error
              (.valueError "encoding argument not supported in binary mode") } := by
  intro fs t sfx mode enc chunks fault hb
  unfold ctxRun
  rw [if_pos ⟨by simp, hb⟩]

theorem claim_binary_encoding_valueerror_witness :
    'b' ∈ ("wb" : String).data
    ∧ ctxRun ⟨[], []⟩ ⟨"d", "f.bin"⟩ "s2" "wb" (some "utf-8") ["x"] none
      = { states := [⟨[], []⟩], final := ⟨[], []⟩,
          outcome := .error
            (.valueError "encoding argument not supported in binary mode") } :=
  ⟨by decide, claim_binary_encoding_valueerror ⟨[], []⟩ ⟨"d", "f.bin"⟩ "s2" "wb"
    "utf-8" ["x"] none (by decide)⟩

end EasyFile
